import Mathlib

/-!
# Obfuscation passes of `backend/src`: a shallow embedding

The passes rewrite an LLVM module.  The part of the host's IR the passes read and
write is modelled by plain data (`Module`, `GlobalVariable`, `Function`,
`BasicBlock`, `Instruction`); object identity (the C++ pointers) is modelled by
numeric ids for instructions and blocks and by list positions for globals and
functions.  32-bit machine integers are naturals reduced modulo `2 ^ 32`.
-/

namespace Obfusca

/-! ## `std::mt19937`, the generator every seeded pass owns -/

/-- State of `std::mt19937`: 624 words of 32 bits and the read position. -/
structure Mt19937 where
  state : List Nat
  index : Nat
  deriving DecidableEq, Repr

namespace Mt19937

/-- Seeding recurrence `x[i] = 1812433253 * (x[i-1] ^ (x[i-1] >> 30)) + i` on 32 bits. -/
def seedWords : Nat → Nat → Nat → List Nat
  | 0, _, _ => []
  | n + 1, i, prev =>
    let x := if i = 0 then prev else (1812433253 * (prev ^^^ (prev >>> 30)) + i) % 2 ^ 32
    x :: seedWords n (i + 1) x

/-- Generator as constructed by `std::mt19937(seed)`. -/
def seed (s : Nat) : Mt19937 := ⟨seedWords 624 0 (s % 2 ^ 32), 624⟩

/-- One step of the in-place regeneration of the state. -/
def twistAt (st : List Nat) (i : Nat) : List Nat :=
  let y := (st.getD i 0 &&& 0x80000000) ||| (st.getD ((i + 1) % 624) 0 &&& 0x7fffffff)
  let v := st.getD ((i + 397) % 624) 0 ^^^ (y >>> 1) ^^^ (if y % 2 = 1 then 0x9908b0df else 0)
  st.set i v

def twist (st : List Nat) : List Nat := (List.range 624).foldl twistAt st

def temper (y0 : Nat) : Nat :=
  let y1 := y0 ^^^ ((y0 >>> 11) &&& 0xffffffff)
  let y2 := y1 ^^^ ((y1 <<< 7) &&& 0x9d2c5680)
  let y3 := y2 ^^^ ((y2 <<< 15) &&& 0xefc60000)
  y3 ^^^ (y3 >>> 18)

/-- Call `RNG()`: the next 32-bit output and the advanced generator. -/
def next (g : Mt19937) : Nat × Mt19937 :=
  let g1 : Mt19937 := if g.index ≥ 624 then ⟨twist g.state, 0⟩ else g
  (temper (g1.state.getD g1.index 0) % 2 ^ 32, ⟨g1.state, g1.index + 1⟩)

end Mt19937

/-- Constructor argument handling shared by the seeded passes: `RNG(seed ? seed : 0xC0FFEE)`
with `unsigned seed`. -/
def seededRNG (seed : Nat) : Mt19937 :=
  Mt19937.seed (if seed % 2 ^ 32 ≠ 0 then seed % 2 ^ 32 else 0xC0FFEE)

/-! ## Stream formatting -/

/-- Text written by `stream << n` for an unsigned integer in decimal. -/
def decimal (n : Nat) : String := String.mk (Nat.toDigits 10 n)

/-- Text written by `std::hex << std::setw(width) << std::setfill('0') << n`, which is also
what the conversion `%0<width>x` produces: lowercase hexadecimal digits, left-padded
with zeros up to the minimum width. -/
def hexPadded (width n : Nat) : String :=
  let ds := Nat.toDigits 16 n
  String.mk (List.replicate (width - ds.length) '0' ++ ds)

/-! ## The IR the passes work on -/

inductive Linkage where
  | ExternalLinkage
  | InternalLinkage
  | PrivateLinkage
  | AppendingLinkage
  | OtherLinkage (tag : Nat)
  deriving DecidableEq, Repr

/-- Constants without operands of their own. -/
inductive SimpleConstant where
  | int (bits value : Nat)
  | function (idx : Nat)
  | global (idx : Nat)
  | null
  | other (tag : Nat)
  deriving DecidableEq, Repr

/-- Operand of a `ConstantArray`: a `ConstantStruct` of simple fields, a simple constant, or
anything nested deeper. -/
inductive ArrayElement where
  | struct (fields : List SimpleConstant)
  | simple (c : SimpleConstant)
  | other (tag : Nat)
  deriving DecidableEq, Repr

/-- Initializer of a global variable, by the class of the constant. -/
inductive Constant where
  | dataArray (elemBits : Nat) (elems : List Nat)
  | array (elems : List ArrayElement)
  | aggregateZero
  | simple (c : SimpleConstant)
  | other (tag : Nat)
  deriving DecidableEq, Repr

structure GlobalVariable where
  name : String
  linkage : Linkage
  isConstant : Bool
  initializer : Option Constant
  deriving DecidableEq, Repr

inductive Ty where
  | void
  | int (bits : Nat)
  | ptr
  deriving DecidableEq, Repr

inductive Value where
  | constInt (bits value : Nat)
  | inst (id : Nat)
  | global (idx : Nat)
  | block (id : Nat)
  | argument (n : Nat)
  | other (tag : Nat)
  deriving DecidableEq, Repr

inductive Opcode where
  | PHI
  | LandingPad
  | CatchPad
  | CleanupPad
  | Alloca
  | Load
  | Store
  | GetElementPtr
  | Add
  | Sub
  | Mul
  | Xor
  | ICmpULT
  | ICmpSGE
  | Call
  | Other (tag : Nat)
  | Br
  | Ret
  | Unreachable
  | CatchSwitch
  | OtherTerminator (tag : Nat)
  deriving DecidableEq, Repr

/-- An instruction: `id` stands for the identity of the object, `operands` refer to other
instructions through their ids.  A conditional branch is a `Br` with operands
`[cond, ifTrue, ifFalse]`, an unconditional one a `Br` with operand `[dest]`. -/
structure Instruction where
  id : Nat
  opcode : Opcode
  ty : Ty
  name : String
  operands : List Value
  deriving DecidableEq, Repr

def Instruction.isTerminator (I : Instruction) : Bool :=
  match I.opcode with
  | .Br | .Ret | .Unreachable | .CatchSwitch | .OtherTerminator _ => true
  | _ => false

def Instruction.isPHI (I : Instruction) : Bool :=
  match I.opcode with
  | .PHI => true
  | _ => false

def Instruction.isEHPad (I : Instruction) : Bool :=
  match I.opcode with
  | .LandingPad | .CatchPad | .CleanupPad | .CatchSwitch => true
  | _ => false

structure BasicBlock where
  id : Nat
  name : String
  insts : List Instruction
  deriving DecidableEq, Repr

/-- Result of `BB->getTerminator()`: the last instruction when it is a terminator. -/
def BasicBlock.getTerminator (BB : BasicBlock) : Option Instruction :=
  match BB.insts.getLast? with
  | some I => if I.isTerminator then some I else none
  | none => none

structure Function where
  name : String
  linkage : Linkage
  blocks : List BasicBlock
  deriving DecidableEq, Repr

/-- Function without a body. -/
def Function.isDeclaration (F : Function) : Bool := F.blocks.isEmpty

/-- Module: its functions and global variables, and of its symbol table (the host's
`ValueSymbolTable`, whose names are those the functions and globals carry) the counter
`LastUnique`, from which the host numbers the names it has to make unique. -/
structure Module where
  functions : List Function
  globals : List GlobalVariable
  lastUnique : Nat
  deriving DecidableEq, Repr

/-- Lookup `M.getNamedGlobal(name)`: position of the global carrying the name. -/
def Module.getNamedGlobal (M : Module) (name : String) : Option Nat :=
  let k := M.globals.findIdx (fun G => G.name == name)
  if k < M.globals.length then some k else none

/-! ## StringEncryptPass.cpp -/

/-- Report line of the pass: the count printed as `strings_encrypted`, the escaped texts
printed between quotes in `encrypted_strings`, and the numbers printed in `keys` (the
zero-string report has no `keys` field, rendered here as the empty list). -/
structure StringEncryptReport where
  strings_encrypted : Nat
  encrypted_strings : List String
  keys : List Nat
  deriving DecidableEq, Repr

/-- Value of `char c` for a byte, `char` being signed. -/
def toChar (b : Nat) : Int :=
  if b % 256 < 128 then (b % 256 : Nat) else ((b % 256 : Nat) : Int) - 256

/-- Call `snprintf(buf, size, "\\u%04x", v)` followed by reading `buf` as a C string: at most
`size - 1` characters of the formatted text are stored. -/
def snprintfU04x (size v : Nat) : String :=
  String.mk ((("\\u" ++ hexPadded 4 v).data).take (size - 1))

/-- Body of the escape loop for one character of a reported string (lines 69-78). -/
def escapeChar (b : Nat) : String :=
  let c := toChar b
  if c = 34 then "\\\""
  else if c = 92 then "\\\\"
  else if c = 10 then "\\n"
  else if c = 9 then "\\t"
  else if c ≥ 32 ∧ c ≤ 126 then String.singleton (Char.ofNat (b % 256))
  else snprintfU04x 5 (b % 256)

/-- Escaped text of one reported string (lines 67-79). -/
def escapeString (s : List Nat) : String :=
  s.foldl (fun escaped b => escaped ++ escapeChar b) ""

/-- Test `dyn_cast<ConstantDataArray>(G.getInitializer())` with `cda->isString()`: a data
array of 8-bit integers. -/
def GlobalVariable.isStringConstant (G : GlobalVariable) : Bool :=
  match G.initializer with
  | some (.dataArray 8 _) => true
  | _ => false

/-- Bytes of a data-array initializer (`cda->getAsString()`), empty for anything else. -/
def GlobalVariable.stringBytes (G : GlobalVariable) : List Nat :=
  match G.initializer with
  | some (.dataArray _ elems) => elems
  | _ => []

/-- Byte image of the globals of a module at load time: for a string constant the bytes of
its initializer.  Globals of other types are not accessed by the synthesized routine and
stand in by the element list of their data array, or by the empty list. -/
def Module.image (M : Module) : Nat → List Nat :=
  fun i => match M.globals[i]? with
    | some G => G.stringBytes
    | none => []

/-- Scan of lines 24-33: positions of the string-constant globals, in module order. -/
def scanTargets (M : Module) : List Nat :=
  (List.range M.globals.length).filter
    (fun i => match M.globals[i]? with
      | some G => G.isStringConstant
      | none => false)

/-- Bytes written by the loop of lines 48-51 for the elements `elems` and a key. -/
def encryptBytes (elems : List Nat) (key : Nat) : List Nat :=
  (List.range (elems.length % 2 ^ 32)).map (fun i => (elems.getD i 0 % 256) ^^^ key)

/-- Lines 41-55 for one target: every element is cut to `uint8_t` and XORed with the key,
`unsigned origLen` elements are produced (`encryptBytes`), and the global stops being
constant.  An array of `i8` integers built by `ConstantArray::get` is kept by the host as
a data array (as `zeroinitializer` when all bytes are zero, which denotes the same
bytes). -/
def encryptGlobal (G : GlobalVariable) (key : Nat) : GlobalVariable :=
  match G.initializer with
  | some (.dataArray _ elems) =>
    { G with initializer := some (.dataArray 8 (encryptBytes elems key)), isConstant := false }
  | _ => G

def Module.updateGlobal (M : Module) (i : Nat) (f : GlobalVariable → GlobalVariable) : Module :=
  { M with globals := M.globals.modify f i }

/-- Loop of lines 40-56: one key `(uint8_t)(RNG() & 0xFF)` is drawn per target, in order. -/
def encryptTargets : List Nat → Module → Mt19937 → List Nat → Module × Mt19937 × List Nat
  | [], M, g, keys => (M, g, keys)
  | t :: ts, M, g, keys =>
    let r := g.next
    let key := (r.1 &&& 0xFF) % 256
    encryptTargets ts (M.updateGlobal t (fun G => encryptGlobal G key)) r.2 (keys ++ [key])

/-- Element count of the array type of a global (`at->getNumElements()`); the value type of a
global is the type of its initializer. -/
def Module.numElements (M : Module) (i : Nat) : Nat :=
  (M.image i).length

/-- Instructions lines 116-118 put at the end of the current block for global number `gi`:
the counter cell, its initialisation to zero, the jump to `loop.header`. -/
def counterSetup (gi : Nat) : List Instruction :=
  let i := 13 * gi
  [⟨i, .Alloca, .int 32, "counter", []⟩,
   ⟨i + 1, .Store, .void, "", [.constInt 32 0, .inst i]⟩,
   ⟨i + 2, .Br, .void, "", [.block (3 * gi + 1)]⟩]

/-- Block `loop.header` (lines 120-125): load the counter, compare it unsigned with the
length as a 32-bit constant, branch to the body or to `loop.end`. -/
def loopHeader (gi len : Nat) : BasicBlock :=
  let i := 13 * gi
  ⟨3 * gi + 1, "loop.header",
    [⟨i + 3, .Load, .int 32, "idx", [.inst i]⟩,
     ⟨i + 4, .ICmpULT, .int 1, "loop.cond", [.inst (i + 3), .constInt 32 (len % 2 ^ 32)]⟩,
     ⟨i + 5, .Br, .void, "", [.inst (i + 4), .block (3 * gi + 2), .block (3 * gi + 3)]⟩]⟩

/-- Block `loop.body` (lines 127-140): address of element `idx` of the global, load, XOR with
the key as an 8-bit constant, store back, increment and store the counter, jump back. -/
def loopBody (gi G key : Nat) : BasicBlock :=
  let i := 13 * gi
  ⟨3 * gi + 2, "loop.body",
    [⟨i + 6, .GetElementPtr, .ptr, "elem.ptr", [.global G, .constInt 32 0, .inst (i + 3)]⟩,
     ⟨i + 7, .Load, .int 8, "encrypted", [.inst (i + 6)]⟩,
     ⟨i + 8, .Xor, .int 8, "decrypted", [.inst (i + 7), .constInt 8 key]⟩,
     ⟨i + 9, .Store, .void, "", [.inst (i + 8), .inst (i + 6)]⟩,
     ⟨i + 10, .Add, .int 32, "next.idx", [.inst (i + 3), .constInt 32 1]⟩,
     ⟨i + 11, .Store, .void, "", [.inst (i + 10), .inst i]⟩,
     ⟨i + 12, .Br, .void, "", [.block (3 * gi + 1)]⟩]⟩

/-- Blocks built by `createDecryptCtor` for the globals from number `gi` on, `cur` and
`curName` being the block the builder currently appends to (`entry`, later the
`loop.end` of the previous global).  Per global the builder finishes the current block
with the counter set-up, fills `loop.header` and `loop.body`, and continues in
`loop.end`; after the last global it appends `ret void`.  Block ids are `0` for `entry`
and `3*gi+1`, `3*gi+2`, `3*gi+3` for the blocks of global `gi`; instruction ids are
`13*gi + k`. -/
def decryptBlocks (M : Module) : List (Nat × Nat) → Nat → Nat → String → List BasicBlock
  | [], gi, cur, curName =>
    [⟨cur, curName, [⟨13 * gi, .Ret, .void, "", []⟩]⟩]
  | (G, key) :: rest, gi, cur, curName =>
    ⟨cur, curName, counterSetup gi⟩ ::
    loopHeader gi (M.numElements G) ::
    loopBody gi G key ::
    decryptBlocks M rest (gi + 1) (3 * gi + 3) "loop.end"

/-- Routine `createDecryptCtor`: the function with internal linkage for which the name
`__obf_decrypt_init` is asked from `Function::Create`.  The name stands for the one asked
for: in a module that already holds a symbol of that name the host gives the function
that name with a suffix (see `SymbolTable.setName`). -/
def createDecryptCtor (M : Module) (globals keys : List Nat) : Function :=
  ⟨"__obf_decrypt_init", .InternalLinkage, decryptBlocks M (globals.zip keys) 0 0 "entry"⟩

/-- Entry `{ i32 priority, ptr ctor, ptr null }` of the initializer list. -/
def ctorEntry (ctor priority : Nat) : ArrayElement :=
  .struct [.int 32 (priority % 2 ^ 32), .function ctor, .null]

/-- Routine `appendToGlobalCtors` (lines 149-179).  Without a global named
`llvm.global_ctors` a one-entry list is created as a new global with appending linkage;
otherwise the entry is added after the operands of the existing `ConstantArray`, and a
list whose initializer is not a `ConstantArray` (or is missing) is left as it is.  Only
the initializer is replaced; the declared type of the existing global is not part of
this model. -/
def appendToGlobalCtors (M : Module) (ctor priority : Nat) : Module :=
  let entry := ctorEntry ctor priority
  match M.getNamedGlobal "llvm.global_ctors" with
  | none =>
    { M with globals := M.globals ++
        [⟨"llvm.global_ctors", .AppendingLinkage, false, some (.array [entry])⟩] }
  | some gv =>
    match M.globals[gv]? with
    | some ⟨_, _, _, some (.array elems)⟩ =>
      M.updateGlobal gv (fun GV => { GV with initializer := some (.array (elems ++ [entry])) })
    | _ => M

/-- Entries of the initializer list of a module: the operands of the `ConstantArray` that
initializes the global named `llvm.global_ctors`; `none` when there is no such global or
its initializer is not a `ConstantArray`. -/
def Module.globalCtors (M : Module) : Option (List ArrayElement) :=
  match M.getNamedGlobal "llvm.global_ctors" with
  | none => none
  | some gv =>
    match M.globals[gv]? with
    | some ⟨_, _, _, some (.array elems)⟩ => some elems
    | _ => none

structure StringEncryptPass where
  RNG : Mt19937
  deriving DecidableEq, Repr

def StringEncryptPass.new (seed : Nat) : StringEncryptPass := ⟨seededRNG seed⟩

/-- Pass `StringEncryptPass::run`: the rewritten module and the reported fields. -/
def StringEncryptPass.run (P : StringEncryptPass) (M : Module) : Module × StringEncryptReport :=
  let targets := scanTargets M
  let encryptedStrings := targets.map M.image
  if targets.isEmpty then
    (M, ⟨0, [], []⟩)
  else
    let enc := encryptTargets targets M P.RNG []
    let M1 := enc.1
    let keys := enc.2.2
    let ctor := M1.functions.length
    let M2 : Module := { M1 with functions := M1.functions ++ [createDecryptCtor M1 targets keys] }
    let M3 := appendToGlobalCtors M2 ctor 65535
    (M3, ⟨targets.length, encryptedStrings.map escapeString, keys⟩)

/-! ### Execution of the synthesized routine -/

inductive RtVal where
  | int (v : Nat)
  | stackPtr (cell : Nat)
  | globalPtr (g : Nat) (offset : Int)
  deriving DecidableEq, Repr

/-- Run-time state: the values of the instructions executed so far, the cells made by
`alloca`, and the byte image of every global (by position in the module). -/
structure Machine where
  regs : Nat → Option RtVal
  stack : Nat → Option Nat
  mem : Nat → List Nat

def Machine.setReg (m : Machine) (id : Nat) (v : RtVal) : Machine :=
  { m with regs := fun j => if j = id then some v else m.regs j }

def Machine.eval (m : Machine) : Value → Option RtVal
  | .constInt bits v => some (.int (v % 2 ^ bits))
  | .inst id => m.regs id
  | .global g => some (.globalPtr g 0)
  | _ => none

def Ty.bits : Ty → Nat
  | .int b => b
  | _ => 0

/-- Signed reading of a 32-bit index, as `getelementptr` takes it. -/
def sext32 (v : Nat) : Int := if v % 2 ^ 32 < 2 ^ 31 then (v % 2 ^ 32 : Nat) else ((v % 2 ^ 32 : Nat) : Int) - 2 ^ 32

/-- Effect of one non-terminator instruction; `none` when the instruction has no defined
behaviour in the state (unset operand, access outside the object, unmodelled opcode). -/
def Machine.step (m : Machine) (I : Instruction) : Option Machine :=
  match I.opcode, I.operands with
  | .Alloca, [] =>
    some { (m.setReg I.id (.stackPtr I.id)) with stack := fun c => if c = I.id then none else m.stack c }
  | .Store, [v, p] =>
    match m.eval v, m.eval p with
    | some (.int x), some (.stackPtr c) =>
      some { m with stack := fun d => if d = c then some x else m.stack d }
    | some (.int x), some (.globalPtr g off) =>
      if 0 ≤ off ∧ off < (m.mem g).length then
        some { m with mem := fun h => if h = g then (m.mem g).set off.toNat x else m.mem h }
      else none
    | _, _ => none
  | .Load, [p] =>
    match m.eval p with
    | some (.stackPtr c) =>
      match m.stack c with
      | some x => some (m.setReg I.id (.int x))
      | none => none
    | some (.globalPtr g off) =>
      if 0 ≤ off ∧ off < (m.mem g).length then
        some (m.setReg I.id (.int ((m.mem g).getD off.toNat 0)))
      else none
    | _ => none
  | .GetElementPtr, [base, i0, i1] =>
    match m.eval base, m.eval i0, m.eval i1 with
    | some (.globalPtr g off), some (.int 0), some (.int k) =>
      some (m.setReg I.id (.globalPtr g (off + sext32 k)))
    | _, _, _ => none
  | .Xor, [a, b] =>
    match m.eval a, m.eval b with
    | some (.int x), some (.int y) => some (m.setReg I.id (.int (x ^^^ y)))
    | _, _ => none
  | .Add, [a, b] =>
    match m.eval a, m.eval b with
    | some (.int x), some (.int y) => some (m.setReg I.id (.int ((x + y) % 2 ^ I.ty.bits)))
    | _, _ => none
  | .ICmpULT, [a, b] =>
    match m.eval a, m.eval b with
    | some (.int x), some (.int y) => some (m.setReg I.id (.int (if x < y then 1 else 0)))
    | _, _ => none
  | _, _ => none

/-- Destination of a branch in the state. -/
def Machine.branchTarget (m : Machine) (I : Instruction) : Option Nat :=
  match I.operands with
  | [.block d] => some d
  | [c, .block t, .block f] =>
    match m.eval c with
    | some (.int 1) => some t
    | some (.int 0) => some f
    | _ => none
  | _ => none

def Function.findBlock (F : Function) (id : Nat) : Option BasicBlock :=
  F.blocks.find? (fun B => B.id == id)

/-- Execution of a function without arguments from the instructions `todo` of the current
block, at most `fuel` instructions long: the state at `ret`, or `none` when the fuel runs
out or an instruction has no defined behaviour. -/
def exec (F : Function) : Nat → Machine → List Instruction → Option Machine
  | 0, _, _ => none
  | _ + 1, _, [] => none
  | fuel + 1, m, I :: rest =>
    match I.opcode with
    | .Ret => some m
    | .Br =>
      match m.branchTarget I with
      | some d =>
        match F.findBlock d with
        | some B => exec F fuel m B.insts
        | none => none
      | none => none
    | _ =>
      match m.step I with
      | some m1 => exec F fuel m1 rest
      | none => none

/-- Call of a function on a memory image: execution starts at the first block. -/
def Function.call (F : Function) (fuel : Nat) (mem : Nat → List Nat) : Option Machine :=
  match F.blocks with
  | [] => none
  | B :: _ => exec F fuel ⟨fun _ => none, fun _ => none, mem⟩ B.insts


/-- Execution from `todo` in state `m` ends at a `ret` in a state satisfying `Q`. -/
def Reaches (F : Function) (m : Machine) (todo : List Instruction) (Q : Machine → Prop) : Prop :=
  ∃ fuel r, exec F fuel m todo = some r ∧ Q r

/-- Keys drawn by `n` successive calls `(uint8_t)(RNG() & 0xFF)`. -/
def drawKeys : Nat → Mt19937 → List Nat
  | 0, _ => []
  | n + 1, g => ((g.next.1 &&& 0xFF) % 256) :: drawKeys n g.next.2

/-- Instructions of the first block of a list of blocks. -/
def headInsts : List BasicBlock → List Instruction
  | [] => []
  | B :: _ => B.insts

/-- Bytes of the array `global_message` of `test/complex_test.c`: the 32 characters of the
text and the terminating zero. -/
def welcomeBytes : List Nat :=
  ("Welcome to the obfuscation test!".data.map Char.toNat) ++ [0]

/-- Globals of `test/complex_test.c` that are not string literals: the array
`global_message` and the integer `global_counter`, in a module without functions. -/
def welcomeModule : Module :=
  ⟨[], [⟨"global_message", .ExternalLinkage, false, some (.dataArray 8 welcomeBytes)⟩,
        ⟨"global_counter", .ExternalLinkage, false, some (.simple (.int 32 0))⟩], 0⟩

/-- Module with one string constant and an existing, empty initializer list, which the
host represents by a `zeroinitializer`. -/
def emptyCtorsModule : Module :=
  ⟨[], [⟨"msg", .PrivateLinkage, true, some (.dataArray 8 [104, 105, 0])⟩,
        ⟨"llvm.global_ctors", .AppendingLinkage, false, some .aggregateZero⟩], 0⟩

/-- Module with one string constant, a function `setup` and an initializer list that
already registers `setup` with priority 100. -/
def listedModule : Module :=
  ⟨[⟨"setup", .ExternalLinkage, [⟨0, "entry", [⟨0, .Ret, .void, "", []⟩]⟩]⟩],
   [⟨"msg", .PrivateLinkage, true, some (.dataArray 8 [104, 105, 0])⟩,
    ⟨"llvm.global_ctors", .AppendingLinkage, false, some (.array [ctorEntry 0 100])⟩], 0⟩

/-- Module without any string constant: an integer global, a declaration and a function
that only returns. -/
def plainModule : Module :=
  ⟨[⟨"puts", .ExternalLinkage, []⟩,
    ⟨"main", .ExternalLinkage, [⟨0, "entry", [⟨0, .Ret, .void, "", [.constInt 32 0]⟩]⟩]⟩],
   [⟨"global_counter", .ExternalLinkage, false, some (.simple (.int 32 0))⟩], 0⟩

/-! ## RenameSymbolsPass.cpp -/

/-- Routine `genName` (lines 76-81): one 32-bit draw `r`, then the text of the stream after
`ss << pfx << "_" << idx << "_" << std::hex << std::setw(8) << std::setfill('0') << r`. -/
def genName (pfx : String) (idx : Nat) (g : Mt19937) : String × Mt19937 :=
  let r := g.next
  (pfx ++ "_" ++ decimal idx ++ "_" ++ hexPadded 8 (r.1 % 2 ^ 32), r.2)

/-- Assignment `map[key] = value` on a `std::map<std::string, std::string>`, kept as a list
of pairs in increasing order of the keys. -/
def mapAssign : List (String × String) → String → String → List (String × String)
  | [], k, v => [(k, v)]
  | (k1, v1) :: rest, k, v =>
    if k < k1 then (k, v) :: (k1, v1) :: rest
    else if k = k1 then (k, v) :: rest
    else (k1, v1) :: mapAssign rest k v

/-- Functions the first loop renames: defined and not called `main` (lines 27-28). -/
def Function.renameEligible (F : Function) : Bool :=
  !F.isDeclaration && !(F.name == "main")

/-- Global variable without an initializer. -/
def GlobalVariable.isDeclaration (G : GlobalVariable) : Bool := G.initializer.isNone

/-- Test `G.hasName()`: unnamed values have the empty name. -/
def GlobalVariable.hasName (G : GlobalVariable) : Bool := !(G.name == "")

/-- Globals the second loop renames (lines 37-39): defined, named, outside the `llvm.`
namespace and not of appending linkage. -/
def GlobalVariable.renameEligible (G : GlobalVariable) : Bool :=
  !(G.isDeclaration || !G.hasName) && !("llvm.".data.isPrefixOf G.name.data)
    && !(G.linkage == .AppendingLinkage)

/-! ### The host's symbol table

`F.setName(newName)` goes through the symbol table of the module, which keeps the names of
its global values distinct: a name another value carries is not given twice. -/

/-- Symbol table of a module: the names in use and the counter `LastUnique`. -/
structure SymbolTable where
  names : List String
  lastUnique : Nat
  deriving DecidableEq, Repr

/-- The symbol table of a module: the names of its functions and global variables (an
unnamed value has no entry) and the counter. -/
def Module.symbolTable (M : Module) : SymbolTable :=
  ⟨(M.functions.map (fun F => F.name) ++ M.globals.map (fun G => G.name)).filter
      (fun s => s != ""), M.lastUnique⟩

/-- Host routine `ValueSymbolTable::makeUniqueName` for a global value: the name is followed
by `.` and the next value of the `unsigned` counter `++LastUnique`, again and again until
the result is not in the table (the dot is left out by the host for the NVPTX target
only).  The first argument bounds the number of tries;
`SymbolTable.setName` passes one more than the number of names in the table. -/
def makeUniqueName (names : List String) (base : String) : Nat → Nat → String × Nat
  | 0, lastUnique =>
    (base ++ "." ++ decimal ((lastUnique + 1) % 2 ^ 32), (lastUnique + 1) % 2 ^ 32)
  | tries + 1, lastUnique =>
    let next := (lastUnique + 1) % 2 ^ 32
    let candidate := base ++ "." ++ decimal next
    if candidate ∈ names then makeUniqueName names base tries next else (candidate, next)

/-- Host routine `Value::setName(newName)` on a global value that carries the name `old`:
nothing happens when the name is the same; otherwise the old entry is removed and the new
name is entered (`createValueName`), made unique when another value carries it already.
Result: the name the value carries afterwards, and the table. -/
def SymbolTable.setName (st : SymbolTable) (old newName : String) : String × SymbolTable :=
  if old = newName then (old, st)
  else
    let names := if old = "" then st.names else st.names.erase old
    if newName = "" then ("", ⟨names, st.lastUnique⟩)
    else if newName ∈ names then
      let u := makeUniqueName names newName (names.length + 1) st.lastUnique
      (u.1, ⟨u.1 :: names, u.2⟩)
    else (newName, ⟨newName :: names, st.lastUnique⟩)

/-- Loop over the functions (lines 26-34) from the counter `funcCount`, the generator, the
map and the symbol table as they stand: the functions after the loop, the counter (an
`unsigned`), the generator, the map and the symbol table.  The map records the old name
and the synthesized name; the function carries the name `setName` gives it. -/
def renameFunctions : List Function → Nat → Mt19937 → List (String × String) → SymbolTable →
    List Function × Nat × Mt19937 × List (String × String) × SymbolTable
  | [], funcCount, g, renamed, st => ([], funcCount, g, renamed, st)
  | F :: rest, funcCount, g, renamed, st =>
    if F.renameEligible then
      let count := (funcCount + 1) % 2 ^ 32
      let newName := genName "f" count g
      let named := st.setName F.name newName.1
      let r := renameFunctions rest count newName.2 (mapAssign renamed F.name newName.1) named.2
      ({ F with name := named.1 } :: r.1, r.2)
    else
      let r := renameFunctions rest funcCount g renamed st
      (F :: r.1, r.2)

/-- Loop over the globals (lines 36-45), as `renameFunctions`. -/
def renameGlobals : List GlobalVariable → Nat → Mt19937 → List (String × String) →
    SymbolTable → List GlobalVariable × Nat × Mt19937 × List (String × String) × SymbolTable
  | [], globalCount, g, renamed, st => ([], globalCount, g, renamed, st)
  | G :: rest, globalCount, g, renamed, st =>
    if G.renameEligible then
      let count := (globalCount + 1) % 2 ^ 32
      let newName := genName "g" count g
      let named := st.setName G.name newName.1
      let r := renameGlobals rest count newName.2 (mapAssign renamed G.name newName.1) named.2
      ({ G with name := named.1 } :: r.1, r.2)
    else
      let r := renameGlobals rest globalCount g renamed st
      (G :: r.1, r.2)

/-- Report line of the pass. -/
structure RenameReport where
  functions_renamed : Nat
  globals_renamed : Nat
  renamed_functions : List (String × String)
  renamed_globals : List (String × String)
  deriving DecidableEq, Repr

structure RenameSymbolsPass where
  RNG : Mt19937
  deriving DecidableEq, Repr

def RenameSymbolsPass.new (seed : Nat) : RenameSymbolsPass := ⟨seededRNG seed⟩

/-- Pass `RenameSymbolsPass::run`: functions first, then globals, with one generator and
the one symbol table of the module. -/
def RenameSymbolsPass.run (P : RenameSymbolsPass) (M : Module) : Module × RenameReport :=
  let rf := renameFunctions M.functions 0 P.RNG [] M.symbolTable
  let rg := renameGlobals M.globals 0 rf.2.2.1 [] rf.2.2.2.2
  (⟨rf.1, rg.1, rg.2.2.2.2.lastUnique⟩, ⟨rf.2.1, rg.2.1, rf.2.2.2.1, rg.2.2.2.1⟩)

/-- Characters `0`-`9` and `a`-`f`. -/
def isLowerHexDigit (c : Char) : Bool :=
  (48 ≤ c.toNat && c.toNat ≤ 57) || (97 ≤ c.toNat && c.toNat ≤ 102)

/-- Names of the form `<pfx>_<k>_<8 lowercase hex digits>`. -/
def SynthName (pfx : String) (k : Nat) (s : String) : Prop :=
  ∃ h : List Char, h.length = 8 ∧ (∀ c ∈ h, isLowerHexDigit c = true) ∧
    s = pfx ++ "_" ++ decimal k ++ "_" ++ String.mk h

/-- Names that start with a name of the synthesized form: such a name itself, or one the
host has made unique by a suffix. -/
def SynthStart (pfx : String) (k : Nat) (s : String) : Prop :=
  ∃ n tail, SynthName pfx k n ∧ s = n ++ tail

/-- Test for the form `<pfx>_<decimal digits>_<8 lowercase hex digits>`. -/
def hasSynthForm (pfx s : String) : Bool :=
  let rest := s.data.drop (pfx.data.length + 1)
  (pfx.data ++ ['_']).isPrefixOf s.data &&
    !(rest.takeWhile (fun c => c.isDigit)).isEmpty &&
    (match rest.dropWhile (fun c => c.isDigit) with
      | '_' :: hex => hex.length == 8 && hex.all isLowerHexDigit
      | _ => false)

/-- Test that no function and no global variable of the module carries a name of the form
the pass synthesizes with the given text in front. -/
def Module.noSynthNames (M : Module) (pfx : String) : Bool :=
  M.functions.all (fun F => !hasSynthForm pfx F.name) &&
    M.globals.all (fun G => !hasSynthForm pfx G.name)

/-- Names the run has given to the symbols it renamed, functions first: the names after the
run at the positions of the eligible symbols. -/
def renamedNames (M out : Module) : List String :=
  ((M.functions.zip out.functions).filter (fun p => p.1.renameEligible)).map (fun p => p.2.name)
    ++ ((M.globals.zip out.globals).filter (fun p => p.1.renameEligible)).map (fun p => p.2.name)

/-- A body that only returns, for functions whose instructions do not matter. -/
def retBody : List BasicBlock := [⟨0, "entry", [⟨0, .Ret, .void, "", []⟩]⟩]

/-- The five functions defined in `test/complex_test.c`, in their order, with its two named
globals. -/
def complexTestModule : Module :=
  ⟨[⟨"factorial", .ExternalLinkage, retBody⟩, ⟨"fibonacci", .ExternalLinkage, retBody⟩,
    ⟨"print_message", .ExternalLinkage, retBody⟩, ⟨"process_data", .ExternalLinkage, retBody⟩,
    ⟨"main", .ExternalLinkage, retBody⟩],
   [⟨"global_message", .ExternalLinkage, false, some (.dataArray 8 welcomeBytes)⟩,
    ⟨"global_counter", .ExternalLinkage, false, some (.simple (.int 32 0))⟩], 0⟩

/-- Module whose one function already carries the name the default-seeded pass gives to
its first function. -/
def renamedOnceModule : Module := ⟨[⟨"f_1_92aa1674", .ExternalLinkage, retBody⟩], [], 0⟩

/-- Module without eligible symbols: a declared function, `main`, a declared global and an
initializer list. -/
def entryOnlyModule : Module :=
  ⟨[⟨"puts", .ExternalLinkage, []⟩, ⟨"main", .ExternalLinkage, retBody⟩],
   [⟨"stdout", .ExternalLinkage, false, none⟩,
    ⟨"llvm.global_ctors", .AppendingLinkage, false, some (.array [ctorEntry 1 65535])⟩], 0⟩

/-- Module in which a declaration already carries the name the default-seeded pass
synthesizes for the first function it renames. -/
def clashModule : Module :=
  ⟨[⟨"foo", .ExternalLinkage, retBody⟩, ⟨"f_1_92aa1674", .ExternalLinkage, []⟩], [], 0⟩

/-! ## `IRBuilder<>` -/

/-- Builder placed before an instruction: the instructions it has inserted there so far,
in order, and the identity the next created instruction gets. -/
structure IRBuilder where
  inserted : List Instruction
  nextId : Nat
  deriving DecidableEq, Repr

/-- Constant folding of the builder for two integer constants of `bits` bits. -/
def foldBinOp (op : Opcode) (bits x y : Nat) : Option Nat :=
  match op with
  | .Add => some ((x + y) % 2 ^ bits)
  | .Sub => some ((x % 2 ^ bits + 2 ^ bits - y % 2 ^ bits) % 2 ^ bits)
  | .Mul => some ((x * y) % 2 ^ bits)
  | .Xor => some ((x % 2 ^ bits) ^^^ (y % 2 ^ bits))
  | _ => none

def IRBuilder.insert (B : IRBuilder) (op : Opcode) (ty : Ty) (name : String)
    (operands : List Value) : Value × IRBuilder :=
  (.inst B.nextId, ⟨B.inserted ++ [⟨B.nextId, op, ty, name, operands⟩], B.nextId + 1⟩)

/-- Calls `B.CreateAdd`, `CreateSub`, `CreateMul`, `CreateXor` on 32-bit operands: two
constants are folded to a constant and nothing is inserted, otherwise the instruction is
inserted and is the result. -/
def IRBuilder.createBinOp (B : IRBuilder) (op : Opcode) (lhs rhs : Value) (name : String) :
    Value × IRBuilder :=
  match lhs, rhs with
  | .constInt bits x, .constInt _ y =>
    match foldBinOp op bits x y with
    | some v => (.constInt bits v, B)
    | none => B.insert op (.int 32) name [lhs, rhs]
  | _, _ => B.insert op (.int 32) name [lhs, rhs]

/-! ## BogusInstructionsPass.cpp -/

/-- Value `ConstantInt::get(i32, RNG() % 1000 + 1)`. -/
def bogusConstant (r : Nat) : Value := .constInt 32 (r % 1000 + 1)

/-- Routine `insertBogusArithmetic` (lines 51-67): three draws, four builder calls; no call
throws, so the result is `true`. -/
def insertBogusArithmetic (B : IRBuilder) (g : Mt19937) : Bool × IRBuilder × Mt19937 :=
  let r1 := g.next
  let val1 := bogusConstant r1.1
  let r2 := r1.2.next
  let val2 := bogusConstant r2.1
  let bogusAdd := B.createBinOp .Add val1 val2 "bogus_add"
  let bogusMul := bogusAdd.2.createBinOp .Mul bogusAdd.1 val2 "bogus_mul"
  let bogusSub := bogusMul.2.createBinOp .Sub bogusMul.1 val1 "bogus_sub"
  let r3 := r2.2.next
  let xorVal := bogusConstant r3.1
  let bogusXor := bogusSub.2.createBinOp .Xor bogusSub.1 xorVal "bogus_xor"
  (true, bogusXor.2, r3.2)

/-- Routine `insertBogusMemory` (lines 69-83): scratch cell, store of a drawn constant, load,
addition of 42. -/
def insertBogusMemory (B : IRBuilder) (g : Mt19937) : Bool × IRBuilder × Mt19937 :=
  let bogusAlloca := B.insert .Alloca .ptr "bogus_alloca" []
  let r := g.next
  let bogusVal := bogusConstant r.1
  let store := bogusAlloca.2.insert .Store .void "" [bogusVal, bogusAlloca.1]
  let bogusLoad := store.2.insert .Load (.int 32) "bogus_load" [bogusAlloca.1]
  let bogusCalc := bogusLoad.2.createBinOp .Add bogusLoad.1 (.constInt 32 42) "bogus_calc"
  (true, bogusCalc.2, r.2)

/-- State carried through the blocks: the generator, the identity for the next new
instruction, and `bogusCount`. -/
structure BogusState where
  RNG : Mt19937
  nextId : Nat
  bogusCount : Nat
  deriving DecidableEq, Repr

/-- Body of the loop over blocks (lines 25-39): the insertion point is the first instruction
that is not a terminator; both sequences are inserted before it and each success adds
one to the `unsigned` counter. -/
def bogusBlock (BB : BasicBlock) (s : BogusState) : BasicBlock × BogusState :=
  if BB.insts.isEmpty then (BB, s)
  else
    let insertPoint := BB.insts.findIdx (fun I => !I.isTerminator)
    if insertPoint < BB.insts.length then
      let a := insertBogusArithmetic ⟨[], s.nextId⟩ s.RNG
      let c1 := if a.1 then (s.bogusCount + 1) % 2 ^ 32 else s.bogusCount
      let b := insertBogusMemory a.2.1 a.2.2
      let c2 := if b.1 then (c1 + 1) % 2 ^ 32 else c1
      ({ BB with insts := BB.insts.take insertPoint ++ b.2.1.inserted ++ BB.insts.drop insertPoint },
       ⟨b.2.2, b.2.1.nextId, c2⟩)
    else (BB, s)

def bogusBlocks : List BasicBlock → BogusState → List BasicBlock × BogusState
  | [], s => ([], s)
  | BB :: rest, s =>
    let r := bogusBlock BB s
    let rs := bogusBlocks rest r.2
    (r.1 :: rs.1, rs.2)

/-- Smallest number above the ids of all instructions of a function: new instructions are
objects distinct from all existing ones. -/
def Function.freshId (F : Function) : Nat :=
  F.blocks.foldl (fun a BB => BB.insts.foldl (fun b I => max b (I.id + 1)) a) 0

/-- Loop over the functions (lines 21-41). -/
def bogusFunctions : List Function → Mt19937 → Nat → List Function × Mt19937 × Nat
  | [], g, count => ([], g, count)
  | F :: rest, g, count =>
    if F.isDeclaration then
      let rs := bogusFunctions rest g count
      (F :: rs.1, rs.2)
    else
      let r := bogusBlocks F.blocks ⟨g, F.freshId, count⟩
      let rs := bogusFunctions rest r.2.RNG r.2.bogusCount
      ({ F with blocks := r.1 } :: rs.1, rs.2)

structure BogusInstructionsPass where
  RNG : Mt19937
  deriving DecidableEq, Repr

def BogusInstructionsPass.new (seed : Nat) : BogusInstructionsPass := ⟨seededRNG seed⟩

/-- Pass `BogusInstructionsPass::run`: the rewritten module and the reported
`bogus_instr_count`. -/
def BogusInstructionsPass.run (P : BogusInstructionsPass) (M : Module) : Module × Nat :=
  let r := bogusFunctions M.functions P.RNG 0
  ({ M with functions := r.1 }, r.2.2)

/-- Rule of the IR that PHI nodes are grouped at the top of their block (the verifier's
`PHI nodes not grouped at top of basic block`): after the leading PHI nodes no further one
follows. -/
def BasicBlock.phisGrouped (BB : BasicBlock) : Bool :=
  (BB.insts.dropWhile (fun I => I.isPHI)).all (fun I => !I.isPHI)

/-- Function `int pick(bool c) { return c ? 1 : 2; }` the way the front end joins the two
arms: `merge` starts with the PHI node of the result. -/
def pickFunction : Function :=
  ⟨"pick", .ExternalLinkage,
    [⟨0, "entry", [⟨0, .Br, .void, "", [.argument 0, .block 1, .block 2]⟩]⟩,
     ⟨1, "then", [⟨1, .Br, .void, "", [.block 3]⟩]⟩,
     ⟨2, "else", [⟨2, .Br, .void, "", [.block 3]⟩]⟩,
     ⟨3, "merge",
       [⟨3, .PHI, .int 32, "r", [.constInt 32 1, .block 1, .constInt 32 2, .block 2]⟩,
        ⟨4, .Ret, .void, "", [.inst 3]⟩]⟩]⟩

/-! ## BasicBlockSplit.cpp -/

/-- Smallest number above the ids of all blocks of a function. -/
def Function.freshBlockId (F : Function) : Nat :=
  F.blocks.foldl (fun a BB => max a (BB.id + 1)) 0

/-- Blocks a terminator can transfer control to: its block operands. -/
def Instruction.successors (I : Instruction) : List Nat :=
  I.operands.filterMap (fun v => match v with
    | .block b => some b
    | _ => none)

/-- Call `PN.replaceIncomingBlockWith(Old, New)` on one PHI node. -/
def Instruction.replaceIncomingBlockWith (I : Instruction) (old new : Nat) : Instruction :=
  { I with operands := I.operands.map (fun v => if v = .block old then .block new else v) }

/-- Redirection of the PHI nodes at the top of one block, as `replaceSuccessorsPhiUsesWith`
performs it on a successor. -/
def redirectPhis (succs : List Nat) (old new : Nat) (S : BasicBlock) : BasicBlock :=
  if S.id ∈ succs then
    let phis := (S.insts.takeWhile (fun I => I.isPHI)).map
      (fun I => I.replaceIncomingBlockWith old new)
    { S with insts := phis ++ S.insts.dropWhile (fun I => I.isPHI) }
  else S

/-- Host routine `replaceSuccessorsPhiUsesWith(Old, New)` for a block with the successors
`succs`: in the PHI nodes at the top of every successor the incoming block `Old` becomes
`New`. -/
def replaceSuccessorsPhiUsesWith (blocks : List BasicBlock) (succs : List Nat) (old new : Nat) :
    List BasicBlock :=
  blocks.map (redirectPhis succs old new)

/-- Position the host's `SplitBlock(Old, SplitPt)` really splits at: it moves on from
`splitPt` over PHI nodes and exception-handling pads; `none` when it runs off the end of the
block (an assertion of the host). -/
def splitPosition : List Instruction → Nat → Option Nat
  | [], _ => none
  | I :: rest, 0 =>
    if I.isPHI || I.isEHPad then (splitPosition rest 0).map (fun k => k + 1) else some 0
  | _ :: rest, k + 1 => (splitPosition rest k).map (fun j => j + 1)

/-- Outcome of the pass's `splitBasicBlock` for one block. -/
inductive SplitOutcome where
  | unsplit
  | aborted
  | split (first second : BasicBlock)
  deriving DecidableEq, Repr

/-- The unconditional branch the host appends to the first part. -/
def branchTo (id dest : Nat) : Instruction := ⟨id, .Br, .void, "", [.block dest]⟩

/-- Node made by `addBogusPhiNodes`: `CreatePHI(i32, 2, "bogus_phi")` with the one incoming
value 0 from `predBB`. -/
def bogusPhi (id predBB : Nat) : Instruction :=
  ⟨id, .PHI, .int 32, "bogus_phi", [.constInt 32 0, .block predBB]⟩

/-- Routine `addBogusPhiNodes` on the instructions of `targetBB`: nothing for an empty block,
else the node is put before the first instruction. -/
def addBogusPhiNodes (predBB : Nat) (target : List Instruction) (phiId : Nat) :
    List Instruction :=
  if target.isEmpty then target else bogusPhi phiId predBB :: target

/-- Routine `splitBasicBlock` of the pass (lines 39-58) on the block itself: `newBB`, `brId`
and `phiId` are the identities of the new block, the new branch and the new PHI node.
The host's `SplitBlock` needs a terminator in the block and splits at `splitPosition`;
the first part keeps identity and name of the block and ends in the new branch. -/
def splitBlock (BB : BasicBlock) (newBB brId phiId : Nat) : SplitOutcome :=
  let splitPoint := BB.insts.length / 3
  if splitPoint < 2 then .unsplit
  else if splitPoint ≥ BB.insts.length then .unsplit
  else
    match splitPosition BB.insts splitPoint, BB.getTerminator with
    | some k, some _ =>
      let first : BasicBlock := ⟨BB.id, BB.name, BB.insts.take k ++ [branchTo brId newBB]⟩
      let moved := BB.insts.drop k
      .split first
        ⟨newBB, BB.name ++ "_split",
          if first.getTerminator.isSome then addBogusPhiNodes BB.id moved phiId else moved⟩
    | _, _ => .aborted

/-- Replace the first block carrying the id by the given blocks. -/
def replaceBlock : List BasicBlock → Nat → List BasicBlock → List BasicBlock
  | [], _, _ => []
  | X :: rest, id, new => if X.id = id then new ++ rest else X :: replaceBlock rest id new

/-- Routine `splitBasicBlock` of the pass on the function that owns the block: the new block
is placed right after the split one and the PHI nodes of its successors are redirected;
`none` stands for an assertion of the host. -/
def BasicBlockSplit.splitBasicBlock (F : Function) (bb : Nat) : Option (Function × Bool) :=
  match F.findBlock bb with
  | none => some (F, false)
  | some BB =>
    match splitBlock BB F.freshBlockId F.freshId (F.freshId + 1) with
    | .unsplit => some (F, false)
    | .aborted => none
    | .split first second =>
      let succs := match BB.getTerminator with
        | some t => t.successors
        | none => []
      let blocks := replaceBlock F.blocks bb [first, second]
      some ({ F with blocks := replaceSuccessorsPhiUsesWith blocks succs BB.id second.id }, true)

/-- Loop `for (auto *BB : blocksToSplit) changed |= splitBasicBlock(BB)`. -/
def BasicBlockSplit.splitAll : List Nat → Function → Bool → Option (Function × Bool)
  | [], F, changed => some (F, changed)
  | bb :: rest, F, changed =>
    match BasicBlockSplit.splitBasicBlock F bb with
    | none => none
    | some r => BasicBlockSplit.splitAll rest r.1 (changed || r.2)

/-- Pass `BasicBlockSplit::run` (lines 13-36): the function after the pass and whether it
reports a change; `none` stands for an assertion of the host. -/
def BasicBlockSplit.run (F : Function) : Option (Function × Bool) :=
  if F.isDeclaration || F.blocks.length < 2 then some (F, false)
  else
    let blocksToSplit := (F.blocks.filter (fun BB => BB.insts.length > 4)).map (fun BB => BB.id)
    BasicBlockSplit.splitAll blocksToSplit F false

/-- Test that a block ends in exactly one terminator: its last instruction is a terminator
and it is the only terminator of the block. -/
def BasicBlock.endsInOneTerminator (BB : BasicBlock) : Bool :=
  BB.getTerminator.isSome && decide (BB.insts.countP (fun I => I.isTerminator) = 1)

/-- Loop body of six instructions with a branch back to itself. -/
def loopBlock : BasicBlock :=
  ⟨1, "loop",
    [⟨1, .PHI, .int 32, "i", [.constInt 32 0, .block 0, .inst 3, .block 1]⟩,
     ⟨2, .Call, .void, "", [.inst 1]⟩,
     ⟨3, .Add, .int 32, "next", [.inst 1, .constInt 32 1]⟩,
     ⟨4, .Call, .void, "", [.inst 3]⟩,
     ⟨5, .ICmpULT, .int 1, "more", [.inst 3, .constInt 32 10]⟩,
     ⟨6, .Br, .void, "", [.inst 5, .block 1, .block 2]⟩]⟩

/-- Function of three blocks around `loopBlock`. -/
def loopFunction : Function :=
  ⟨"count", .ExternalLinkage,
    [⟨0, "entry", [⟨0, .Br, .void, "", [.block 1]⟩]⟩,
     loopBlock,
     ⟨2, "exit", [⟨7, .Ret, .void, "", []⟩]⟩]⟩

/-- The function `loopFunction` after the split of its block `loop`. -/
def loopFunctionSplit : Function :=
  ⟨"count", .ExternalLinkage,
    [⟨0, "entry", [⟨0, .Br, .void, "", [.block 1]⟩]⟩,
     ⟨1, "loop",
       [⟨1, .PHI, .int 32, "i", [.constInt 32 0, .block 0, .inst 3, .block 3]⟩,
        ⟨2, .Call, .void, "", [.inst 1]⟩,
        ⟨8, .Br, .void, "", [.block 3]⟩]⟩,
     ⟨3, "loop_split",
       [⟨9, .PHI, .int 32, "bogus_phi", [.constInt 32 0, .block 1]⟩,
        ⟨3, .Add, .int 32, "next", [.inst 1, .constInt 32 1]⟩,
        ⟨4, .Call, .void, "", [.inst 3]⟩,
        ⟨5, .ICmpULT, .int 1, "more", [.inst 3, .constInt 32 10]⟩,
        ⟨6, .Br, .void, "", [.inst 5, .block 1, .block 2]⟩]⟩,
     ⟨2, "exit", [⟨7, .Ret, .void, "", []⟩]⟩]⟩

/-! ## ControlFlowFlattening.cpp -/

/-- Routine `minimalFlatten` (lines 32-42): the builder stands before the first instruction
of the entry block and inserts the cell `cff_state` and the store of 0 to it; the result is
`true`. `none` stands for `entry.front()` of an entry block without instructions. -/
def minimalFlatten (F : Function) : Option (Function × Bool) :=
  match F.blocks with
  | [] => none
  | entry :: rest =>
    if entry.insts.isEmpty then none
    else
      let builder : IRBuilder := ⟨[], F.freshId⟩
      let stateVar := builder.insert .Alloca .ptr "cff_state" []
      let store := stateVar.2.insert .Store .void "" [.constInt 32 0, stateVar.1]
      some ({ F with blocks := { entry with insts := store.2.inserted ++ entry.insts } :: rest },
        true)

/-- Pass `ControlFlowFlattening::run` (lines 11-29): the function after the pass and whether
it is reported as changed; `F.size()` is the number of basic blocks of the function. -/
def ControlFlowFlattening.run (F : Function) : Option (Function × Bool) :=
  if F.isDeclaration || F.blocks.length ≤ 3 then some (F, false)
  else if F.name == "main" || "__obf_".data.isPrefixOf F.name.data then some (F, false)
  else minimalFlatten F

/-- Number of instructions of a function, over all its blocks. -/
def Function.instructionCount (F : Function) : Nat :=
  (F.blocks.map (fun BB => BB.insts.length)).sum

/-- The function `pickFunction` with the state variable at the start of its entry block. -/
def pickFunctionFlattened : Function :=
  ⟨"pick", .ExternalLinkage,
    [⟨0, "entry",
       [⟨5, .Alloca, .ptr, "cff_state", []⟩,
        ⟨6, .Store, .void, "", [.constInt 32 0, .inst 5]⟩,
        ⟨0, .Br, .void, "", [.argument 0, .block 1, .block 2]⟩]⟩,
     ⟨1, "then", [⟨1, .Br, .void, "", [.block 3]⟩]⟩,
     ⟨2, "else", [⟨2, .Br, .void, "", [.block 3]⟩]⟩,
     ⟨3, "merge",
       [⟨3, .PHI, .int 32, "r", [.constInt 32 1, .block 1, .constInt 32 2, .block 2]⟩,
        ⟨4, .Ret, .void, "", [.inst 3]⟩]⟩]⟩

/-! ## Counting for the Bogus Instruction Injector -/

/-- Test that a block holds an instruction that is not a terminator. -/
def BasicBlock.hasNonTerminator (BB : BasicBlock) : Bool :=
  BB.insts.any (fun I => !I.isTerminator)

/-- Number of basic blocks, over the defined functions of a list, that hold an instruction
that is not a terminator. -/
def countedBlocks : List Function → Nat
  | [] => 0
  | F :: rest =>
    (if F.isDeclaration then 0 else F.blocks.countP (fun BB => BB.hasNonTerminator))
      + countedBlocks rest


/-- Number of instructions of a module, over all its functions. -/
def Module.instructionCount (M : Module) : Nat :=
  (M.functions.map (fun F => F.instructionCount)).sum

/-- Module of one declaration `puts` and one function `greet` whose only block loads its
argument and returns. -/
def greetModule : Module :=
  ⟨[⟨"puts", .ExternalLinkage, []⟩,
    ⟨"greet", .ExternalLinkage,
      [⟨0, "entry",
        [⟨0, .Load, .int 32, "v", [.argument 0]⟩,
         ⟨1, .Ret, .void, "", []⟩]⟩]⟩], [], 0⟩
/-! ## DynamicXORPass.cpp

The two rewriting routines of the pass.  The value drawn for a site (`dis(gen)`, from
1..255, with a generator seeded from `std::random_device`) and the address of the
instruction object are parameters of the model.  In the interpreter a global of type `i32`
is one cell of its image. -/

/-- Operand `i` of an instruction (`getOperand(i)`); a store has the stored value as operand
0 and the address as operand 1, a load has the address as operand 0. -/
def Instruction.getOperand (I : Instruction) (i : Nat) : Value :=
  I.operands.getD i (.other 0)

/-- Routine `obfuscateStore` (lines 54-67). The builder stands before the store; `key` is
the value drawn for the site by `dis(gen)` from 1..255 and `site` the address of the
instruction object, `(intptr_t)store`. The instructions the builder inserts take the place
of the store, which is erased. -/
def obfuscateStore (store : Instruction) (key site : Nat) (builder : IRBuilder) :
    Bool × IRBuilder :=
  let originalValue := store.getOperand 0
  let dynamicKey := Value.constInt 32 key
  let addrHash := Value.constInt 32 (site &&& 0xFFFF)
  let finalKey := builder.createBinOp .Xor dynamicKey addrHash ""
  let encrypted := finalKey.2.createBinOp .Xor originalValue finalKey.1 ""
  let newStore := encrypted.2.insert .Store .void "" [encrypted.1, store.getOperand 1]
  (true, newStore.2)

/-- Routine `obfuscateLoad` (lines 69-82): the inserted instructions take the place of the
load, and the last component is the value `decrypted` that replaces the load in all its
users. -/
def obfuscateLoad (load : Instruction) (key site : Nat) (builder : IRBuilder) :
    Bool × IRBuilder × Value :=
  let dynamicKey := Value.constInt 32 key
  let addrHash := Value.constInt 32 (site &&& 0xFFFF)
  let finalKey := builder.createBinOp .Xor dynamicKey addrHash ""
  let encrypted := finalKey.2.insert .Load load.ty "" [load.getOperand 0]
  let decrypted := encrypted.2.createBinOp .Xor encrypted.1 finalKey.1 ""
  (true, decrypted.2, decrypted.1)

/-- Call `old->replaceAllUsesWith(new)` seen from one user: every operand that is `old`
becomes `new`. -/
def Instruction.replaceUsesOfWith (I : Instruction) (old new : Value) : Instruction :=
  { I with operands := I.operands.map (fun v => if v = old then new else v) }

/-- Execution of straight-line instructions one after the other. -/
def Machine.steps (m : Machine) : List Instruction → Option Machine
  | [] => some m
  | I :: rest =>
    match m.step I with
    | some m1 => m1.steps rest
    | none => none

/-- The key of a site as the claim writes it: the drawn value XOR the low 16 bits of the
site identity. -/
def siteKey (r site : Nat) : Nat := r ^^^ (site &&& 0xFFFF)

/-! ## Blocks up to the incoming blocks of PHI nodes

When the host splits a block it redirects, in the PHI nodes of the successors, the incoming
block from the old block to the new one.  To compare what a pass leaves with the blocks
described by a rule, both are taken up to these operands. -/

/-- The instruction with the incoming blocks of a PHI node blanked. -/
def Instruction.blankIncoming (I : Instruction) : Instruction :=
  if I.isPHI then
    { I with operands := I.operands.map (fun v => match v with
        | .block _ => .block 0
        | w => w) }
  else I

/-- The block with the incoming blocks of its PHI nodes blanked. -/
def BasicBlock.blankIncoming (BB : BasicBlock) : BasicBlock :=
  { BB with insts := BB.insts.map (fun I => I.blankIncoming) }

/-! ## The split rule of BasicBlockSplit over a whole function -/

/-- The blocks of a function when the pass's `splitBasicBlock` is applied, in function
order, to each block with more than 4 instructions: a block that is split is replaced by
its two parts; `nb` and `ni` are the identities of the next new block and instruction. -/
def splitEach : List BasicBlock → Nat → Nat → List BasicBlock
  | [], _, _ => []
  | BB :: rest, nb, ni =>
    if BB.insts.length > 4 then
      match splitBlock BB nb ni (ni + 1) with
      | .split first second => first :: second :: splitEach rest (nb + 1) (ni + 2)
      | _ => BB :: splitEach rest nb ni
    else BB :: splitEach rest nb ni

/-- Test that a block ends in a terminator that is not an exception-handling pad (a
`catchswitch`), so that the host finds an instruction to split at. -/
def BasicBlock.endsInPlainTerminator (BB : BasicBlock) : Bool :=
  match BB.getTerminator with
  | some t => !t.isEHPad
  | none => false

/-- Block `join` of six instructions that starts with three PHI nodes. -/
def joinBlock : BasicBlock :=
  ⟨3, "join",
    [⟨3, .PHI, .int 32, "a", [.constInt 32 1, .block 1, .constInt 32 2, .block 2]⟩,
     ⟨4, .PHI, .int 32, "b", [.constInt 32 3, .block 1, .constInt 32 4, .block 2]⟩,
     ⟨5, .PHI, .int 32, "c", [.constInt 32 5, .block 1, .constInt 32 6, .block 2]⟩,
     ⟨6, .Add, .int 32, "s", [.inst 3, .inst 4]⟩,
     ⟨7, .Add, .int 32, "t", [.inst 6, .inst 5]⟩,
     ⟨8, .Ret, .void, "", [.inst 7]⟩]⟩

/-- Function of four blocks whose two arms meet in `joinBlock`. -/
def joinFunction : Function :=
  ⟨"join3", .ExternalLinkage,
    [⟨0, "entry", [⟨0, .Br, .void, "", [.argument 0, .block 1, .block 2]⟩]⟩,
     ⟨1, "left", [⟨1, .Br, .void, "", [.block 3]⟩]⟩,
     ⟨2, "right", [⟨2, .Br, .void, "", [.block 3]⟩]⟩,
     joinBlock]⟩

/-- The function `joinFunction` after the pass: `join` keeps its three PHI nodes. -/
def joinFunctionSplit : Function :=
  ⟨"join3", .ExternalLinkage,
    [⟨0, "entry", [⟨0, .Br, .void, "", [.argument 0, .block 1, .block 2]⟩]⟩,
     ⟨1, "left", [⟨1, .Br, .void, "", [.block 3]⟩]⟩,
     ⟨2, "right", [⟨2, .Br, .void, "", [.block 3]⟩]⟩,
     ⟨3, "join",
       [⟨3, .PHI, .int 32, "a", [.constInt 32 1, .block 1, .constInt 32 2, .block 2]⟩,
        ⟨4, .PHI, .int 32, "b", [.constInt 32 3, .block 1, .constInt 32 4, .block 2]⟩,
        ⟨5, .PHI, .int 32, "c", [.constInt 32 5, .block 1, .constInt 32 6, .block 2]⟩,
        ⟨9, .Br, .void, "", [.block 4]⟩]⟩,
     ⟨4, "join_split",
       [⟨10, .PHI, .int 32, "bogus_phi", [.constInt 32 0, .block 3]⟩,
        ⟨6, .Add, .int 32, "s", [.inst 3, .inst 4]⟩,
        ⟨7, .Add, .int 32, "t", [.inst 6, .inst 5]⟩,
        ⟨8, .Ret, .void, "", [.inst 7]⟩]⟩]⟩

/-! ## OpaquePredicates.cpp -/

/-- Signed reading of a value of `bits` bits. -/
def signedValue (bits x : Nat) : Int :=
  if x % 2 ^ bits < 2 ^ (bits - 1) then ((x % 2 ^ bits : Nat) : Int)
  else ((x % 2 ^ bits : Nat) : Int) - 2 ^ bits

/-- Call `CreateICmpSGE`: for two constants the builder folds the comparison to the `i1`
constant and inserts nothing, otherwise it inserts the instruction. -/
def IRBuilder.createICmpSGE (B : IRBuilder) (lhs rhs : Value) (name : String) :
    Value × IRBuilder :=
  match lhs, rhs with
  | .constInt bits x, .constInt _ y =>
    (.constInt 1 (if signedValue bits x ≥ signedValue bits y then 1 else 0), B)
  | _, _ => B.insert .ICmpSGE (.int 1) name [lhs, rhs]

/-- Routine `insertSimpleOpaquePredicate` (lines 36-57) on the block itself: `none` is the
result `false` for a block without terminator. Otherwise the builder, standing before the
terminator, builds the square and the comparison; `splitBasicBlock` moves the terminator
into the new block `bogus_path` (identity `newBB`); the branch the host puts at the end of
the block is erased and the conditional branch with both arms to the new block is appended.
The result is the block, the new block, and the identity for the next new instruction. -/
def opaqueBlock (BB : BasicBlock) (newBB nextId : Nat) : Option (BasicBlock × BasicBlock × Nat) :=
  match BB.getTerminator with
  | none => none
  | some terminator =>
    let builder : IRBuilder := ⟨[], nextId⟩
    let x := Value.constInt 32 42
    let square := builder.createBinOp .Mul x x "square"
    let predicate := square.2.createICmpSGE square.1 (.constInt 32 0) "opaque_pred"
    let falseBlock : BasicBlock := ⟨newBB, "bogus_path", [terminator]⟩
    let condBr : Instruction :=
      ⟨predicate.2.nextId, .Br, .void, "", [predicate.1, .block newBB, .block newBB]⟩
    let trueBlock : BasicBlock :=
      ⟨BB.id, BB.name, BB.insts.dropLast ++ predicate.2.inserted ++ [condBr]⟩
    some (trueBlock, falseBlock, predicate.2.nextId + 1)

/-- Loop `for (auto &BB : F)` of `run` (lines 19-26). The iteration goes over the block list
while `splitBasicBlock` puts the new block right after the current one, so the new block is
the next one visited: `done` are the blocks before the iterator, the other list the blocks
from the iterator on. The host redirects the PHI nodes of the successors of the rewritten
block to the new block. The first argument bounds the number of visits; `run` passes a
bound that is never reached. Result: the blocks, `changed`, and `predicateCount`. -/
def OpaquePredicates.loop : Nat → List BasicBlock → List BasicBlock → Nat → Nat → Nat → Bool →
    List BasicBlock × Bool × Nat
  | 0, done, todo, predicateCount, _, _, changed => (done ++ todo, changed, predicateCount)
  | _ + 1, done, [], predicateCount, _, _, changed => (done, changed, predicateCount)
  | fuel + 1, done, BB :: rest, predicateCount, nb, ni, changed =>
    if BB.insts.length > 5 && predicateCount < 2 then
      match opaqueBlock BB nb ni with
      | some r =>
        let succs := match BB.getTerminator with
          | some t => t.successors
          | none => []
        OpaquePredicates.loop fuel
          (replaceSuccessorsPhiUsesWith (done ++ [r.1]) succs BB.id nb)
          (replaceSuccessorsPhiUsesWith (r.2.1 :: rest) succs BB.id nb)
          ((predicateCount + 1) % 2 ^ 32) (nb + 1) r.2.2 true
      | none => OpaquePredicates.loop fuel (done ++ [BB]) rest predicateCount nb ni changed
    else OpaquePredicates.loop fuel (done ++ [BB]) rest predicateCount nb ni changed

/-- Pass `OpaquePredicates::run` (lines 12-33): the function after the pass and whether it
is reported as changed. At most two blocks are added, so the loop makes at most
`F.size() + 2` visits. -/
def OpaquePredicates.run (F : Function) : Function × Bool :=
  if F.isDeclaration || F.blocks.length < 2 then (F, false)
  else
    let r := OpaquePredicates.loop (F.blocks.length + 2) [] F.blocks 0 F.freshBlockId F.freshId
      false
    ({ F with blocks := r.1 }, r.2.1)

/-- Successors of the block with identity `a` in a list of blocks: the targets of its
terminator. -/
def blockSuccessors (blocks : List BasicBlock) (a : Nat) : List Nat :=
  match blocks.find? (fun B => B.id == a) with
  | some BB =>
    match BB.getTerminator with
    | some t => t.successors
    | none => []
  | none => []

/-- Successors of a block of a function. -/
def Function.successors (F : Function) (a : Nat) : List Nat := blockSuccessors F.blocks a

/-- Reachability along a successor relation. -/
inductive Reach (succ : Nat → List Nat) : Nat → Nat → Prop where
  | refl (a : Nat) : Reach succ a a
  | step (a b c : Nat) : b ∈ succ a → Reach succ b c → Reach succ a c

theorem reaches_step {F : Function} {m m1 : Machine} {I : Instruction} {rest : List Instruction}
    {Q : Machine → Prop} (hop : I.opcode ≠ .Ret) (hbr : I.opcode ≠ .Br)
    (hs : m.step I = some m1) (h : Reaches F m1 rest Q) : Reaches F m (I :: rest) Q := by
  obtain ⟨fuel, r, hr, hq⟩ := h
  refine ⟨fuel + 1, r, ?_, hq⟩
  unfold exec
  split
  · exact absurd (by assumption) hop
  · exact absurd (by assumption) hbr
  · simp [hs, hr]

theorem reaches_br {F : Function} {m : Machine} {I : Instruction} {rest : List Instruction}
    {Q : Machine → Prop} {d : Nat} {B : BasicBlock} (hop : I.opcode = .Br)
    (ht : m.branchTarget I = some d) (hb : F.findBlock d = some B)
    (h : Reaches F m B.insts Q) : Reaches F m (I :: rest) Q := by
  obtain ⟨fuel, r, hr, hq⟩ := h
  refine ⟨fuel + 1, r, ?_, hq⟩
  unfold exec
  simp [hop, ht, hb, hr]

theorem reaches_ret {F : Function} {m : Machine} {I : Instruction} {rest : List Instruction}
    {Q : Machine → Prop} (hop : I.opcode = .Ret) (h : Q m) : Reaches F m (I :: rest) Q := by
  refine ⟨1, m, ?_, h⟩
  unfold exec
  simp [hop]

theorem reaches_step_get {F : Function} {m : Machine} {I : Instruction} {rest : List Instruction}
    {Q : Machine → Prop} (hop : I.opcode ≠ .Ret) (hbr : I.opcode ≠ .Br)
    (hs : (m.step I).isSome) (h : Reaches F ((m.step I).get hs) rest Q) :
    Reaches F m (I :: rest) Q :=
  reaches_step hop hbr (Option.some_get hs).symm h

theorem sext32_small {k : Nat} (h : k < 2 ^ 31) : sext32 k = (k : Int) := by
  unfold sext32
  have h1 : k % 2 ^ 32 = k := Nat.mod_eq_of_lt (by omega)
  rw [h1, if_pos h]

theorem xor_step_list (f : Nat → Nat) (orig : List Nat) (k : Nat) (hk : k < orig.length) :
    ((orig.take k).map f ++ orig.drop k).set k (f (((orig.take k).map f ++ orig.drop k).getD k 0))
      = (orig.take (k + 1)).map f ++ orig.drop (k + 1) := by
  apply List.ext_getElem
  · simp
    omega
  · intro j h1 h2
    simp only [List.length_set, List.length_append, List.length_map, List.length_take,
      List.length_drop] at h1
    rw [List.getElem_set]
    by_cases hj : k = j
    · subst hj
      simp only [if_true]
      rw [List.getElem_append_left (by simp; omega)]
      simp only [List.getElem_map, List.getElem_take]
      congr 1
      rw [List.getD_eq_getElem?_getD, List.getElem?_append_right (by simp)]
      simp [Nat.min_eq_left (Nat.le_of_lt hk), List.getElem?_eq_getElem hk]
    · simp only [if_neg hj]
      by_cases hlt : j < k
      · rw [List.getElem_append_left (by simp; omega), List.getElem_append_left (by simp; omega)]
        simp
      · have hgt : k + 1 ≤ j := by omega
        rw [List.getElem_append_right (by simp; omega), List.getElem_append_right (by simp; omega)]
        simp only [List.getElem_drop, List.length_map, List.length_take]
        congr 1
        omega

/-- The counting loop of one global: from `loop.header` with the counter at `k`, the bytes
below `k` already XORed, execution reaches `loop.end` with every byte XORed and the other
globals untouched. -/
theorem loop_reaches (F : Function) (gi G key len : Nat) (E : BasicBlock) (Q : Machine → Prop)
    (f : Nat → Nat) (hf : ∀ x, f x = x ^^^ (key % 2 ^ 8))
    (orig : List Nat) (other : Nat → List Nat)
    (hH : F.findBlock (3 * gi + 1) = some (loopHeader gi len))
    (hB : F.findBlock (3 * gi + 2) = some (loopBody gi G key))
    (hE : F.findBlock (3 * gi + 3) = some E)
    (hlen : len < 2 ^ 31) (horig : orig.length = len)
    (hcont : ∀ m1 : Machine, m1.mem G = orig.map f → (∀ h, h ≠ G → m1.mem h = other h) →
      Reaches F m1 E.insts Q) :
    ∀ (n k : Nat) (m : Machine), k + n = len →
      m.regs (13 * gi) = some (.stackPtr (13 * gi)) → m.stack (13 * gi) = some k →
      m.mem G = (orig.take k).map f ++ orig.drop k → (∀ h, h ≠ G → m.mem h = other h) →
      Reaches F m (loopHeader gi len).insts Q := by
  intro n
  induction n with
  | zero =>
    intro k m hk hreg hst hmem hoth
    have hk' : k = len := by omega
    subst hk'
    have hmod : k % 4294967296 = k := Nat.mod_eq_of_lt (by omega)
    unfold loopHeader
    refine reaches_step_get (by simp) (by simp) ?_ ?_
    · simp [Machine.step, Machine.eval, hreg, hst]
    refine reaches_step_get (by simp) (by simp) ?_ ?_
    · simp [Machine.step, Machine.eval, Machine.setReg, hreg, hst]
    refine reaches_br (d := 3 * gi + 3) (B := E) (by simp) ?_ hE ?_
    · simp [Machine.branchTarget, Machine.step, Machine.eval, Machine.setReg, hreg, hst, hmod]
    apply hcont
    · simp [Machine.step, Machine.eval, Machine.setReg, hreg, hst, hmem, ← horig]
    · intro h hh
      simp [Machine.step, Machine.eval, Machine.setReg, hreg, hst, hoth h hh]
  | succ n ih =>
    intro k m hk hreg hst hmem hoth
    have hklt : k < len := by omega
    have hmodk : k % 4294967296 = k := Nat.mod_eq_of_lt (by omega)
    have hmodl : len % 4294967296 = len := Nat.mod_eq_of_lt (by omega)
    have hmodk1 : (k + 1) % 4294967296 = k + 1 := Nat.mod_eq_of_lt (by omega)
    have hmemlen : (m.mem G).length = len := by
      rw [hmem]
      simp
      omega
    have hsx : sext32 k = (k : Int) := sext32_small (by omega)
    have hH' := hH
    unfold loopHeader
    unfold loopHeader at hH'
    refine reaches_step_get (by simp) (by simp) ?_ ?_
    · simp [Machine.step, Machine.eval, hreg, hst]
    refine reaches_step_get (by simp) (by simp) ?_ ?_
    · simp [Machine.step, Machine.eval, Machine.setReg, hreg, hst]
    refine reaches_br (d := 3 * gi + 2) (B := loopBody gi G key) (by simp) ?_ hB ?_
    · simp [Machine.branchTarget, Machine.step, Machine.eval, Machine.setReg, hreg, hst,
        hmodk, hmodl, hklt]
    unfold loopBody
    refine reaches_step_get (by simp) (by simp) ?_ ?_
    · simp [Machine.step, Machine.eval, Machine.setReg, hreg, hst]
    refine reaches_step_get (by simp) (by simp) ?_ ?_
    · simp [Machine.step, Machine.eval, Machine.setReg, hsx, hmemlen, hklt, hreg, hst]
    refine reaches_step_get (by simp) (by simp) ?_ ?_
    · simp [Machine.step, Machine.eval, Machine.setReg, hsx, hmemlen, hklt, hreg, hst]
    refine reaches_step_get (by simp) (by simp) ?_ ?_
    · simp [Machine.step, Machine.eval, Machine.setReg, hsx, hmemlen, hklt, hreg, hst]
    refine reaches_step_get (by simp) (by simp) ?_ ?_
    · simp [Machine.step, Machine.eval, Machine.setReg, hsx, hmemlen, hklt, hreg, hst]
    refine reaches_step_get (by simp) (by simp) ?_ ?_
    · simp [Machine.step, Machine.eval, Machine.setReg, hsx, hmemlen, hklt, hreg, hst]
    refine reaches_br (d := 3 * gi + 1) (B := _) (by simp) ?_ hH' ?_
    · simp [Machine.branchTarget]
    have := ih (k + 1)
    unfold loopHeader at this
    apply this
    · omega
    · simp [Machine.step, Machine.eval, Machine.setReg, hsx, hmemlen, hklt, hreg, hst]
    · simp [Machine.step, Machine.eval, Machine.setReg, hsx, hmemlen, hklt, hreg, hst, Ty.bits,
        hmodk1]
    · simp [Machine.step, Machine.eval, Machine.setReg, hsx, hmemlen, hklt, hreg, hst]
      have hb : k < (m.mem G).length := by omega
      have hget : (m.mem G).getD k 0 = (m.mem G)[k] := List.getD_eq_getElem _ _ hb
      have hx := xor_step_list f orig k (by omega)
      rw [← hmem, hf, hget] at hx
      rw [← List.map_take]
      exact hx
    · intro h hh
      simp [Machine.step, Machine.eval, Machine.setReg, hsx, hmemlen, hklt, hreg, hst, hh,
        hoth h hh]
theorem reaches_mono {F : Function} {m : Machine} {todo : List Instruction}
    {Q1 Q2 : Machine → Prop} (h : Reaches F m todo Q1) (hq : ∀ r, Q1 r → Q2 r) :
    Reaches F m todo Q2 := by
  obtain ⟨fuel, r, hr, h1⟩ := h
  exact ⟨fuel, r, hr, hq r h1⟩

theorem decryptBlocks_head (M : Module) (L : List (Nat × Nat)) (gi cur : Nat) (nm : String) :
    ∃ tail, decryptBlocks M L gi cur nm
      = ⟨cur, nm, headInsts (decryptBlocks M L gi cur nm)⟩ :: tail := by
  cases L with
  | nil => exact ⟨[], rfl⟩
  | cons p rest => exact ⟨_, rfl⟩

theorem find_after_prefix (pre post : List BasicBlock) (B : BasicBlock) (d : Nat)
    (hpre : ∀ X ∈ pre, X.id ≠ d) (hB : B.id = d) :
    (pre ++ B :: post).find? (fun X => X.id == d) = some B := by
  induction pre with
  | nil => simp [List.find?, hB]
  | cons X xs ih =>
    have hX : X.id ≠ d := hpre X (by simp)
    simp only [List.cons_append, List.find?]
    have : (X.id == d) = false := by simpa using hX
    rw [this]
    exact ih (fun Y hY => hpre Y (by simp [hY]))

/-- The whole routine: from the start of the current block, execution runs the loops of
all remaining globals in turn and returns, each global XORed with its own key. -/
theorem decrypt_reaches (M : Module) :
    ∀ (L : List (Nat × Nat)) (gi cur : Nat) (nm : String) (pre : List BasicBlock) (F : Function)
      (m : Machine),
      F.blocks = pre ++ decryptBlocks M L gi cur nm →
      (∀ B ∈ pre, B.id < 3 * gi + 1) → cur < 3 * gi + 1 →
      (L.map Prod.fst).Nodup →
      (∀ p ∈ L, (m.mem p.1).length = M.numElements p.1 ∧ M.numElements p.1 < 2 ^ 31) →
      Reaches F m (headInsts (decryptBlocks M L gi cur nm))
        (fun r => (∀ p ∈ L, r.mem p.1 = (m.mem p.1).map (fun x => x ^^^ (p.2 % 2 ^ 8))) ∧
          ∀ h, h ∉ L.map Prod.fst → r.mem h = m.mem h) := by
  intro L
  induction L with
  | nil =>
    intro gi cur nm pre F m _ _ _ _ _
    simp only [decryptBlocks, headInsts]
    exact reaches_ret rfl (by simp)
  | cons p rest ih =>
    intro gi cur nm pre F m hF hpre hcur hnd hlen
    obtain ⟨G, key⟩ := p
    obtain ⟨tail, htail⟩ := decryptBlocks_head M rest (gi + 1) (3 * gi + 3) "loop.end"
    simp only [decryptBlocks] at hF
    have hH : F.findBlock (3 * gi + 1) = some (loopHeader gi (M.numElements G)) := by
      have hF1 : F.blocks = (pre ++ [⟨cur, nm, counterSetup gi⟩])
          ++ (loopHeader gi (M.numElements G)
            :: loopBody gi G key :: decryptBlocks M rest (gi + 1) (3 * gi + 3) "loop.end") := by
        rw [hF, List.append_assoc]
        rfl
      unfold Function.findBlock
      rw [hF1]
      refine find_after_prefix _ _ _ _ ?_ rfl
      intro X hX
      simp only [List.mem_append, List.mem_singleton] at hX
      rcases hX with hX | hX
      · exact Nat.ne_of_lt (hpre X hX)
      · subst hX
        exact Nat.ne_of_lt hcur
    have hB : F.findBlock (3 * gi + 2) = some (loopBody gi G key) := by
      have hF1 : F.blocks = (pre ++ [⟨cur, nm, counterSetup gi⟩, loopHeader gi (M.numElements G)])
          ++ (loopBody gi G key :: decryptBlocks M rest (gi + 1) (3 * gi + 3) "loop.end") := by
        rw [hF, List.append_assoc]
        rfl
      unfold Function.findBlock
      rw [hF1]
      refine find_after_prefix _ _ _ _ ?_ rfl
      intro X hX
      simp only [List.mem_append, List.mem_cons, List.mem_singleton, List.not_mem_nil,
        or_false] at hX
      rcases hX with hX | hX | hX
      · have := hpre X hX
        omega
      · subst hX
        show cur ≠ _
        omega
      · subst hX
        show 3 * gi + 1 ≠ _
        omega
    have hE : F.findBlock (3 * gi + 3)
        = some ⟨3 * gi + 3, "loop.end",
            headInsts (decryptBlocks M rest (gi + 1) (3 * gi + 3) "loop.end")⟩ := by
      have hF1 : F.blocks = (pre ++ [⟨cur, nm, counterSetup gi⟩,
          loopHeader gi (M.numElements G), loopBody gi G key])
          ++ (⟨3 * gi + 3, "loop.end",
            headInsts (decryptBlocks M rest (gi + 1) (3 * gi + 3) "loop.end")⟩ :: tail) := by
        rw [hF, List.append_assoc]
        refine congrArg (fun t => pre ++ t) ?_
        exact congrArg (fun t => (⟨cur, nm, counterSetup gi⟩ : BasicBlock)
          :: loopHeader gi (M.numElements G) :: loopBody gi G key :: t) htail
      unfold Function.findBlock
      rw [hF1]
      refine find_after_prefix _ _ _ _ ?_ rfl
      intro X hX
      simp only [List.mem_append, List.mem_cons, List.mem_singleton, List.not_mem_nil,
        or_false] at hX
      rcases hX with hX | hX | hX | hX
      · have := hpre X hX
        omega
      · subst hX
        show cur ≠ _
        omega
      · subst hX
        show 3 * gi + 1 ≠ _
        omega
      · subst hX
        show 3 * gi + 2 ≠ _
        omega
    have hG := hlen (G, key) (by simp)
    simp only at hG
    have hnd' : (rest.map Prod.fst).Nodup := by
      simp only [List.map_cons, List.nodup_cons] at hnd
      exact hnd.2
    have hGrest : G ∉ rest.map Prod.fst := by
      simp only [List.map_cons, List.nodup_cons] at hnd
      exact hnd.1
    simp only [decryptBlocks, headInsts]
    unfold counterSetup
    refine reaches_step_get (by simp) (by simp) ?_ ?_
    · simp [Machine.step]
    refine reaches_step_get (by simp) (by simp) ?_ ?_
    · simp [Machine.step, Machine.eval, Machine.setReg]
    refine reaches_br (d := 3 * gi + 1) (B := _) (by simp) ?_ hH ?_
    · simp [Machine.branchTarget]
    refine loop_reaches F gi G key (M.numElements G) _ _ (fun x => x ^^^ (key % 2 ^ 8))
      (fun _ => rfl) (m.mem G) m.mem hH hB hE hG.2 hG.1 ?_ (M.numElements G) 0 _ (by omega)
      ?_ ?_ ?_ ?_
    · intro m1 hm1 hoth
      have hF' : F.blocks = (pre ++ [⟨cur, nm, counterSetup gi⟩,
          loopHeader gi (M.numElements G), loopBody gi G key])
          ++ decryptBlocks M rest (gi + 1) (3 * gi + 3) "loop.end" := by
        rw [hF]
        simp
      have := ih (gi + 1) (3 * gi + 3) "loop.end" _ F m1 hF'
        (by
          intro X hX
          simp only [List.mem_append, List.mem_cons, List.mem_singleton, List.not_mem_nil,
            or_false] at hX
          rcases hX with hX | hX | hX | hX
          · have := hpre X hX
            omega
          · subst hX
            show cur < _
            omega
          · subst hX
            show 3 * gi + 1 < _
            omega
          · subst hX
            show 3 * gi + 2 < _
            omega)
        (by omega) hnd'
        (by
          intro p hp
          have hne : p.1 ≠ G := by
            intro h
            apply hGrest
            rw [← h]
            exact List.mem_map_of_mem _ hp
          rw [hoth p.1 hne]
          exact hlen p (by simp [hp]))
      refine reaches_mono this ?_
      intro r hr
      constructor
      · intro p hp
        simp only [List.mem_cons] at hp
        rcases hp with hp | hp
        · subst hp
          rw [hr.2 G hGrest, hm1]
        · have hne : p.1 ≠ G := by
            intro h
            apply hGrest
            rw [← h]
            exact List.mem_map_of_mem _ hp
          rw [hr.1 p hp, hoth p.1 hne]
      · intro h hh
        simp only [List.map_cons, List.mem_cons, not_or] at hh
        rw [hr.2 h hh.2, hoth h hh.1]
    · simp [Machine.step, Machine.eval, Machine.setReg]
    · simp [Machine.step, Machine.eval, Machine.setReg]
    · simp [Machine.step, Machine.eval, Machine.setReg]
    · intro h _
      simp [Machine.step, Machine.eval, Machine.setReg]

/-! ## The encryption loop -/

theorem image_updateGlobal_ne (M : Module) (t i : Nat) (f : GlobalVariable → GlobalVariable)
    (h : t ≠ i) : (M.updateGlobal t f).image i = M.image i := by
  simp [Module.image, Module.updateGlobal, List.getElem?_modify_ne _ _ h]

theorem stringBytes_encryptGlobal (G : GlobalVariable) (key : Nat) :
    (encryptGlobal G key).stringBytes = encryptBytes G.stringBytes key := by
  obtain ⟨name, linkage, isConstant, initializer⟩ := G
  cases initializer with
  | none => simp [encryptGlobal, GlobalVariable.stringBytes, encryptBytes]
  | some c => cases c <;> simp [encryptGlobal, GlobalVariable.stringBytes, encryptBytes]

theorem image_updateGlobal_encrypt (M : Module) (t key : Nat) :
    (M.updateGlobal t (fun G => encryptGlobal G key)).image t = encryptBytes (M.image t) key := by
  simp only [Module.image, Module.updateGlobal, List.getElem?_modify_eq]
  cases h : M.globals[t]? with
  | none => simp [encryptBytes]
  | some G => simp [stringBytes_encryptGlobal]

theorem encryptTargets_keys : ∀ (ts : List Nat) (M : Module) (g : Mt19937) (ks : List Nat),
    (encryptTargets ts M g ks).2.2 = ks ++ drawKeys ts.length g
  | [], M, g, ks => by simp [encryptTargets, drawKeys]
  | t :: ts, M, g, ks => by
    simp only [encryptTargets, List.length_cons, drawKeys]
    rw [encryptTargets_keys ts]
    simp

theorem encryptTargets_functions : ∀ (ts : List Nat) (M : Module) (g : Mt19937) (ks : List Nat),
    (encryptTargets ts M g ks).1.functions = M.functions
  | [], M, g, ks => by simp [encryptTargets]
  | t :: ts, M, g, ks => by
    simp only [encryptTargets]
    rw [encryptTargets_functions ts]
    rfl

theorem encryptTargets_image_other : ∀ (ts : List Nat) (M : Module) (g : Mt19937) (ks : List Nat)
    (i : Nat), i ∉ ts → (encryptTargets ts M g ks).1.image i = M.image i
  | [], M, g, ks, i, _ => by simp [encryptTargets]
  | t :: ts, M, g, ks, i, hi => by
    simp only [List.mem_cons, not_or] at hi
    simp only [encryptTargets]
    rw [encryptTargets_image_other ts _ _ _ i hi.2]
    exact image_updateGlobal_ne M t i _ (Ne.symm hi.1)

theorem encryptTargets_image : ∀ (ts : List Nat) (M : Module) (g : Mt19937) (ks : List Nat),
    ts.Nodup → ∀ p ∈ ts.zip (drawKeys ts.length g),
      (encryptTargets ts M g ks).1.image p.1 = encryptBytes (M.image p.1) p.2
  | [], M, g, ks, _, p, hp => by simp at hp
  | t :: ts, M, g, ks, hnd, p, hp => by
    simp only [List.nodup_cons] at hnd
    simp only [List.length_cons, drawKeys, List.zip_cons_cons, List.mem_cons] at hp
    simp only [encryptTargets]
    rcases hp with hp | hp
    · subst hp
      rw [encryptTargets_image_other ts _ _ _ t hnd.1]
      exact image_updateGlobal_encrypt M t _
    · have hmem : p.1 ∈ ts := (List.of_mem_zip hp).1
      have hne : t ≠ p.1 := fun h => hnd.1 (h ▸ hmem)
      rw [encryptTargets_image ts _ _ _ hnd.2 p hp]
      rw [image_updateGlobal_ne M t p.1 _ hne]

theorem drawKeys_length : ∀ (n : Nat) (g : Mt19937), (drawKeys n g).length = n
  | 0, _ => rfl
  | n + 1, g => by simp [drawKeys, drawKeys_length n]

theorem drawKeys_lt : ∀ (n : Nat) (g : Mt19937), ∀ k ∈ drawKeys n g, k < 256
  | 0, _, k, hk => by simp [drawKeys] at hk
  | n + 1, g, k, hk => by
    simp only [drawKeys, List.mem_cons] at hk
    rcases hk with hk | hk
    · subst hk
      exact Nat.mod_lt _ (by decide)
    · exact drawKeys_lt n _ k hk

theorem encryptBytes_eq_map (elems : List Nat) (key : Nat) (hlen : elems.length < 2 ^ 32)
    (hb : ∀ b ∈ elems, b < 256) : encryptBytes elems key = elems.map (fun b => b ^^^ key) := by
  unfold encryptBytes
  rw [Nat.mod_eq_of_lt hlen]
  apply List.ext_getElem
  · simp
  · intro j h1 h2
    simp only [List.length_map, List.length_range] at h1
    simp only [List.getElem_map, List.getElem_range]
    rw [List.getD_eq_getElem _ _ h1, Nat.mod_eq_of_lt (hb _ (List.getElem_mem _))]

theorem xor_twice_map (elems : List Nat) (key : Nat) (hk : key < 256) :
    (elems.map (fun b => b ^^^ key)).map (fun x => x ^^^ (key % 2 ^ 8)) = elems := by
  have : key % 2 ^ 8 = key := Nat.mod_eq_of_lt (by simpa using hk)
  rw [this, List.map_map]
  conv => rhs; rw [← List.map_id elems]
  apply List.map_congr_left
  intro b _
  simp [Nat.xor_assoc]

theorem scanTargets_nodup (M : Module) : (scanTargets M).Nodup :=
  List.Nodup.filter _ (List.nodup_range _)

/-! ## The pass as a whole -/

theorem findIdx_modify_name (gs : List GlobalVariable) (f : GlobalVariable → GlobalVariable)
    (t : Nat) (hf : ∀ G, (f G).name = G.name) (p : String) :
    (gs.modify f t).findIdx (fun G => G.name == p) = gs.findIdx (fun G => G.name == p) := by
  induction gs generalizing t with
  | nil => cases t <;> rfl
  | cons G rest ih =>
    cases t with
    | zero =>
      simp only [List.modify, List.modifyHead, List.modifyTailIdx, List.findIdx_cons, hf]
    | succ t =>
      simp only [List.modify_succ_cons, List.findIdx_cons, ih t]

theorem encryptGlobal_name (G : GlobalVariable) (key : Nat) : (encryptGlobal G key).name = G.name := by
  unfold encryptGlobal
  split <;> rfl

theorem getNamedGlobal_updateGlobal (M : Module) (t key : Nat) (p : String) :
    (M.updateGlobal t (fun G => encryptGlobal G key)).getNamedGlobal p = M.getNamedGlobal p := by
  unfold Module.getNamedGlobal Module.updateGlobal
  simp only [List.length_modify]
  rw [findIdx_modify_name _ _ _ (fun G => encryptGlobal_name G key)]

theorem encryptTargets_getNamedGlobal : ∀ (ts : List Nat) (M : Module) (g : Mt19937)
    (ks : List Nat) (p : String),
    (encryptTargets ts M g ks).1.getNamedGlobal p = M.getNamedGlobal p
  | [], M, g, ks, p => by simp [encryptTargets]
  | t :: ts, M, g, ks, p => by
    simp only [encryptTargets]
    rw [encryptTargets_getNamedGlobal ts, getNamedGlobal_updateGlobal]

/-- Initializer lists survive the encryption loop: an array initializer is never a string. -/
theorem encryptTargets_array : ∀ (ts : List Nat) (M : Module) (g : Mt19937) (ks : List Nat)
    (i : Nat) (n : String) (l : Linkage) (c : Bool) (elems : List ArrayElement),
    M.globals[i]? = some ⟨n, l, c, some (.array elems)⟩ →
    (encryptTargets ts M g ks).1.globals[i]? = some ⟨n, l, c, some (.array elems)⟩
  | [], M, g, ks, i, n, l, c, elems, h => by simpa [encryptTargets] using h
  | t :: ts, M, g, ks, i, n, l, c, elems, h => by
    simp only [encryptTargets]
    apply encryptTargets_array ts
    simp only [Module.updateGlobal, List.getElem?_modify, h]
    by_cases ht : t = i
    · simp [ht, encryptGlobal]
    · simp [ht]

theorem encryptTargets_globalCtors (ts : List Nat) (M : Module) (g : Mt19937) (ks : List Nat)
    (elems : List ArrayElement) (h : M.globalCtors = some elems) :
    (encryptTargets ts M g ks).1.globalCtors = some elems := by
  unfold Module.globalCtors at h ⊢
  rw [encryptTargets_getNamedGlobal]
  cases hg : M.getNamedGlobal "llvm.global_ctors" with
  | none => simp [hg] at h
  | some gv =>
    simp only [hg] at h ⊢
    cases hG : M.globals[gv]? with
    | none => simp [hG] at h
    | some G =>
      obtain ⟨n, l, c, init⟩ := G
      cases init with
      | none => simp [hG] at h
      | some k =>
        cases k <;> simp [hG] at h
        subst h
        rw [encryptTargets_array ts M g ks gv n l c _ hG]

theorem appendToGlobalCtors_functions (M : Module) (c p : Nat) :
    (appendToGlobalCtors M c p).functions = M.functions := by
  unfold appendToGlobalCtors
  split
  · rfl
  · split <;> rfl

theorem appendToGlobalCtors_image (M : Module) (c p i : Nat) :
    (appendToGlobalCtors M c p).image i = M.image i := by
  unfold appendToGlobalCtors
  split
  · simp only [Module.image]
    by_cases hi : i < M.globals.length
    · rw [List.getElem?_append_left hi]
    · have hi' : M.globals.length ≤ i := Nat.le_of_not_lt hi
      rw [List.getElem?_append_right hi', List.getElem?_eq_none hi']
      cases h : i - M.globals.length with
      | zero => simp [GlobalVariable.stringBytes]
      | succ n => simp
  · rename_i gv _
    split
    · rename_i n l k elems hG
      simp only [Module.image, Module.updateGlobal, List.getElem?_modify]
      by_cases hi : gv = i
      · subst hi
        simp [hG, GlobalVariable.stringBytes]
      · simp [hi]
    · rfl

theorem getNamedGlobal_lt (M : Module) (p : String) (gv : Nat)
    (h : M.getNamedGlobal p = some gv) : gv < M.globals.length := by
  unfold Module.getNamedGlobal at h
  simp only at h
  split at h
  · simp only [Option.some.injEq] at h
    omega
  · simp at h

theorem appendToGlobalCtors_absent (M : Module) (c p : Nat)
    (h : M.getNamedGlobal "llvm.global_ctors" = none) :
    (appendToGlobalCtors M c p).globalCtors = some [ctorEntry c p] := by
  unfold appendToGlobalCtors
  rw [h]
  have hnone : ¬ M.globals.findIdx (fun G => G.name == "llvm.global_ctors") < M.globals.length := by
    intro hlt
    simp [Module.getNamedGlobal, hlt] at h
  have hidx : (M.globals ++ [(⟨"llvm.global_ctors", .AppendingLinkage, false,
      some (.array [ctorEntry c p])⟩ : GlobalVariable)]).findIdx
      (fun G => G.name == "llvm.global_ctors") = M.globals.length := by
    rw [List.findIdx_append, if_neg hnone]
    simp [List.findIdx_cons]
  simp only [Module.globalCtors, Module.getNamedGlobal, hidx]
  simp

theorem appendToGlobalCtors_present (M : Module) (c p : Nat) (elems : List ArrayElement)
    (h : M.globalCtors = some elems) :
    (appendToGlobalCtors M c p).globalCtors = some (elems ++ [ctorEntry c p]) := by
  unfold Module.globalCtors at h
  unfold appendToGlobalCtors
  cases hg : M.getNamedGlobal "llvm.global_ctors" with
  | none => simp [hg] at h
  | some gv =>
    simp only [hg] at h ⊢
    have hlt := getNamedGlobal_lt M _ gv hg
    cases hG : M.globals[gv]? with
    | none => simp [hG] at h
    | some G =>
      obtain ⟨n, l, k, init⟩ := G
      cases init with
      | none => simp [hG] at h
      | some k0 =>
        cases k0 with
        | array es =>
          simp [hG] at h
          subst h
          simp only
          have hname : (M.updateGlobal gv (fun GV =>
              { GV with initializer := some (.array (es ++ [ctorEntry c p])) })).getNamedGlobal
              "llvm.global_ctors" = some gv := by
            rw [← hg]
            unfold Module.getNamedGlobal Module.updateGlobal
            simp only [List.length_modify]
            rw [findIdx_modify_name M.globals (fun GV =>
              { GV with initializer := some (.array (es ++ [ctorEntry c p])) }) gv
              (fun G => rfl)]
          unfold Module.globalCtors
          rw [hname]
          simp [Module.updateGlobal, hG]
        | _ => simp [hG] at h

theorem globalCtors_addFunction (M : Module) (F : Function) :
    ({ M with functions := M.functions ++ [F] } : Module).globalCtors = M.globalCtors := rfl

theorem getNamedGlobal_addFunction (M : Module) (F : Function) (p : String) :
    ({ M with functions := M.functions ++ [F] } : Module).getNamedGlobal p = M.getNamedGlobal p :=
  rfl

theorem scanTargets_eq_nil (M : Module) (h : ∀ G ∈ M.globals, G.isStringConstant = false) :
    scanTargets M = [] := by
  unfold scanTargets
  rw [List.filter_eq_nil_iff]
  intro i hi
  simp only [List.mem_range] at hi
  rw [List.getElem?_eq_getElem hi]
  simp [h _ (List.getElem_mem hi)]

theorem run_of_targets (P : StringEncryptPass) (M : Module) (hne : scanTargets M ≠ []) :
    P.run M =
      (appendToGlobalCtors
        { (encryptTargets (scanTargets M) M P.RNG []).1 with
          functions := (encryptTargets (scanTargets M) M P.RNG []).1.functions ++
            [createDecryptCtor (encryptTargets (scanTargets M) M P.RNG []).1 (scanTargets M)
              (encryptTargets (scanTargets M) M P.RNG []).2.2] }
        (encryptTargets (scanTargets M) M P.RNG []).1.functions.length 65535,
       ⟨(scanTargets M).length, ((scanTargets M).map M.image).map escapeString,
        (encryptTargets (scanTargets M) M P.RNG []).2.2⟩) := by
  unfold StringEncryptPass.run
  have : (scanTargets M).isEmpty = false := by
    cases h : scanTargets M with
    | nil => exact absurd h hne
    | cons a l => rfl
  simp only [this]
  rfl

theorem run_keys (P : StringEncryptPass) (M : Module) (hne : scanTargets M ≠ []) :
    (P.run M).2.keys = drawKeys (scanTargets M).length P.RNG := by
  rw [run_of_targets P M hne]
  simp [encryptTargets_keys]

theorem run_image (P : StringEncryptPass) (M : Module) (hne : scanTargets M ≠ []) (i : Nat) :
    (P.run M).1.image i = (encryptTargets (scanTargets M) M P.RNG []).1.image i := by
  rw [run_of_targets P M hne]
  simp only
  rw [appendToGlobalCtors_image]
  rfl

theorem run_functions (P : StringEncryptPass) (M : Module) (hne : scanTargets M ≠ []) :
    (P.run M).1.functions = M.functions ++
      [createDecryptCtor (encryptTargets (scanTargets M) M P.RNG []).1 (scanTargets M)
        (drawKeys (scanTargets M).length P.RNG)] := by
  rw [run_of_targets P M hne]
  simp only
  rw [appendToGlobalCtors_functions]
  simp [encryptTargets_functions, encryptTargets_keys]

theorem run_globalCtors_absent (P : StringEncryptPass) (M : Module) (hne : scanTargets M ≠ [])
    (h : M.getNamedGlobal "llvm.global_ctors" = none) :
    (P.run M).1.globalCtors = some [ctorEntry M.functions.length 65535] := by
  rw [run_of_targets P M hne]
  simp only
  rw [appendToGlobalCtors_absent, encryptTargets_functions]
  rw [getNamedGlobal_addFunction, encryptTargets_getNamedGlobal]
  exact h

theorem run_globalCtors_present (P : StringEncryptPass) (M : Module) (hne : scanTargets M ≠ [])
    (elems : List ArrayElement) (h : M.globalCtors = some elems) :
    (P.run M).1.globalCtors = some (elems ++ [ctorEntry M.functions.length 65535]) := by
  rw [run_of_targets P M hne]
  simp only
  rw [appendToGlobalCtors_present _ _ _ elems, encryptTargets_functions]
  rw [globalCtors_addFunction]
  exact encryptTargets_globalCtors _ _ _ _ _ h

theorem call_eq_exec (F : Function) (fuel : Nat) (mem : Nat → List Nat) :
    F.call fuel mem = exec F fuel ⟨fun _ => none, fun _ => none, mem⟩ (headInsts F.blocks) := by
  unfold Function.call
  cases h : F.blocks with
  | nil => cases fuel <;> simp [headInsts, exec]
  | cons B rest => simp [headInsts]

/-- Claim C1.  String Encryptor round trip: for a module with at least one string constant,
elements that are bytes and lengths below 2^31 (the range of the routine's signed 32-bit
index), the pass draws one key `K` per string constant with bytes `S`, stores `S[i] XOR K`
in it, and the call of the synthesized routine `__obf_decrypt_init` on the stored bytes
runs the counting loops of all of them and returns with every one holding exactly `S`
again, all other globals as stored. -/
theorem string_encrypt_round_trip (P : StringEncryptPass) (M : Module)
    (hne : scanTargets M ≠ [])
    (hbyte : ∀ t ∈ scanTargets M, ∀ b ∈ M.image t, b < 256)
    (hlen : ∀ t ∈ scanTargets M, (M.image t).length < 2 ^ 31) :
    (P.run M).2.keys = drawKeys (scanTargets M).length P.RNG ∧
    (P.run M).2.keys.length = (scanTargets M).length ∧
    (∀ p ∈ (scanTargets M).zip (P.run M).2.keys,
      (P.run M).1.image p.1 = (M.image p.1).map (fun b => b ^^^ p.2)) ∧
    ∃ ctor fuel r, (P.run M).1.functions[M.functions.length]? = some ctor ∧
      ctor.name = "__obf_decrypt_init" ∧
      ctor.call fuel (P.run M).1.image = some r ∧
      (∀ t ∈ scanTargets M, r.mem t = M.image t) ∧
      (∀ i, i ∉ scanTargets M → r.mem i = (P.run M).1.image i) := by
  have hnd := scanTargets_nodup M
  have hkeys := run_keys P M hne
  have himg : ∀ p ∈ (scanTargets M).zip (drawKeys (scanTargets M).length P.RNG),
      (P.run M).1.image p.1 = (M.image p.1).map (fun b => b ^^^ p.2) := by
    intro p hp
    have hmem : p.1 ∈ scanTargets M := (List.of_mem_zip hp).1
    rw [run_image P M hne, encryptTargets_image _ _ _ _ hnd p hp]
    exact encryptBytes_eq_map _ _ (Nat.lt_trans (hlen _ hmem) (by decide)) (hbyte _ hmem)
  refine ⟨hkeys, by rw [hkeys, drawKeys_length], by rw [hkeys]; exact himg, ?_⟩
  have hfun := run_functions P M hne
  have hfst : (((scanTargets M).zip (drawKeys (scanTargets M).length P.RNG)).map Prod.fst)
      = scanTargets M := by
    rw [List.map_fst_zip]
    rw [drawKeys_length]
  have hreach := decrypt_reaches (encryptTargets (scanTargets M) M P.RNG []).1
    ((scanTargets M).zip (drawKeys (scanTargets M).length P.RNG)) 0 0 "entry" []
    (createDecryptCtor (encryptTargets (scanTargets M) M P.RNG []).1 (scanTargets M)
        (drawKeys (scanTargets M).length P.RNG))
    ⟨fun _ => none, fun _ => none, (P.run M).1.image⟩ rfl (by simp) (by decide)
    (by rw [hfst]; exact hnd)
    (by
      intro p hp
      have hmem : p.1 ∈ scanTargets M := (List.of_mem_zip hp).1
      have h1 := himg p hp
      have h2 := run_image P M hne p.1
      simp only [Module.numElements]
      rw [← h2, h1]
      simp only [List.length_map]
      exact ⟨trivial, hlen _ hmem⟩)
  obtain ⟨fuel, r, hr, hq1, hq2⟩ := hreach
  refine ⟨createDecryptCtor (encryptTargets (scanTargets M) M P.RNG []).1 (scanTargets M)
        (drawKeys (scanTargets M).length P.RNG), fuel, r, by rw [hfun]; simp, rfl, ?_, ?_, ?_⟩
  · rw [call_eq_exec]
    exact hr
  · intro t ht
    obtain ⟨k, hk⟩ : ∃ k, (t, k) ∈ (scanTargets M).zip (drawKeys (scanTargets M).length P.RNG) := by
      have : t ∈ ((scanTargets M).zip (drawKeys (scanTargets M).length P.RNG)).map Prod.fst := by
        rw [hfst]
        exact ht
      obtain ⟨p, hp, hpt⟩ := List.mem_map.1 this
      exact ⟨p.2, by rw [← hpt]; exact hp⟩
    rw [hq1 _ hk]
    simp only
    rw [himg _ hk]
    exact xor_twice_map _ _ (drawKeys_lt _ _ _ (List.of_mem_zip hk).2)
  · intro i hi
    exact hq2 i (by rw [hfst]; exact hi)

theorem encryptGlobal_not_array (G : GlobalVariable) (key : Nat)
    (h : ∀ elems, G.initializer ≠ some (.array elems)) :
    ∀ elems, (encryptGlobal G key).initializer ≠ some (.array elems) := by
  obtain ⟨n, l, c, init⟩ := G
  cases init with
  | none => simp [encryptGlobal]
  | some k => cases k <;> simp_all [encryptGlobal]

theorem encryptTargets_not_array : ∀ (ts : List Nat) (M : Module) (g : Mt19937) (ks : List Nat)
    (i : Nat), (∀ G, M.globals[i]? = some G → ∀ elems, G.initializer ≠ some (.array elems)) →
    ∀ G, (encryptTargets ts M g ks).1.globals[i]? = some G →
      ∀ elems, G.initializer ≠ some (.array elems)
  | [], M, g, ks, i, h => by simpa [encryptTargets] using h
  | t :: ts, M, g, ks, i, h => by
    simp only [encryptTargets]
    apply encryptTargets_not_array ts
    intro G hG
    simp only [Module.updateGlobal, List.getElem?_modify] at hG
    cases hM : M.globals[i]? with
    | none => simp [hM] at hG
    | some G0 =>
      simp only [hM, Option.map_eq_map, Option.map_some', Option.some.injEq] at hG
      subst hG
      by_cases ht : t = i
      · simp only [ht, if_true]
        exact encryptGlobal_not_array _ _ (h G0 hM)
      · simp only [ht, if_false]
        exact h G0 hM

theorem run_globalCtors_other (P : StringEncryptPass) (M : Module) (hne : scanTargets M ≠ [])
    (gv : Nat) (hgv : M.getNamedGlobal "llvm.global_ctors" = some gv)
    (h : M.globalCtors = none) : (P.run M).1.globalCtors = none := by
  rw [run_of_targets P M hne]
  simp only
  have hnot : ∀ G, M.globals[gv]? = some G → ∀ elems, G.initializer ≠ some (.array elems) := by
    intro G hG elems hinit
    obtain ⟨n, l, c, init⟩ := G
    simp only at hinit
    subst hinit
    simp [Module.globalCtors, hgv, hG] at h
  have hnot' := encryptTargets_not_array (scanTargets M) M P.RNG [] gv hnot
  have hname := encryptTargets_getNamedGlobal (scanTargets M) M P.RNG [] "llvm.global_ctors"
  rw [hgv] at hname
  generalize (encryptTargets (scanTargets M) M P.RNG []).2.2 = keys at *
  generalize (encryptTargets (scanTargets M) M P.RNG []).1 = M1 at *
  have hM1 : M1.globalCtors = none := by
    unfold Module.globalCtors
    rw [hname]
    simp only
    cases hG : M1.globals[gv]? with
    | none => rfl
    | some G =>
      obtain ⟨n, l, c, init⟩ := G
      cases init with
      | none => rfl
      | some k =>
        cases k with
        | array es => exact absurd rfl (hnot' _ hG es)
        | _ => rfl
  unfold appendToGlobalCtors
  simp only [getNamedGlobal_addFunction, hname]
  cases hG : M1.globals[gv]? with
  | none =>
    simp only
    exact hM1
  | some G =>
    obtain ⟨n, l, c, init⟩ := G
    cases init with
    | none =>
      simp only
      exact hM1
    | some k =>
      cases k with
      | array es => exact absurd rfl (hnot' _ hG es)
      | _ =>
        simp only
        exact hM1

theorem run_getNamedGlobal_other (P : StringEncryptPass) (M : Module)
    (hne : scanTargets M ≠ []) (gv : Nat)
    (hgv : M.getNamedGlobal "llvm.global_ctors" = some gv) (h : M.globalCtors = none) :
    (P.run M).1.getNamedGlobal "llvm.global_ctors" = some gv := by
  rw [run_of_targets P M hne]
  simp only
  have hnot : ∀ G, M.globals[gv]? = some G → ∀ elems, G.initializer ≠ some (.array elems) := by
    intro G hG elems hinit
    obtain ⟨n, l, c, init⟩ := G
    simp only at hinit
    subst hinit
    simp [Module.globalCtors, hgv, hG] at h
  have hnot' := encryptTargets_not_array (scanTargets M) M P.RNG [] gv hnot
  have hname := encryptTargets_getNamedGlobal (scanTargets M) M P.RNG [] "llvm.global_ctors"
  rw [hgv] at hname
  generalize (encryptTargets (scanTargets M) M P.RNG []).2.2 = keys at *
  generalize (encryptTargets (scanTargets M) M P.RNG []).1 = M1 at *
  unfold appendToGlobalCtors
  simp only [getNamedGlobal_addFunction, hname]
  cases hG : M1.globals[gv]? with
  | none =>
    simp only
    exact hname
  | some G =>
    obtain ⟨n, l, c, init⟩ := G
    cases init with
    | none =>
      simp only
      exact hname
    | some k =>
      cases k with
      | array es => exact absurd rfl (hnot' _ hG es)
      | _ =>
        simp only
        exact hname

/-- Claim C1, at the array `global_message` of the test program and seed 1234. -/
theorem string_encrypt_round_trip_witness :
    (scanTargets welcomeModule ≠ [] ∧
      (∀ t ∈ scanTargets welcomeModule, ∀ b ∈ welcomeModule.image t, b < 256) ∧
      (∀ t ∈ scanTargets welcomeModule, (welcomeModule.image t).length < 2 ^ 31)) ∧
    (((StringEncryptPass.new 1234).run welcomeModule).2.keys
        = drawKeys (scanTargets welcomeModule).length (StringEncryptPass.new 1234).RNG ∧
      ((StringEncryptPass.new 1234).run welcomeModule).2.keys.length
        = (scanTargets welcomeModule).length ∧
      (∀ p ∈ (scanTargets welcomeModule).zip ((StringEncryptPass.new 1234).run welcomeModule).2.keys,
        ((StringEncryptPass.new 1234).run welcomeModule).1.image p.1
          = (welcomeModule.image p.1).map (fun b => b ^^^ p.2)) ∧
      ∃ ctor fuel r,
        ((StringEncryptPass.new 1234).run welcomeModule).1.functions[welcomeModule.functions.length]?
          = some ctor ∧
        ctor.name = "__obf_decrypt_init" ∧
        ctor.call fuel ((StringEncryptPass.new 1234).run welcomeModule).1.image = some r ∧
        (∀ t ∈ scanTargets welcomeModule, r.mem t = welcomeModule.image t) ∧
        (∀ i, i ∉ scanTargets welcomeModule →
          r.mem i = ((StringEncryptPass.new 1234).run welcomeModule).1.image i)) :=
  ⟨⟨by decide, by decide, by decide⟩,
   string_encrypt_round_trip (StringEncryptPass.new 1234) welcomeModule
     (by decide) (by decide) (by decide)⟩

/-- Claim C2, what the code does.  Whenever the pass encrypts at least one string constant
it adds the decrypt routine as one more function of the module, and then: with no
initializer-list global before, the list afterwards is the one entry (65535, routine,
null); with a list initialized by a constant array before, the initializer afterwards
holds the previous entries in their order followed by that entry; but with a list global
of any other initializer (such as the `zeroinitializer` of an empty list) the code returns
at `if (!CA) return;` and no entry is registered: the strings are encrypted, the routine
is in the module, and the list global, still in its place, holds no entry for it. -/
theorem global_ctors_append (P : StringEncryptPass) (M : Module) (hne : scanTargets M ≠ []) :
    (P.run M).1.functions.length = M.functions.length + 1 ∧
    List.take M.functions.length (P.run M).1.functions = M.functions ∧
    ctorEntry M.functions.length 65535
      = .struct [.int 32 65535, .function M.functions.length, .null] ∧
    (M.getNamedGlobal "llvm.global_ctors" = none →
      (P.run M).1.globalCtors = some [ctorEntry M.functions.length 65535]) ∧
    (∀ elems, M.globalCtors = some elems →
      (P.run M).1.globalCtors = some (elems ++ [ctorEntry M.functions.length 65535])) ∧
    (∀ gv, M.getNamedGlobal "llvm.global_ctors" = some gv → M.globalCtors = none →
      (P.run M).1.getNamedGlobal "llvm.global_ctors" = some gv ∧
      (P.run M).1.globalCtors = none) := by
  refine ⟨by rw [run_functions P M hne]; simp, by rw [run_functions P M hne]; simp, rfl,
    run_globalCtors_absent P M hne, run_globalCtors_present P M hne,
    fun gv hgv h => ⟨run_getNamedGlobal_other P M hne gv hgv h,
      run_globalCtors_other P M hne gv hgv h⟩⟩

set_option maxRecDepth 100000 in
/-- Claim C2 at the failing input and at an existing list.  In `emptyCtorsModule`, which
holds a string constant and an empty initializer list, the run encrypts the string and
adds the routine, and the list global is afterwards exactly as before, without an entry.
In `listedModule`, whose list registers `setup`, the initializer afterwards holds that
entry followed by the new one. -/
theorem global_ctors_append_witness :
    (scanTargets emptyCtorsModule ≠ [] ∧
      emptyCtorsModule.getNamedGlobal "llvm.global_ctors" = some 1 ∧
      emptyCtorsModule.globalCtors = none ∧
      ((StringEncryptPass.new 0).run emptyCtorsModule).1.globalCtors = none ∧
      ((StringEncryptPass.new 0).run emptyCtorsModule).1.globals[1]?
        = some ⟨"llvm.global_ctors", .AppendingLinkage, false, some .aggregateZero⟩ ∧
      ((StringEncryptPass.new 0).run emptyCtorsModule).1.globals.length = 2 ∧
      ((StringEncryptPass.new 0).run emptyCtorsModule).1.functions.length = 1 ∧
      ((StringEncryptPass.new 0).run emptyCtorsModule).1.image 0 ≠ emptyCtorsModule.image 0) ∧
    (scanTargets listedModule ≠ [] ∧
      listedModule.globalCtors = some [ctorEntry 0 100] ∧
      ((StringEncryptPass.new 0).run listedModule).1.globalCtors
        = some [ctorEntry 0 100, ctorEntry 1 65535]) :=
  ⟨⟨by decide, by decide, by decide,
    ((global_ctors_append (StringEncryptPass.new 0) emptyCtorsModule (by decide)).2.2.2.2.2
      1 (by decide) (by decide)).2,
    by decide, by decide,
    (global_ctors_append (StringEncryptPass.new 0) emptyCtorsModule (by decide)).1,
    by decide⟩,
   by decide, by decide,
   (global_ctors_append (StringEncryptPass.new 0) listedModule (by decide)).2.2.2.2.1
     [ctorEntry 0 100] (by decide)⟩

/-- Claim C3.  On a module without string-constant globals the pass reports
`strings_encrypted = 0` with an empty `encrypted_strings` list and returns the module as
it was: no initializer or constant flag changes, no function and no initializer list is
added or modified. -/
theorem no_string_constant_no_change (P : StringEncryptPass) (M : Module)
    (h : ∀ G ∈ M.globals, G.isStringConstant = false) :
    P.run M = (M, ⟨0, [], []⟩) := by
  unfold StringEncryptPass.run
  rw [scanTargets_eq_nil M h]
  rfl

/-- Claim C3, at a module with an integer global only. -/
theorem no_string_constant_no_change_witness :
    (∀ G ∈ plainModule.globals, G.isStringConstant = false) ∧
    (StringEncryptPass.new 7).run plainModule = (plainModule, ⟨0, [], []⟩) :=
  ⟨by decide, no_string_constant_no_change (StringEncryptPass.new 7) plainModule (by decide)⟩

set_option maxRecDepth 100000 in
/-- Claim C4, what the code does for each byte value: quote, backslash, newline and tab get
their two-character escapes, other bytes in 32..126 stand for themselves, and every
remaining byte is written as the four characters backslash, `u`, `0`, `0` (the six
characters of the format cut to the buffer of five), so the value of the byte is lost:
byte 1 and byte 255 are both written as `\u00`. -/
theorem escape_char_of_every_byte :
    (∀ b : Fin 256, escapeChar b.val =
      if b.val = 34 then "\\\"" else if b.val = 92 then "\\\\"
      else if b.val = 10 then "\\n" else if b.val = 9 then "\\t"
      else if 32 ≤ b.val ∧ b.val ≤ 126 then String.singleton (Char.ofNat b.val)
      else "\\u00") ∧
    escapeString [1] = "\\u00" ∧ escapeString [255] = "\\u00" ∧
    ("\\u" ++ hexPadded 4 1 = "\\u0001" ∧ "\\u" ++ hexPadded 4 255 = "\\u00ff") := by
  decide

/-- Claim C5, refuted as stated: in the scenario the one reported string is not the bare
text; after the `!` it carries the escape written for the terminating zero byte. -/
theorem welcome_scenario_counterexample :
    scanTargets welcomeModule = [0] ∧ welcomeModule.image 0 = welcomeBytes ∧
    welcomeBytes.length = 33 ∧
    ((StringEncryptPass.new 1234).run welcomeModule).2.encrypted_strings
      = ["Welcome to the obfuscation test!\\u00"] ∧
    ((StringEncryptPass.new 1234).run welcomeModule).2.encrypted_strings
      ≠ ["Welcome to the obfuscation test!"] := by
  decide

/-- Claim C5, amended.  For a module whose only string global is the 33-byte array
`Welcome to the obfuscation test!` with its zero terminator, the run with seed 1234 reports
`strings_encrypted = 1`, exactly one key, within 0..255, and one reported string, which
begins with the text and continues after the `!` with the escape of the terminator (an
escape starting `\u00`); the decrypt routine is entered with priority 65535 into a new
one-entry initializer list or after the entries of the existing one. -/
theorem welcome_scenario (M : Module) (i : Nat) (hscan : scanTargets M = [i])
    (himg : M.image i = welcomeBytes) :
    ((StringEncryptPass.new 1234).run M).2.strings_encrypted = 1 ∧
    (∃ k, ((StringEncryptPass.new 1234).run M).2.keys = [k] ∧ k ≤ 255) ∧
    (∃ tail, ((StringEncryptPass.new 1234).run M).2.encrypted_strings
      = ["Welcome to the obfuscation test!" ++ "\\u00" ++ tail]) ∧
    (M.getNamedGlobal "llvm.global_ctors" = none →
      ((StringEncryptPass.new 1234).run M).1.globalCtors
        = some [.struct [.int 32 65535, .function M.functions.length, .null]]) ∧
    (∀ elems, M.globalCtors = some elems →
      ((StringEncryptPass.new 1234).run M).1.globalCtors
        = some (elems ++ [.struct [.int 32 65535, .function M.functions.length, .null]])) := by
  have hne : scanTargets M ≠ [] := by simp [hscan]
  refine ⟨?_, ?_, ?_, run_globalCtors_absent _ M hne, run_globalCtors_present _ M hne⟩
  · rw [run_of_targets _ M hne, hscan]
    rfl
  · rw [run_keys _ M hne, hscan]
    refine ⟨_, rfl, ?_⟩
    exact Nat.le_of_lt_succ (Nat.mod_lt _ (by decide))
  · rw [run_of_targets _ M hne, hscan]
    simp only [List.map_cons, List.map_nil, himg]
    exact ⟨"", by decide⟩

/-- Claim C5 (amended), at the globals of the test program. -/
theorem welcome_scenario_witness :
    (scanTargets welcomeModule = [0] ∧ welcomeModule.image 0 = welcomeBytes) ∧
    (((StringEncryptPass.new 1234).run welcomeModule).2.strings_encrypted = 1 ∧
    (∃ k, ((StringEncryptPass.new 1234).run welcomeModule).2.keys = [k] ∧ k ≤ 255) ∧
    (∃ tail, ((StringEncryptPass.new 1234).run welcomeModule).2.encrypted_strings
      = ["Welcome to the obfuscation test!" ++ "\\u00" ++ tail]) ∧
    (welcomeModule.getNamedGlobal "llvm.global_ctors" = none →
      ((StringEncryptPass.new 1234).run welcomeModule).1.globalCtors
        = some [.struct [.int 32 65535, .function welcomeModule.functions.length, .null]]) ∧
    (∀ elems, welcomeModule.globalCtors = some elems →
      ((StringEncryptPass.new 1234).run welcomeModule).1.globalCtors
        = some (elems ++
            [.struct [.int 32 65535, .function welcomeModule.functions.length, .null]]))) :=
  ⟨⟨by decide, by decide⟩, welcome_scenario welcomeModule 0 (by decide) (by decide)⟩

/-! ## Decimal and hexadecimal text -/

theorem toDigitsCore_append (b : Nat) : ∀ (f n : Nat) (ds : List Char),
    Nat.toDigitsCore b f n ds = Nat.toDigitsCore b f n [] ++ ds
  | 0, n, ds => by simp [Nat.toDigitsCore]
  | f + 1, n, ds => by
    simp only [Nat.toDigitsCore]
    split
    · simp
    · rw [toDigitsCore_append b f (n / b) (Nat.digitChar (n % b) :: ds),
        toDigitsCore_append b f (n / b) [Nat.digitChar (n % b)]]
      simp

theorem toDigitsCore_chars (b : Nat) (hb : 0 < b) : ∀ (f n : Nat),
    ∀ c ∈ Nat.toDigitsCore b f n [], ∃ d, d < b ∧ c = Nat.digitChar d
  | 0, n, c, hc => by simp [Nat.toDigitsCore] at hc
  | f + 1, n, c, hc => by
    simp only [Nat.toDigitsCore] at hc
    split at hc
    · simp only [List.mem_singleton] at hc
      exact ⟨n % b, Nat.mod_lt _ hb, hc⟩
    · rw [toDigitsCore_append] at hc
      simp only [List.mem_append, List.mem_singleton] at hc
      rcases hc with hc | hc
      · exact toDigitsCore_chars b hb f (n / b) c hc
      · exact ⟨n % b, Nat.mod_lt _ hb, hc⟩

/-- Value read back from decimal digits. -/
theorem digitChar_val : ∀ d, d < 10 → (Nat.digitChar d).toNat - 48 = d := by
  decide

theorem digitChar_ne_underscore : ∀ d, d < 10 → Nat.digitChar d ≠ '_' := by
  decide

theorem digitChar_hex : ∀ d, d < 16 → isLowerHexDigit (Nat.digitChar d) = true := by
  decide

theorem decode_toDigitsCore : ∀ (f n : Nat), n < f →
    (Nat.toDigitsCore 10 f n []).foldl (fun a c => a * 10 + (c.toNat - 48)) 0 = n
  | 0, n, h => by omega
  | f + 1, n, h => by
    simp only [Nat.toDigitsCore]
    split
    · rename_i h0
      have hn : n < 10 := by omega
      simp only [List.foldl_cons, List.foldl_nil, Nat.zero_mul, Nat.zero_add]
      rw [digitChar_val _ (Nat.mod_lt _ (by decide)), Nat.mod_eq_of_lt hn]
    · rename_i h0
      have hn : 10 ≤ n := by omega
      rw [toDigitsCore_append]
      simp only [List.foldl_append, List.foldl_cons, List.foldl_nil]
      rw [decode_toDigitsCore f (n / 10) (by omega),
        digitChar_val _ (Nat.mod_lt _ (by decide))]
      omega

theorem toDigits_ten_injective (a b : Nat) (h : Nat.toDigits 10 a = Nat.toDigits 10 b) : a = b := by
  have ha := decode_toDigitsCore (a + 1) a (by omega)
  have hb := decode_toDigitsCore (b + 1) b (by omega)
  unfold Nat.toDigits at h
  rw [h] at ha
  omega

theorem toDigits_ten_no_underscore (n : Nat) : '_' ∉ Nat.toDigits 10 n := by
  intro h
  obtain ⟨d, hd, hc⟩ := toDigitsCore_chars 10 (by decide) (n + 1) n '_' h
  exact digitChar_ne_underscore d hd hc.symm

theorem hexPadded_eight (r : Nat) (hr : r < 2 ^ 32) :
    (hexPadded 8 r).data.length = 8 ∧ ∀ c ∈ (hexPadded 8 r).data, isLowerHexDigit c = true := by
  have hlen : (Nat.toDigits 16 r).length ≤ 8 :=
    Nat.toDigitsCore_length 16 (by decide) (r + 1) r 8 (by simpa using hr) (by decide)
  unfold hexPadded
  constructor
  · simp only [List.length_append, List.length_replicate]
    omega
  · intro c hc
    simp only [List.mem_append, List.mem_replicate] at hc
    rcases hc with hc | hc
    · rw [hc.2]
      decide
    · obtain ⟨d, hd, hcd⟩ := toDigitsCore_chars 16 (by decide) (r + 1) r c hc
      rw [hcd]
      exact digitChar_hex d hd

/-! ## Synthesized names -/

theorem split_at_first {α : Type} (a : α) : ∀ (x1 x2 z1 z2 : List α), a ∉ x1 → a ∉ x2 →
    x1 ++ a :: z1 = x2 ++ a :: z2 → x1 = x2 ∧ z1 = z2
  | [], [], z1, z2, _, _, h => by simpa using h
  | [], b :: x2, z1, z2, _, h2, h => by
    simp only [List.nil_append, List.cons_append, List.cons.injEq] at h
    exact absurd (by simp [h.1]) h2
  | b :: x1, [], z1, z2, h1, _, h => by
    simp only [List.nil_append, List.cons_append, List.cons.injEq] at h
    exact absurd (by simp [h.1]) h1
  | b :: x1, c :: x2, z1, z2, h1, h2, h => by
    simp only [List.cons_append, List.cons.injEq] at h
    simp only [List.mem_cons, not_or] at h1 h2
    obtain ⟨e1, e2⟩ := split_at_first a x1 x2 z1 z2 h1.2 h2.2 h.2
    exact ⟨by rw [h.1, e1], e2⟩

theorem genName_synth (pfx : String) (k : Nat) (g : Mt19937) :
    SynthName pfx k (genName pfx k g).1 := by
  have h := hexPadded_eight (g.next.1 % 2 ^ 32) (Nat.mod_lt _ (by decide))
  exact ⟨(hexPadded 8 (g.next.1 % 2 ^ 32)).data, h.1, h.2, rfl⟩

/-- Two names of the synthesized form are equal only for the same text before the ordinal
and the same ordinal. -/
theorem SynthName_inj {p1 p2 : String} {k1 k2 : Nat} {s : String}
    (h1 : SynthName p1 k1 s) (h2 : SynthName p2 k2 s) : p1 = p2 ∧ k1 = k2 := by
  obtain ⟨x1, hx1, _, hs1⟩ := h1
  obtain ⟨x2, hx2, _, hs2⟩ := h2
  have h := congrArg String.data (hs1.symm.trans hs2)
  simp only [String.data_append, decimal] at h
  have hA := (List.append_inj' h (by rw [hx1, hx2])).1
  have hB := (List.append_inj' hA rfl).1
  have hrev := congrArg List.reverse hB
  simp only [List.reverse_append, List.reverse_cons, List.reverse_nil, List.nil_append,
    List.append_assoc, List.singleton_append, String.data] at hrev
  have hC := split_at_first '_' (Nat.toDigits 10 k1).reverse (Nat.toDigits 10 k2).reverse
    p1.data.reverse p2.data.reverse
    (by simpa using toDigits_ten_no_underscore k1)
    (by simpa using toDigits_ten_no_underscore k2) hrev
  constructor
  · have := congrArg List.reverse hC.2
    simp only [List.reverse_reverse] at this
    exact String.ext this
  · have := congrArg List.reverse hC.1
    simp only [List.reverse_reverse] at this
    exact toDigits_ten_injective _ _ this


/-! ## Names the host gives -/

theorem toDigits_ten_ne_nil (n : Nat) : Nat.toDigits 10 n ≠ [] := by
  unfold Nat.toDigits
  simp only [Nat.toDigitsCore]
  split
  · simp
  · rw [toDigitsCore_append]
    simp

theorem digitChar_isDigit : ∀ d, d < 10 → (Nat.digitChar d).isDigit = true := by
  decide

theorem toDigits_ten_isDigit (n : Nat) : ∀ c ∈ Nat.toDigits 10 n, c.isDigit = true := by
  intro c hc
  obtain ⟨d, hd, hcd⟩ := toDigitsCore_chars 10 (by decide) (n + 1) n c hc
  rw [hcd]
  exact digitChar_isDigit d hd

theorem SynthName_data {pfx : String} {k : Nat} {n : String} (h : SynthName pfx k n) :
    ∃ hex : List Char, hex.length = 8 ∧ (∀ c ∈ hex, isLowerHexDigit c = true) ∧
      n.data = pfx.data ++ '_' :: (Nat.toDigits 10 k ++ '_' :: hex) := by
  obtain ⟨hex, h1, h2, h3⟩ := h
  refine ⟨hex, h1, h2, ?_⟩
  rw [h3]
  simp [String.data_append, decimal]

theorem SynthName_ne_empty {pfx : String} {k : Nat} {n : String} (h : SynthName pfx k n) :
    n ≠ "" := by
  obtain ⟨hex, _, _, hd⟩ := SynthName_data h
  intro he
  rw [he] at hd
  have := congrArg List.length hd
  simp at this
  omega

/-- A name of the synthesized form passes the test for the form. -/
theorem SynthName_hasSynthForm {pfx : String} {k : Nat} {n : String} (h : SynthName pfx k n) :
    hasSynthForm pfx n = true := by
  obtain ⟨hex, h1, h2, hd⟩ := SynthName_data h
  have hdrop : n.data.drop (pfx.data.length + 1) = Nat.toDigits 10 k ++ '_' :: hex := by
    rw [hd]
    have : pfx.data ++ '_' :: (Nat.toDigits 10 k ++ '_' :: hex)
        = (pfx.data ++ ['_']) ++ (Nat.toDigits 10 k ++ '_' :: hex) := by simp
    rw [this]
    exact List.drop_left' (by simp)
  have hpre : (pfx.data ++ ['_']).isPrefixOf n.data = true := by
    rw [List.isPrefixOf_iff_prefix, hd]
    exact ⟨Nat.toDigits 10 k ++ '_' :: hex, by simp⟩
  have htake : (Nat.toDigits 10 k ++ '_' :: hex).takeWhile (fun c => c.isDigit)
      = Nat.toDigits 10 k := by
    rw [List.takeWhile_append_of_pos (toDigits_ten_isDigit k)]
    have : ('_' : Char).isDigit = false := by decide
    simp [List.takeWhile_cons, this]
  have hdropW : (Nat.toDigits 10 k ++ '_' :: hex).dropWhile (fun c => c.isDigit)
      = '_' :: hex := by
    rw [List.dropWhile_append_of_pos (toDigits_ten_isDigit k)]
    have : ('_' : Char).isDigit = false := by decide
    simp [List.dropWhile_cons, this]
  have hne : (Nat.toDigits 10 k).isEmpty = false := by
    cases hk : Nat.toDigits 10 k with
    | nil => exact absurd hk (toDigits_ten_ne_nil k)
    | cons a l => rfl
  unfold hasSynthForm
  simp only [hdrop, hpre, htake, hdropW, hne, Bool.not_false, Bool.true_and, h1, beq_self_eq_true,
    List.all_eq_true]
  exact h2

theorem ne_of_hasSynthForm_false {pfx : String} {k : Nat} {n s : String}
    (h : SynthName pfx k n) (hs : hasSynthForm pfx s = false) : s ≠ n := by
  intro he
  rw [he, SynthName_hasSynthForm h] at hs
  exact absurd hs (by decide)

theorem SynthStart_of_SynthName {pfx : String} {k : Nat} {n : String} (h : SynthName pfx k n) :
    SynthStart pfx k n :=
  ⟨n, "", h, by simp⟩

theorem SynthStart_suffix {pfx : String} {k : Nat} {n : String} (h : SynthName pfx k n)
    (u : Nat) : SynthStart pfx k (n ++ "." ++ decimal u) :=
  ⟨n, "." ++ decimal u, h, String.append_assoc _ _ _⟩

/-- Two names that start with names of the synthesized form are equal only for the same
text in front (one without `_`) and the same ordinal. -/
theorem SynthStart_inj {p1 p2 : String} {k1 k2 : Nat} {s : String}
    (hp1 : '_' ∉ p1.data) (hp2 : '_' ∉ p2.data)
    (h1 : SynthStart p1 k1 s) (h2 : SynthStart p2 k2 s) : p1 = p2 ∧ k1 = k2 := by
  obtain ⟨n1, t1, hn1, hs1⟩ := h1
  obtain ⟨n2, t2, hn2, hs2⟩ := h2
  obtain ⟨x1, _, _, hd1⟩ := SynthName_data hn1
  obtain ⟨x2, _, _, hd2⟩ := SynthName_data hn2
  have h := congrArg String.data (hs1.symm.trans hs2)
  simp only [String.data_append, hd1, hd2, List.append_assoc, List.cons_append] at h
  obtain ⟨hA, hB⟩ := split_at_first '_' p1.data p2.data _ _ hp1 hp2 h
  obtain ⟨hC, _⟩ := split_at_first '_' (Nat.toDigits 10 k1) (Nat.toDigits 10 k2) _ _
    (toDigits_ten_no_underscore k1) (toDigits_ten_no_underscore k2) hB
  exact ⟨String.ext hA, toDigits_ten_injective _ _ hC⟩

theorem makeUniqueName_form (names : List String) (base : String) :
    ∀ (tries lastUnique : Nat),
      ∃ u, (makeUniqueName names base tries lastUnique).1 = base ++ "." ++ decimal u
  | 0, lastUnique => ⟨_, rfl⟩
  | tries + 1, lastUnique => by
    unfold makeUniqueName
    simp only
    split
    · exact makeUniqueName_form names base tries _
    · exact ⟨_, rfl⟩

/-- The name a value carries after `setName`: the requested one, or the requested one with
a suffix `.` and a number. -/
theorem setName_form (st : SymbolTable) (old newName : String) (hnew : newName ≠ "") :
    (st.setName old newName).1 = newName ∨
      ∃ u, (st.setName old newName).1 = newName ++ "." ++ decimal u := by
  unfold SymbolTable.setName
  by_cases h1 : old = newName
  · rw [if_pos h1]
    exact Or.inl h1
  · rw [if_neg h1]
    simp only [if_neg hnew]
    generalize (if old = "" then st.names else st.names.erase old) = names
    by_cases h3 : newName ∈ names
    · rw [if_pos h3]
      exact Or.inr (makeUniqueName_form _ _ _ _)
    · rw [if_neg h3]
      exact Or.inl rfl

/-- A name no value carries is given as requested. -/
theorem setName_free (st : SymbolTable) (old newName : String) (hnew : newName ≠ "")
    (hfree : newName ∉ st.names) : (st.setName old newName).1 = newName := by
  unfold SymbolTable.setName
  by_cases h1 : old = newName
  · rw [if_pos h1]
    exact h1
  · rw [if_neg h1]
    simp only [if_neg hnew]
    have hnot : newName ∉ (if old = "" then st.names else st.names.erase old) := by
      by_cases h0 : old = ""
      · rw [if_pos h0]
        exact hfree
      · rw [if_neg h0]
        exact fun hm => hfree (List.mem_of_mem_erase hm)
    rw [if_neg hnot]

theorem setName_names (st : SymbolTable) (old newName : String) :
    ∀ s ∈ (st.setName old newName).2.names, s = (st.setName old newName).1 ∨ s ∈ st.names := by
  intro s hs
  unfold SymbolTable.setName at hs ⊢
  by_cases h1 : old = newName
  · rw [if_pos h1] at hs ⊢
    exact Or.inr hs
  · rw [if_neg h1] at hs ⊢
    have hsub : ∀ x ∈ (if old = "" then st.names else st.names.erase old), x ∈ st.names := by
      intro x hx
      split at hx
      · exact hx
      · exact List.mem_of_mem_erase hx
    simp only at hs ⊢
    generalize (if old = "" then st.names else st.names.erase old) = names at hs hsub ⊢
    by_cases h2 : newName = ""
    · rw [if_pos h2] at hs ⊢
      exact Or.inr (hsub s hs)
    · rw [if_neg h2] at hs ⊢
      by_cases h3 : newName ∈ names
      · rw [if_pos h3] at hs ⊢
        simp only [List.mem_cons] at hs
        rcases hs with hs | hs
        · exact Or.inl hs
        · exact Or.inr (hsub s hs)
      · rw [if_neg h3] at hs ⊢
        simp only [List.mem_cons] at hs
        rcases hs with hs | hs
        · exact Or.inl hs
        · exact Or.inr (hsub s hs)

theorem f_no_underscore : '_' ∉ ("f" : String).data := by decide

theorem g_no_underscore : '_' ∉ ("g" : String).data := by decide
/-! ## The loop over the functions -/

theorem renameFunctions_length : ∀ (fs : List Function) (c : Nat) (g : Mt19937) (m : List (String × String))
    (st : SymbolTable), (renameFunctions fs c g m st).1.length = fs.length
  | [], c, g, m, st => rfl
  | F :: rest, c, g, m, st => by
    unfold renameFunctions
    split <;> simp [renameFunctions_length rest]

theorem renameFunctions_unchanged : ∀ (fs : List Function) (c : Nat) (g : Mt19937) (m : List (String × String))
    (st : SymbolTable),
    (∀ F ∈ fs, F.renameEligible = false) → renameFunctions fs c g m st = (fs, c, g, m, st)
  | [], c, g, m, st, _ => rfl
  | F :: rest, c, g, m, st, h => by
    unfold renameFunctions
    rw [if_neg (by simp [h F (by simp)])]
    simp only
    rw [renameFunctions_unchanged rest c g m st (fun X hX => h X (by simp [hX]))]

theorem renameFunctions_count : ∀ (fs : List Function) (c : Nat) (g : Mt19937) (m : List (String × String))
    (st : SymbolTable),
    c + fs.countP (fun F => F.renameEligible) < 2 ^ 32 →
    (renameFunctions fs c g m st).2.1 = c + fs.countP (fun F => F.renameEligible)
  | [], c, g, m, st, _ => rfl
  | F :: rest, c, g, m, st, h => by
    unfold renameFunctions
    by_cases hF : F.renameEligible = true
    · rw [if_pos hF]
      simp only [List.countP_cons, hF, if_true] at h ⊢
      have hmod : (c + 1) % 2 ^ 32 = c + 1 := Nat.mod_eq_of_lt (by omega)
      rw [hmod, renameFunctions_count rest (c + 1) _ _ _ (by omega)]
      omega
    · rw [if_neg hF]
      simp only [List.countP_cons, hF] at h ⊢
      rw [renameFunctions_count rest c _ _ _ (by simpa using h)]
      simp

/-- What the loop leaves at a position: the symbol itself when it is not eligible, else the
symbol under the name `setName` gives it for a synthesized name. -/
theorem renameFunctions_get : ∀ (fs : List Function) (c : Nat) (g : Mt19937) (m : List (String × String))
    (st : SymbolTable) (i : Nat) (F : Function), fs[i]? = some F →
    ∃ F', (renameFunctions fs c g m st).1[i]? = some F' ∧
      (F.renameEligible = false → F' = F) ∧
      (F.renameEligible = true → ∃ k g' st',
        F' = { F with name := (SymbolTable.setName st' F.name (genName "f" k g').1).1 })
  | [], c, g, m, st, i, F, h => by simp at h
  | X :: rest, c, g, m, st, i, F, h => by
    unfold renameFunctions
    cases i with
    | zero =>
      simp only [List.getElem?_cons_zero, Option.some.injEq] at h
      subst h
      by_cases hF : X.renameEligible = true
      · rw [if_pos hF]
        dsimp only
        exact ⟨_, List.getElem?_cons_zero, fun h0 => by simp [hF] at h0, fun _ => ⟨_, _, _, rfl⟩⟩
      · rw [if_neg hF]
        dsimp only
        exact ⟨_, List.getElem?_cons_zero, fun _ => rfl, fun h1 => absurd h1 hF⟩
    | succ i =>
      simp only [List.getElem?_cons_succ] at h
      split
      · simpa using renameFunctions_get rest _ _ _ _ i F h
      · simpa using renameFunctions_get rest _ _ _ _ i F h

/-- The eligible symbol at a position gets the name synthesized with its rank among the
eligible ones, or that name with a suffix of the host. -/
theorem renameFunctions_ordinal : ∀ (fs : List Function) (c : Nat) (g : Mt19937) (m : List (String × String))
    (st : SymbolTable),
    c + fs.countP (fun F => F.renameEligible) < 2 ^ 32 →
    ∀ (i : Nat) (F : Function), fs[i]? = some F → F.renameEligible = true →
    ∃ F' n, (renameFunctions fs c g m st).1[i]? = some F' ∧
      SynthName "f" (c + (fs.take (i + 1)).countP (fun F => F.renameEligible)) n ∧
      (F'.name = n ∨ ∃ u, F'.name = n ++ "." ++ decimal u) ∧
      F' = { F with name := F'.name }
  | [], c, g, m, st, _, i, F, h, _ => by simp at h
  | X :: rest, c, g, m, st, hb, i, F, h, hF => by
    unfold renameFunctions
    cases i with
    | zero =>
      simp only [List.getElem?_cons_zero, Option.some.injEq] at h
      subst h
      simp only [List.countP_cons, hF, if_true] at hb
      have hmod : (c + 1) % 2 ^ 32 = c + 1 := Nat.mod_eq_of_lt (by omega)
      rw [if_pos hF]
      dsimp only
      refine ⟨_, (genName "f" (c + 1) g).1, List.getElem?_cons_zero, ?_, ?_, rfl⟩
      · simp only [List.take_succ_cons, List.take_zero, List.countP_cons, hF, List.countP_nil,
          if_true]
        exact genName_synth _ _ _
      · rw [hmod]
        exact setName_form st X.name _ (SynthName_ne_empty (genName_synth _ _ _))
    | succ i =>
      simp only [List.getElem?_cons_succ] at h
      by_cases hX : X.renameEligible = true
      · rw [if_pos hX]
        simp only [List.countP_cons, hX, if_true] at hb
        have hmod : (c + 1) % 2 ^ 32 = c + 1 := Nat.mod_eq_of_lt (by omega)
        rw [hmod]
        obtain ⟨F', n, h1, h2, h3⟩ := renameFunctions_ordinal rest (c + 1) (genName "f" (c + 1) g).2
          (mapAssign m X.name (genName "f" (c + 1) g).1)
          (st.setName X.name (genName "f" (c + 1) g).1).2 (by omega) i F h hF
        refine ⟨F', n, by simpa using h1, ?_, h3⟩
        simp only [List.take_succ_cons, List.countP_cons, hX, if_true]
        have e : c + ((rest.take (i + 1)).countP (fun F => F.renameEligible) + 1)
            = c + 1 + (rest.take (i + 1)).countP (fun F => F.renameEligible) := by omega
        rw [e]
        exact h2
      · rw [if_neg hX]
        simp only [List.countP_cons, hX] at hb
        obtain ⟨F', n, h1, h2, h3⟩ := renameFunctions_ordinal rest c g m st (by simpa using hb) i F h hF
        refine ⟨F', n, by simpa using h1, ?_, h3⟩
        simp only [List.take_succ_cons, List.countP_cons, hX]
        simpa using h2

/-- When every name in the symbol table either has not the synthesized form or is a
synthesized name with an ordinal up to the counter, each eligible symbol gets exactly the
name synthesized with its rank. -/
theorem renameFunctions_free : ∀ (fs : List Function) (c : Nat) (g : Mt19937) (m : List (String × String))
    (st : SymbolTable),
    c + fs.countP (fun F => F.renameEligible) < 2 ^ 32 →
    (∀ s ∈ st.names, hasSynthForm "f" s = false ∨ ∃ j, j ≤ c ∧ SynthName "f" j s) →
    ∀ (i : Nat) (F : Function), fs[i]? = some F → F.renameEligible = true →
    ∃ F', (renameFunctions fs c g m st).1[i]? = some F' ∧
      SynthName "f" (c + (fs.take (i + 1)).countP (fun F => F.renameEligible)) F'.name
  | [], c, g, m, st, _, _, i, F, h, _ => by simp at h
  | X :: rest, c, g, m, st, hb, hinv, i, F, h, hF => by
    have hfree : ∀ g' : Mt19937, (genName "f" (c + 1) g').1 ∉ st.names := by
      intro g' hmem
      rcases hinv _ hmem with h0 | ⟨j, hj, hs⟩
      · rw [SynthName_hasSynthForm (genName_synth "f" (c + 1) g')] at h0
        exact absurd h0 (by decide)
      · have := (SynthName_inj hs (genName_synth "f" (c + 1) g')).2
        omega
    have hname : ∀ g' : Mt19937,
        (st.setName X.name (genName "f" (c + 1) g').1).1 = (genName "f" (c + 1) g').1 :=
      fun g' => setName_free st X.name _ (SynthName_ne_empty (genName_synth _ _ _)) (hfree g')
    unfold renameFunctions
    cases i with
    | zero =>
      simp only [List.getElem?_cons_zero, Option.some.injEq] at h
      subst h
      simp only [List.countP_cons, hF, if_true] at hb
      have hmod : (c + 1) % 2 ^ 32 = c + 1 := Nat.mod_eq_of_lt (by omega)
      rw [if_pos hF]
      dsimp only
      refine ⟨_, List.getElem?_cons_zero, ?_⟩
      simp only [List.take_succ_cons, List.take_zero, List.countP_cons, hF, List.countP_nil,
        if_true, hmod, hname]
      exact genName_synth _ _ _
    | succ i =>
      simp only [List.getElem?_cons_succ] at h
      by_cases hX : X.renameEligible = true
      · rw [if_pos hX]
        simp only [List.countP_cons, hX, if_true] at hb
        have hmod : (c + 1) % 2 ^ 32 = c + 1 := Nat.mod_eq_of_lt (by omega)
        rw [hmod]
        have hinv' : ∀ s ∈ (st.setName X.name (genName "f" (c + 1) g).1).2.names,
            hasSynthForm "f" s = false ∨ ∃ j, j ≤ c + 1 ∧ SynthName "f" j s := by
          intro s hs
          rcases setName_names st X.name _ s hs with h0 | h0
          · right
            rw [h0, hname]
            exact ⟨c + 1, le_refl _, genName_synth _ _ _⟩
          · rcases hinv s h0 with h1 | ⟨j, hj, h1⟩
            · exact Or.inl h1
            · exact Or.inr ⟨j, by omega, h1⟩
        obtain ⟨F', h1, h2⟩ := renameFunctions_free rest (c + 1) (genName "f" (c + 1) g).2
          (mapAssign m X.name (genName "f" (c + 1) g).1)
          (st.setName X.name (genName "f" (c + 1) g).1).2 (by omega) hinv' i F h hF
        refine ⟨F', by simpa using h1, ?_⟩
        simp only [List.take_succ_cons, List.countP_cons, hX, if_true]
        have e : c + ((rest.take (i + 1)).countP (fun F => F.renameEligible) + 1)
            = c + 1 + (rest.take (i + 1)).countP (fun F => F.renameEligible) := by omega
        rw [e]
        exact h2
      · rw [if_neg hX]
        simp only [List.countP_cons, hX] at hb
        obtain ⟨F', h1, h2⟩ := renameFunctions_free rest c g m st (by simpa using hb) hinv i F h hF
        refine ⟨F', by simpa using h1, ?_⟩
        simp only [List.take_succ_cons, List.countP_cons, hX]
        simpa using h2

/-- Names given by the loop: each starts with the synthesized name of an ordinal above the
counter at entry and at most the counter at exit, and no two are equal. -/
theorem renameFunctions_names : ∀ (fs : List Function) (c : Nat) (g : Mt19937) (m : List (String × String))
    (st : SymbolTable),
    c + fs.countP (fun F => F.renameEligible) < 2 ^ 32 →
    (∀ n ∈ ((fs.zip (renameFunctions fs c g m st).1).filter (fun p => p.1.renameEligible)).map
        (fun p => p.2.name),
      ∃ k, c < k ∧ k ≤ c + fs.countP (fun F => F.renameEligible) ∧ SynthStart "f" k n) ∧
    (((fs.zip (renameFunctions fs c g m st).1).filter (fun p => p.1.renameEligible)).map
        (fun p => p.2.name)).Nodup
  | [], c, g, m, st, _ => by simp [renameFunctions]
  | X :: rest, c, g, m, st, hb => by
    unfold renameFunctions
    by_cases hX : X.renameEligible = true
    · rw [if_pos hX]
      simp only [List.countP_cons, hX, if_true] at hb ⊢
      have hmod : (c + 1) % 2 ^ 32 = c + 1 := Nat.mod_eq_of_lt (by omega)
      rw [hmod]
      have hhead : SynthStart "f" (c + 1)
          (st.setName X.name (genName "f" (c + 1) g).1).1 := by
        rcases setName_form st X.name _ (SynthName_ne_empty (genName_synth "f" (c + 1) g))
          with h0 | ⟨u, h0⟩
        · rw [h0]
          exact SynthStart_of_SynthName (genName_synth _ _ _)
        · rw [h0]
          exact SynthStart_suffix (genName_synth _ _ _) u
      obtain ⟨ih1, ih2⟩ := renameFunctions_names rest (c + 1) (genName "f" (c + 1) g).2
          (mapAssign m X.name (genName "f" (c + 1) g).1)
          (st.setName X.name (genName "f" (c + 1) g).1).2 (by omega)
      simp only [List.zip_cons_cons, List.filter_cons, hX, if_true, List.map_cons,
        List.mem_cons, List.nodup_cons]
      refine ⟨?_, ?_, ih2⟩
      · intro n hn
        rcases hn with hn | hn
        · subst hn
          exact ⟨c + 1, by omega, by omega, hhead⟩
        · obtain ⟨k, hk1, hk2, hk3⟩ := ih1 n hn
          exact ⟨k, by omega, by omega, hk3⟩
      · intro hmem
        obtain ⟨k, hk1, _, hk3⟩ := ih1 _ hmem
        have := (SynthStart_inj f_no_underscore f_no_underscore hk3 hhead).2
        omega
    · rw [if_neg hX]
      simp only [List.countP_cons, hX] at hb ⊢
      obtain ⟨ih1, ih2⟩ := renameFunctions_names rest c g m st (by simpa using hb)
      simp only [List.zip_cons_cons, List.filter_cons, hX]
      refine ⟨?_, by simpa using ih2⟩
      intro n hn
      obtain ⟨k, hk1, hk2, hk3⟩ := ih1 n (by simpa using hn)
      exact ⟨k, hk1, by simpa using hk2, hk3⟩

/-! ## The loop over the globals -/

theorem renameGlobals_length : ∀ (fs : List GlobalVariable) (c : Nat) (g : Mt19937) (m : List (String × String))
    (st : SymbolTable), (renameGlobals fs c g m st).1.length = fs.length
  | [], c, g, m, st => rfl
  | F :: rest, c, g, m, st => by
    unfold renameGlobals
    split <;> simp [renameGlobals_length rest]

theorem renameGlobals_unchanged : ∀ (fs : List GlobalVariable) (c : Nat) (g : Mt19937) (m : List (String × String))
    (st : SymbolTable),
    (∀ F ∈ fs, F.renameEligible = false) → renameGlobals fs c g m st = (fs, c, g, m, st)
  | [], c, g, m, st, _ => rfl
  | F :: rest, c, g, m, st, h => by
    unfold renameGlobals
    rw [if_neg (by simp [h F (by simp)])]
    simp only
    rw [renameGlobals_unchanged rest c g m st (fun X hX => h X (by simp [hX]))]

theorem renameGlobals_count : ∀ (fs : List GlobalVariable) (c : Nat) (g : Mt19937) (m : List (String × String))
    (st : SymbolTable),
    c + fs.countP (fun F => F.renameEligible) < 2 ^ 32 →
    (renameGlobals fs c g m st).2.1 = c + fs.countP (fun F => F.renameEligible)
  | [], c, g, m, st, _ => rfl
  | F :: rest, c, g, m, st, h => by
    unfold renameGlobals
    by_cases hF : F.renameEligible = true
    · rw [if_pos hF]
      simp only [List.countP_cons, hF, if_true] at h ⊢
      have hmod : (c + 1) % 2 ^ 32 = c + 1 := Nat.mod_eq_of_lt (by omega)
      rw [hmod, renameGlobals_count rest (c + 1) _ _ _ (by omega)]
      omega
    · rw [if_neg hF]
      simp only [List.countP_cons, hF] at h ⊢
      rw [renameGlobals_count rest c _ _ _ (by simpa using h)]
      simp

/-- What the loop leaves at a position: the symbol itself when it is not eligible, else the
symbol under the name `setName` gives it for a synthesized name. -/
theorem renameGlobals_get : ∀ (fs : List GlobalVariable) (c : Nat) (g : Mt19937) (m : List (String × String))
    (st : SymbolTable) (i : Nat) (F : GlobalVariable), fs[i]? = some F →
    ∃ F', (renameGlobals fs c g m st).1[i]? = some F' ∧
      (F.renameEligible = false → F' = F) ∧
      (F.renameEligible = true → ∃ k g' st',
        F' = { F with name := (SymbolTable.setName st' F.name (genName "g" k g').1).1 })
  | [], c, g, m, st, i, F, h => by simp at h
  | X :: rest, c, g, m, st, i, F, h => by
    unfold renameGlobals
    cases i with
    | zero =>
      simp only [List.getElem?_cons_zero, Option.some.injEq] at h
      subst h
      by_cases hF : X.renameEligible = true
      · rw [if_pos hF]
        dsimp only
        exact ⟨_, List.getElem?_cons_zero, fun h0 => by simp [hF] at h0, fun _ => ⟨_, _, _, rfl⟩⟩
      · rw [if_neg hF]
        dsimp only
        exact ⟨_, List.getElem?_cons_zero, fun _ => rfl, fun h1 => absurd h1 hF⟩
    | succ i =>
      simp only [List.getElem?_cons_succ] at h
      split
      · simpa using renameGlobals_get rest _ _ _ _ i F h
      · simpa using renameGlobals_get rest _ _ _ _ i F h

/-- The eligible symbol at a position gets the name synthesized with its rank among the
eligible ones, or that name with a suffix of the host. -/
theorem renameGlobals_ordinal : ∀ (fs : List GlobalVariable) (c : Nat) (g : Mt19937) (m : List (String × String))
    (st : SymbolTable),
    c + fs.countP (fun F => F.renameEligible) < 2 ^ 32 →
    ∀ (i : Nat) (F : GlobalVariable), fs[i]? = some F → F.renameEligible = true →
    ∃ F' n, (renameGlobals fs c g m st).1[i]? = some F' ∧
      SynthName "g" (c + (fs.take (i + 1)).countP (fun F => F.renameEligible)) n ∧
      (F'.name = n ∨ ∃ u, F'.name = n ++ "." ++ decimal u) ∧
      F' = { F with name := F'.name }
  | [], c, g, m, st, _, i, F, h, _ => by simp at h
  | X :: rest, c, g, m, st, hb, i, F, h, hF => by
    unfold renameGlobals
    cases i with
    | zero =>
      simp only [List.getElem?_cons_zero, Option.some.injEq] at h
      subst h
      simp only [List.countP_cons, hF, if_true] at hb
      have hmod : (c + 1) % 2 ^ 32 = c + 1 := Nat.mod_eq_of_lt (by omega)
      rw [if_pos hF]
      dsimp only
      refine ⟨_, (genName "g" (c + 1) g).1, List.getElem?_cons_zero, ?_, ?_, rfl⟩
      · simp only [List.take_succ_cons, List.take_zero, List.countP_cons, hF, List.countP_nil,
          if_true]
        exact genName_synth _ _ _
      · rw [hmod]
        exact setName_form st X.name _ (SynthName_ne_empty (genName_synth _ _ _))
    | succ i =>
      simp only [List.getElem?_cons_succ] at h
      by_cases hX : X.renameEligible = true
      · rw [if_pos hX]
        simp only [List.countP_cons, hX, if_true] at hb
        have hmod : (c + 1) % 2 ^ 32 = c + 1 := Nat.mod_eq_of_lt (by omega)
        rw [hmod]
        obtain ⟨F', n, h1, h2, h3⟩ := renameGlobals_ordinal rest (c + 1) (genName "g" (c + 1) g).2
          (mapAssign m X.name (genName "g" (c + 1) g).1)
          (st.setName X.name (genName "g" (c + 1) g).1).2 (by omega) i F h hF
        refine ⟨F', n, by simpa using h1, ?_, h3⟩
        simp only [List.take_succ_cons, List.countP_cons, hX, if_true]
        have e : c + ((rest.take (i + 1)).countP (fun F => F.renameEligible) + 1)
            = c + 1 + (rest.take (i + 1)).countP (fun F => F.renameEligible) := by omega
        rw [e]
        exact h2
      · rw [if_neg hX]
        simp only [List.countP_cons, hX] at hb
        obtain ⟨F', n, h1, h2, h3⟩ := renameGlobals_ordinal rest c g m st (by simpa using hb) i F h hF
        refine ⟨F', n, by simpa using h1, ?_, h3⟩
        simp only [List.take_succ_cons, List.countP_cons, hX]
        simpa using h2

/-- When every name in the symbol table either has not the synthesized form or is a
synthesized name with an ordinal up to the counter, each eligible symbol gets exactly the
name synthesized with its rank. -/
theorem renameGlobals_free : ∀ (fs : List GlobalVariable) (c : Nat) (g : Mt19937) (m : List (String × String))
    (st : SymbolTable),
    c + fs.countP (fun F => F.renameEligible) < 2 ^ 32 →
    (∀ s ∈ st.names, hasSynthForm "g" s = false ∨ ∃ j, j ≤ c ∧ SynthName "g" j s) →
    ∀ (i : Nat) (F : GlobalVariable), fs[i]? = some F → F.renameEligible = true →
    ∃ F', (renameGlobals fs c g m st).1[i]? = some F' ∧
      SynthName "g" (c + (fs.take (i + 1)).countP (fun F => F.renameEligible)) F'.name
  | [], c, g, m, st, _, _, i, F, h, _ => by simp at h
  | X :: rest, c, g, m, st, hb, hinv, i, F, h, hF => by
    have hfree : ∀ g' : Mt19937, (genName "g" (c + 1) g').1 ∉ st.names := by
      intro g' hmem
      rcases hinv _ hmem with h0 | ⟨j, hj, hs⟩
      · rw [SynthName_hasSynthForm (genName_synth "g" (c + 1) g')] at h0
        exact absurd h0 (by decide)
      · have := (SynthName_inj hs (genName_synth "g" (c + 1) g')).2
        omega
    have hname : ∀ g' : Mt19937,
        (st.setName X.name (genName "g" (c + 1) g').1).1 = (genName "g" (c + 1) g').1 :=
      fun g' => setName_free st X.name _ (SynthName_ne_empty (genName_synth _ _ _)) (hfree g')
    unfold renameGlobals
    cases i with
    | zero =>
      simp only [List.getElem?_cons_zero, Option.some.injEq] at h
      subst h
      simp only [List.countP_cons, hF, if_true] at hb
      have hmod : (c + 1) % 2 ^ 32 = c + 1 := Nat.mod_eq_of_lt (by omega)
      rw [if_pos hF]
      dsimp only
      refine ⟨_, List.getElem?_cons_zero, ?_⟩
      simp only [List.take_succ_cons, List.take_zero, List.countP_cons, hF, List.countP_nil,
        if_true, hmod, hname]
      exact genName_synth _ _ _
    | succ i =>
      simp only [List.getElem?_cons_succ] at h
      by_cases hX : X.renameEligible = true
      · rw [if_pos hX]
        simp only [List.countP_cons, hX, if_true] at hb
        have hmod : (c + 1) % 2 ^ 32 = c + 1 := Nat.mod_eq_of_lt (by omega)
        rw [hmod]
        have hinv' : ∀ s ∈ (st.setName X.name (genName "g" (c + 1) g).1).2.names,
            hasSynthForm "g" s = false ∨ ∃ j, j ≤ c + 1 ∧ SynthName "g" j s := by
          intro s hs
          rcases setName_names st X.name _ s hs with h0 | h0
          · right
            rw [h0, hname]
            exact ⟨c + 1, le_refl _, genName_synth _ _ _⟩
          · rcases hinv s h0 with h1 | ⟨j, hj, h1⟩
            · exact Or.inl h1
            · exact Or.inr ⟨j, by omega, h1⟩
        obtain ⟨F', h1, h2⟩ := renameGlobals_free rest (c + 1) (genName "g" (c + 1) g).2
          (mapAssign m X.name (genName "g" (c + 1) g).1)
          (st.setName X.name (genName "g" (c + 1) g).1).2 (by omega) hinv' i F h hF
        refine ⟨F', by simpa using h1, ?_⟩
        simp only [List.take_succ_cons, List.countP_cons, hX, if_true]
        have e : c + ((rest.take (i + 1)).countP (fun F => F.renameEligible) + 1)
            = c + 1 + (rest.take (i + 1)).countP (fun F => F.renameEligible) := by omega
        rw [e]
        exact h2
      · rw [if_neg hX]
        simp only [List.countP_cons, hX] at hb
        obtain ⟨F', h1, h2⟩ := renameGlobals_free rest c g m st (by simpa using hb) hinv i F h hF
        refine ⟨F', by simpa using h1, ?_⟩
        simp only [List.take_succ_cons, List.countP_cons, hX]
        simpa using h2

/-- Names given by the loop: each starts with the synthesized name of an ordinal above the
counter at entry and at most the counter at exit, and no two are equal. -/
theorem renameGlobals_names : ∀ (fs : List GlobalVariable) (c : Nat) (g : Mt19937) (m : List (String × String))
    (st : SymbolTable),
    c + fs.countP (fun F => F.renameEligible) < 2 ^ 32 →
    (∀ n ∈ ((fs.zip (renameGlobals fs c g m st).1).filter (fun p => p.1.renameEligible)).map
        (fun p => p.2.name),
      ∃ k, c < k ∧ k ≤ c + fs.countP (fun F => F.renameEligible) ∧ SynthStart "g" k n) ∧
    (((fs.zip (renameGlobals fs c g m st).1).filter (fun p => p.1.renameEligible)).map
        (fun p => p.2.name)).Nodup
  | [], c, g, m, st, _ => by simp [renameGlobals]
  | X :: rest, c, g, m, st, hb => by
    unfold renameGlobals
    by_cases hX : X.renameEligible = true
    · rw [if_pos hX]
      simp only [List.countP_cons, hX, if_true] at hb ⊢
      have hmod : (c + 1) % 2 ^ 32 = c + 1 := Nat.mod_eq_of_lt (by omega)
      rw [hmod]
      have hhead : SynthStart "g" (c + 1)
          (st.setName X.name (genName "g" (c + 1) g).1).1 := by
        rcases setName_form st X.name _ (SynthName_ne_empty (genName_synth "g" (c + 1) g))
          with h0 | ⟨u, h0⟩
        · rw [h0]
          exact SynthStart_of_SynthName (genName_synth _ _ _)
        · rw [h0]
          exact SynthStart_suffix (genName_synth _ _ _) u
      obtain ⟨ih1, ih2⟩ := renameGlobals_names rest (c + 1) (genName "g" (c + 1) g).2
          (mapAssign m X.name (genName "g" (c + 1) g).1)
          (st.setName X.name (genName "g" (c + 1) g).1).2 (by omega)
      simp only [List.zip_cons_cons, List.filter_cons, hX, if_true, List.map_cons,
        List.mem_cons, List.nodup_cons]
      refine ⟨?_, ?_, ih2⟩
      · intro n hn
        rcases hn with hn | hn
        · subst hn
          exact ⟨c + 1, by omega, by omega, hhead⟩
        · obtain ⟨k, hk1, hk2, hk3⟩ := ih1 n hn
          exact ⟨k, by omega, by omega, hk3⟩
      · intro hmem
        obtain ⟨k, hk1, _, hk3⟩ := ih1 _ hmem
        have := (SynthStart_inj g_no_underscore g_no_underscore hk3 hhead).2
        omega
    · rw [if_neg hX]
      simp only [List.countP_cons, hX] at hb ⊢
      obtain ⟨ih1, ih2⟩ := renameGlobals_names rest c g m st (by simpa using hb)
      simp only [List.zip_cons_cons, List.filter_cons, hX]
      refine ⟨?_, by simpa using ih2⟩
      intro n hn
      obtain ⟨k, hk1, hk2, hk3⟩ := ih1 n (by simpa using hn)
      exact ⟨k, hk1, by simpa using hk2, hk3⟩

/-! ## The Symbol Renamer as a whole -/

theorem countP_le_bound {α : Type} (p : α → Bool) (l : List α) (h : l.length < 2 ^ 32) :
    0 + l.countP p < 2 ^ 32 := by
  have := @List.countP_le_length _ p l
  omega

/-- In a module without names of the synthesized form, no name in the symbol table has
that form. -/
theorem noSynthNames_table (M : Module) (pfx : String) (h : M.noSynthNames pfx = true) :
    ∀ s ∈ M.symbolTable.names, hasSynthForm pfx s = false ∨ ∃ j, j ≤ 0 ∧ SynthName pfx j s := by
  intro s hs
  left
  unfold Module.noSynthNames at h
  simp only [Bool.and_eq_true, List.all_eq_true, Bool.not_eq_true'] at h
  simp only [Module.symbolTable, List.mem_filter, List.mem_append, List.mem_map] at hs
  rcases hs.1 with ⟨F, hF, rfl⟩ | ⟨G, hG, rfl⟩
  · exact h.1 F hF
  · exact h.2 G hG

/-- Claim C6.  Renaming is injective: in a run on a module with fewer than 2^32 functions
and 2^32 globals (the range of the `unsigned` ordinals), the names given to the renamed
functions and globals are pairwise different; every name `genName` builds has the form
prefix, `_`, decimal ordinal, `_`, 8 lowercase hex digits, and two names of that form are
equal only if prefix and ordinal are equal, whatever the random parts are. -/
theorem renaming_injective (P : RenameSymbolsPass) (M : Module)
    (hf : M.functions.length < 2 ^ 32) (hg : M.globals.length < 2 ^ 32) :
    (renamedNames M (P.run M).1).Nodup ∧
    (∀ pfx k g, SynthName pfx k (genName pfx k g).1) ∧
    (∀ p1 k1 g1 p2 k2 g2, (genName p1 k1 g1).1 = (genName p2 k2 g2).1 → p1 = p2 ∧ k1 = k2) := by
  refine ⟨?_, genName_synth, ?_⟩
  · obtain ⟨f1, f2⟩ := renameFunctions_names M.functions 0 P.RNG [] M.symbolTable
      (countP_le_bound _ _ hf)
    obtain ⟨g1, g2⟩ := renameGlobals_names M.globals 0
      (renameFunctions M.functions 0 P.RNG [] M.symbolTable).2.2.1 []
      (renameFunctions M.functions 0 P.RNG [] M.symbolTable).2.2.2.2 (countP_le_bound _ _ hg)
    unfold renamedNames RenameSymbolsPass.run
    simp only
    rw [List.nodup_append]
    refine ⟨f2, g2, ?_⟩
    intro n hn1 hn2
    obtain ⟨k1, _, _, hk1⟩ := f1 n hn1
    obtain ⟨k2, _, _, hk2⟩ := g1 n hn2
    have := (SynthStart_inj f_no_underscore g_no_underscore hk1 hk2).1
    exact absurd this (by decide)
  · intro p1 k1 g1 p2 k2 g2 h
    exact SynthName_inj (genName_synth p1 k1 g1) (h ▸ genName_synth p2 k2 g2)

/-- Claim C6, at the functions and globals of the test program with the default seed. -/
theorem renaming_injective_witness :
    (complexTestModule.functions.length < 2 ^ 32 ∧ complexTestModule.globals.length < 2 ^ 32) ∧
    ((renamedNames complexTestModule ((RenameSymbolsPass.new 0).run complexTestModule).1).Nodup ∧
    (∀ pfx k g, SynthName pfx k (genName pfx k g).1) ∧
    (∀ p1 k1 g1 p2 k2 g2, (genName p1 k1 g1).1 = (genName p2 k2 g2).1 → p1 = p2 ∧ k1 = k2)) :=
  ⟨⟨by decide, by decide⟩,
   renaming_injective (RenameSymbolsPass.new 0) complexTestModule (by decide) (by decide)⟩

set_option maxRecDepth 100000 in
/-- Claim C7 as stated fails: in `clashModule` the function `foo` is the first eligible
function, and a declaration already carries the name synthesized for it with the default
seed; after the run `foo` is named `f_1_92aa1674.1`, which is not of the form
`f_1_<8 hex digits>`, while the report maps `foo` to `f_1_92aa1674`. -/
theorem function_ordinals_counterexample :
    clashModule.functions.map (fun F => (F.name, F.renameEligible))
      = [("foo", true), ("f_1_92aa1674", false)] ∧
    ((RenameSymbolsPass.new 0).run clashModule).1.functions.map (fun F => F.name)
      = ["f_1_92aa1674.1", "f_1_92aa1674"] ∧
    ((RenameSymbolsPass.new 0).run clashModule).2.functions_renamed = 1 ∧
    ((RenameSymbolsPass.new 0).run clashModule).2.renamed_functions
      = [("foo", "f_1_92aa1674")] ∧
    hasSynthForm "f" "f_1_92aa1674.1" = false ∧
    ¬ SynthName "f" 1 "f_1_92aa1674.1" :=
  ⟨by decide, by decide, by decide, by decide, by decide,
   fun h => absurd (SynthName_hasSynthForm h) (by decide)⟩

/-- Claim C7, amended: the form is met when no symbol of the module already carries a name
of that form.  On a module with fewer than 2^32 functions, `functions_renamed` is the
number of eligible (defined, not `main`) functions; for the eligible function at position
`i`, the k-th eligible one in module order counted from 1, the pass synthesizes a name
`f_<k>_<8 lowercase hex digits>`, and the function carries that name after the run or,
the name being taken, that name followed by `.` and a number of the host.  In a module in
which no function and no global carries a name of that form it is that name itself; and
if the functions of such a module are factorial, fibonacci, print_message, process_data
and main, all defined and in that order, exactly 4 functions are renamed, to names with
the ordinals 1 to 4 in that order, and main keeps its name. -/
theorem function_ordinals (P : RenameSymbolsPass) (M : Module)
    (hf : M.functions.length < 2 ^ 32) :
    (P.run M).2.functions_renamed = M.functions.countP (fun F => F.renameEligible) ∧
    (P.run M).1.functions.length = M.functions.length ∧
    (∀ i F, M.functions[i]? = some F → F.renameEligible = true →
      ∃ F' n, (P.run M).1.functions[i]? = some F' ∧
        SynthName "f" ((M.functions.take (i + 1)).countP (fun F => F.renameEligible)) n ∧
        (F'.name = n ∨ ∃ u, F'.name = n ++ "." ++ decimal u)) ∧
    (M.noSynthNames "f" = true →
      (∀ i F, M.functions[i]? = some F → F.renameEligible = true →
        ∃ F', (P.run M).1.functions[i]? = some F' ∧
          SynthName "f" ((M.functions.take (i + 1)).countP (fun F => F.renameEligible))
            F'.name) ∧
      (M.functions.map (fun F => F.name)
          = ["factorial", "fibonacci", "print_message", "process_data", "main"] →
        (∀ F ∈ M.functions, F.isDeclaration = false) →
        (P.run M).2.functions_renamed = 4 ∧
        ∃ n1 n2 n3 n4, (P.run M).1.functions.map (fun F => F.name) = [n1, n2, n3, n4, "main"] ∧
          SynthName "f" 1 n1 ∧ SynthName "f" 2 n2 ∧ SynthName "f" 3 n3 ∧ SynthName "f" 4 n4)) := by
  have hb := countP_le_bound (fun F : Function => F.renameEligible) _ hf
  have hcount := renameFunctions_count M.functions 0 P.RNG [] M.symbolTable hb
  have hord := renameFunctions_ordinal M.functions 0 P.RNG [] M.symbolTable hb
  have hlen : (P.run M).1.functions.length = M.functions.length := by
    simp [RenameSymbolsPass.run, renameFunctions_length]
  have hrun : (P.run M).1.functions
      = (renameFunctions M.functions 0 P.RNG [] M.symbolTable).1 := rfl
  have hcnt : (P.run M).2.functions_renamed
      = M.functions.countP (fun F => F.renameEligible) := by
    simpa [RenameSymbolsPass.run] using hcount
  refine ⟨hcnt, hlen, ?_, ?_⟩
  · intro i F hi hF
    obtain ⟨F', n, h1, h2, h3, _⟩ := hord i F hi hF
    exact ⟨F', n, h1, by simpa using h2, h3⟩
  · intro hno
    have hfree := renameFunctions_free M.functions 0 P.RNG [] M.symbolTable hb
      (noSynthNames_table M "f" hno)
    have hfree' : ∀ i F, M.functions[i]? = some F → F.renameEligible = true →
        ∃ F', (P.run M).1.functions[i]? = some F' ∧
          SynthName "f" ((M.functions.take (i + 1)).countP (fun F => F.renameEligible))
            F'.name := by
      intro i F hi hF
      obtain ⟨F', h1, h2⟩ := hfree i F hi hF
      exact ⟨F', h1, by simpa using h2⟩
    refine ⟨hfree', ?_⟩
    intro hnames hdef
    cases hfs : M.functions with
    | nil => rw [hfs] at hnames; simp at hnames
    | cons F1 r1 =>
    cases r1 with
    | nil => rw [hfs] at hnames; simp at hnames
    | cons F2 r2 =>
    cases r2 with
    | nil => rw [hfs] at hnames; simp at hnames
    | cons F3 r3 =>
    cases r3 with
    | nil => rw [hfs] at hnames; simp at hnames
    | cons F4 r4 =>
    cases r4 with
    | nil => rw [hfs] at hnames; simp at hnames
    | cons F5 r5 =>
    cases r5 with
    | cons F6 r6 => rw [hfs] at hnames; simp at hnames
    | nil =>
      rw [hfs] at hnames hdef hfree' hlen hcnt
      simp only [List.map_cons, List.map_nil, List.cons.injEq, and_true] at hnames
      obtain ⟨e1, e2, e3, e4, e5⟩ := hnames
      have d1 := hdef F1 (by simp)
      have d2 := hdef F2 (by simp)
      have d3 := hdef F3 (by simp)
      have d4 := hdef F4 (by simp)
      have d5 := hdef F5 (by simp)
      have l1 : F1.renameEligible = true := by simp [Function.renameEligible, d1, e1]
      have l2 : F2.renameEligible = true := by simp [Function.renameEligible, d2, e2]
      have l3 : F3.renameEligible = true := by simp [Function.renameEligible, d3, e3]
      have l4 : F4.renameEligible = true := by simp [Function.renameEligible, d4, e4]
      have l5 : F5.renameEligible = false := by simp [Function.renameEligible, d5, e5]
      obtain ⟨G1, a1, b1⟩ := hfree' 0 F1 rfl l1
      obtain ⟨G2, a2, b2⟩ := hfree' 1 F2 rfl l2
      obtain ⟨G3, a3, b3⟩ := hfree' 2 F3 rfl l3
      obtain ⟨G4, a4, b4⟩ := hfree' 3 F4 rfl l4
      obtain ⟨G5, a5, b5, _⟩ := renameFunctions_get M.functions 0 P.RNG [] M.symbolTable 4 F5
        (by rw [hfs]; rfl)
      rw [← hrun] at a5
      have b5' := b5 l5
      simp only [List.take_succ_cons, List.take_zero, List.take_nil, List.countP_cons,
        List.countP_nil, l1, l2, l3, l4, if_true, Nat.zero_add] at b1 b2 b3 b4
      have hlist : (P.run M).1.functions = [G1, G2, G3, G4, G5] := by
        apply List.ext_getElem?
        intro i
        rcases i with _ | _ | _ | _ | _ | i
        · rw [a1]; rfl
        · rw [a2]; rfl
        · rw [a3]; rfl
        · rw [a4]; rfl
        · rw [a5]; rfl
        · rw [List.getElem?_eq_none (by rw [hlen]; simp), List.getElem?_eq_none (by simp)]
      refine ⟨by rw [hcnt]; simp [l1, l2, l3, l4, l5], G1.name, G2.name, G3.name, G4.name,
        ?_, b1, b2, b3, b4⟩
      rw [hlist, b5']
      simp [e5]
/-- Claim C7 (amended), at the five functions of the test program with the default seed. -/
theorem function_ordinals_witness :
    complexTestModule.functions.length < 2 ^ 32 ∧
    (complexTestModule.noSynthNames "f" = true ∧
      complexTestModule.functions.map (fun F => F.name)
        = ["factorial", "fibonacci", "print_message", "process_data", "main"] ∧
      ∀ F ∈ complexTestModule.functions, F.isDeclaration = false) ∧
    (((RenameSymbolsPass.new 0).run complexTestModule).2.functions_renamed = 4 ∧
      ∃ n1 n2 n3 n4,
        ((RenameSymbolsPass.new 0).run complexTestModule).1.functions.map (fun F => F.name)
          = [n1, n2, n3, n4, "main"] ∧
        SynthName "f" 1 n1 ∧ SynthName "f" 2 n2 ∧ SynthName "f" 3 n3 ∧ SynthName "f" 4 n4) :=
  ⟨by decide, ⟨by decide, by decide, by decide⟩,
   ((function_ordinals (RenameSymbolsPass.new 0) complexTestModule (by decide)).2.2.2
     (by decide)).2 (by decide) (by decide)⟩

set_option maxRecDepth 100000 in
/-- Claim C8, refuted as stated: the one function of the module is defined and is not
`main`, and the run with the default seed counts it as renamed, yet its name after the run
is the name it had, because it already carried the name synthesized for it. -/
theorem rename_frame_counterexample :
    renamedOnceModule.functions.map (fun F => (F.name, F.isDeclaration))
      = [("f_1_92aa1674", false)] ∧
    ((RenameSymbolsPass.new 0).run renamedOnceModule).1 = renamedOnceModule ∧
    ((RenameSymbolsPass.new 0).run renamedOnceModule).2.functions_renamed = 1 := by
  decide

/-- Claim C8, amended: the name of every eligible function changes in a module where no
symbol already carries a name of the synthesized form.  In every module a function's name
changes only if the function is defined and not named `main`, and such a function keeps
its body and linkage; every declaration and the function `main` are kept as they are.  In a
module with fewer than 2^32 functions in which no function and no global carries a name of
the form `f_<n>_<8 lowercase hex digits>`, a function's name changes if and only if the
function is defined and not named `main`.  On a module with no eligible function and no
eligible global the report is `functions_renamed = 0`, `globals_renamed = 0` and the
module is unchanged. -/
theorem rename_frame (P : RenameSymbolsPass) (M : Module) :
    (∀ (i : Nat) (F : Function), M.functions[i]? = some F →
      ∃ F' : Function, (P.run M).1.functions[i]? = some F' ∧
        (F.renameEligible = false → F' = F) ∧
        F' = { F with name := F'.name } ∧
        (F'.name ≠ F.name → F.renameEligible = true)) ∧
    (∀ F : Function, F.renameEligible = true ↔ (F.isDeclaration = false ∧ F.name ≠ "main")) ∧
    (M.functions.length < 2 ^ 32 → M.noSynthNames "f" = true →
      ∀ (i : Nat) (F : Function), M.functions[i]? = some F →
        ∃ F' : Function, (P.run M).1.functions[i]? = some F' ∧
          (F'.name ≠ F.name ↔ (F.isDeclaration = false ∧ F.name ≠ "main"))) ∧
    ((∀ F ∈ M.functions, F.renameEligible = false) →
      (∀ G ∈ M.globals, G.renameEligible = false) →
      P.run M = (M, ⟨0, 0, [], []⟩)) := by
  have hel : ∀ F : Function,
      F.renameEligible = true ↔ (F.isDeclaration = false ∧ F.name ≠ "main") := by
    intro F
    simp [Function.renameEligible]
  have hget : ∀ (i : Nat) (F : Function), M.functions[i]? = some F →
      ∃ F' : Function, (P.run M).1.functions[i]? = some F' ∧
        (F.renameEligible = false → F' = F) ∧
        F' = { F with name := F'.name } ∧
        (F'.name ≠ F.name → F.renameEligible = true) := by
    intro i F hF
    obtain ⟨F', h1, h2, h3⟩ := renameFunctions_get M.functions 0 P.RNG [] M.symbolTable i F hF
    refine ⟨F', h1, h2, ?_, ?_⟩
    · by_cases he : F.renameEligible = true
      · obtain ⟨k, g, st, hk⟩ := h3 he
        rw [hk]
      · have := h2 (by simpa using he)
        rw [this]
    · intro hne
      by_contra he
      have := h2 (by simpa using he)
      exact hne (by rw [this])
  refine ⟨hget, hel, ?_, ?_⟩
  · intro hf hno i F hF
    obtain ⟨F', h1, h2, _, h4⟩ := hget i F hF
    refine ⟨F', h1, ?_⟩
    rw [← hel]
    refine ⟨h4, ?_⟩
    intro he
    obtain ⟨F'', a1, a2⟩ := renameFunctions_free M.functions 0 P.RNG [] M.symbolTable
      (countP_le_bound _ _ hf) (noSynthNames_table M "f" hno) i F hF he
    have hsame : F'' = F' := by
      have : (P.run M).1.functions[i]? = some F'' := a1
      rw [h1] at this
      exact (Option.some.inj this).symm
    rw [hsame] at a2
    have hFname : hasSynthForm "f" F.name = false := by
      unfold Module.noSynthNames at hno
      simp only [Bool.and_eq_true, List.all_eq_true, Bool.not_eq_true'] at hno
      exact hno.1 F (List.getElem?_mem hF)
    exact fun heq => ne_of_hasSynthForm_false a2 hFname heq.symm
  · intro hF hG
    unfold RenameSymbolsPass.run
    rw [renameFunctions_unchanged _ _ _ _ _ hF]
    simp only
    rw [renameGlobals_unchanged _ _ _ _ _ hG]
    rfl

/-- Claim C8 (amended), at the test program, where the four functions other than `main`
change their names, and at a module that holds only a declaration, `main`, a declared
global and an initializer list, which is left as it is. -/
theorem rename_frame_witness :
    ((complexTestModule.functions.length < 2 ^ 32 ∧ complexTestModule.noSynthNames "f" = true) ∧
      ∃ F' : Function,
        ((RenameSymbolsPass.new 0).run complexTestModule).1.functions[0]? = some F' ∧
        (F'.name ≠ "factorial" ↔ ((⟨"factorial", .ExternalLinkage, retBody⟩ : Function).isDeclaration
          = false ∧ "factorial" ≠ "main"))) ∧
    ((∀ F ∈ entryOnlyModule.functions, F.renameEligible = false) ∧
      (∀ G ∈ entryOnlyModule.globals, G.renameEligible = false)) ∧
    (RenameSymbolsPass.new 0).run entryOnlyModule = (entryOnlyModule, ⟨0, 0, [], []⟩) :=
  ⟨⟨⟨by decide, by decide⟩,
    (rename_frame (RenameSymbolsPass.new 0) complexTestModule).2.2.1 (by decide) (by decide)
      0 ⟨"factorial", .ExternalLinkage, retBody⟩ rfl⟩,
   ⟨by decide, by decide⟩,
   (rename_frame (RenameSymbolsPass.new 0) entryOnlyModule).2.2.2 (by decide) (by decide)⟩
/-! ## Bogus Instruction Injector -/

theorem insertBogusArithmetic_inserted (nextId : Nat) (g : Mt19937) :
    (insertBogusArithmetic ⟨[], nextId⟩ g).2.1 = ⟨[], nextId⟩ ∧
    (insertBogusArithmetic ⟨[], nextId⟩ g).1 = true := by
  simp [insertBogusArithmetic, bogusConstant, IRBuilder.createBinOp, foldBinOp]

theorem insertBogusMemory_inserted (nextId : Nat) (g : Mt19937) :
    (insertBogusMemory ⟨[], nextId⟩ g).2.1.inserted =
      [⟨nextId, .Alloca, .ptr, "bogus_alloca", []⟩,
       ⟨nextId + 1, .Store, .void, "", [bogusConstant g.next.1, .inst nextId]⟩,
       ⟨nextId + 2, .Load, .int 32, "bogus_load", [.inst nextId]⟩,
       ⟨nextId + 3, .Add, .int 32, "bogus_calc", [.inst (nextId + 2), .constInt 32 42]⟩] ∧
    (insertBogusMemory ⟨[], nextId⟩ g).1 = true := by
  simp [insertBogusMemory, IRBuilder.insert, IRBuilder.createBinOp]

/-- What the pass does to one block: the original instructions stay in their order, and
before the first one that is not a terminator nothing or exactly the scratch cell, a store
of a constant into it, its load and an addition are put, all with new identities. -/
theorem bogusBlock_structure (BB : BasicBlock) (s : BogusState) :
    ∃ k r, (∀ I ∈ BB.insts.take k, I.isTerminator = true) ∧
      ((bogusBlock BB s).1.insts = BB.insts ∨
       (bogusBlock BB s).1.insts = BB.insts.take k ++
        [⟨s.nextId, .Alloca, .ptr, "bogus_alloca", []⟩,
         ⟨s.nextId + 1, .Store, .void, "", [bogusConstant r, .inst s.nextId]⟩,
         ⟨s.nextId + 2, .Load, .int 32, "bogus_load", [.inst s.nextId]⟩,
         ⟨s.nextId + 3, .Add, .int 32, "bogus_calc", [.inst (s.nextId + 2), .constInt 32 42]⟩]
        ++ BB.insts.drop k) := by
  refine ⟨BB.insts.findIdx (fun I => !I.isTerminator),
    (insertBogusArithmetic ⟨[], s.nextId⟩ s.RNG).2.2.next.1, ?_, ?_⟩
  · intro I hI
    obtain ⟨j, hj, rfl⟩ := List.getElem_of_mem hI
    simp only [List.length_take] at hj
    have hlt : j < BB.insts.findIdx (fun I => !I.isTerminator) := by omega
    have := List.not_of_lt_findIdx hlt
    simpa using this
  · unfold bogusBlock
    by_cases h1 : BB.insts.isEmpty = true
    · rw [if_pos h1]
      exact Or.inl rfl
    · rw [if_neg h1]
      by_cases h2 : BB.insts.findIdx (fun I => !I.isTerminator) < BB.insts.length
      · right
        simp only [if_pos h2, (insertBogusArithmetic_inserted s.nextId s.RNG).1,
          (insertBogusMemory_inserted s.nextId _).1]
      · left
        simp only [if_neg h2]

/-- Claim C9, the code at a block that starts with a PHI node: in `pick` every block has its
PHI nodes at the top; the run inserts the scratch cell, its store, its load and the
addition before the PHI node of `merge`, which thereby stands fifth in its block, after
instructions that are not PHI nodes, and the function is no longer well-formed IR. -/
theorem bogus_insertion_before_phi :
    pickFunction.blocks.all (fun BB => BB.phisGrouped) = true ∧
    ((BogusInstructionsPass.new 0).run ⟨[pickFunction], [], 0⟩).1.functions.map
        (fun F => F.blocks.map (fun BB => BB.insts.map (fun I => I.opcode)))
      = [[[.Br], [.Br], [.Br], [.Alloca, .Store, .Load, .Add, .PHI, .Ret]]] ∧
    ((BogusInstructionsPass.new 0).run ⟨[pickFunction], [], 0⟩).1.functions.map
        (fun F => F.blocks.map (fun BB => BB.phisGrouped))
      = [[true, true, true, false]] ∧
    ((BogusInstructionsPass.new 0).run ⟨[pickFunction], [], 0⟩).2 = 2 := by
  decide

/-! ## Block Splitter -/

theorem splitPosition_bounds : ∀ (insts : List Instruction) (sp k : Nat),
    splitPosition insts sp = some k → sp ≤ k ∧ k < insts.length
  | [], sp, k, h => by simp [splitPosition] at h
  | I :: rest, 0, k, h => by
    simp only [splitPosition] at h
    split at h
    · simp only [Option.map_eq_some'] at h
      obtain ⟨j, hj, rfl⟩ := h
      have := splitPosition_bounds rest 0 j hj
      simp only [List.length_cons]
      omega
    · simp only [Option.some.injEq] at h
      subst h
      simp
  | I :: rest, sp + 1, k, h => by
    simp only [splitPosition, Option.map_eq_some'] at h
    obtain ⟨j, hj, rfl⟩ := h
    have := splitPosition_bounds rest sp j hj
    simp only [List.length_cons]
    omega

theorem getTerminator_snoc (id : Nat) (nm : String) (xs : List Instruction) (t : Instruction) :
    (⟨id, nm, xs ++ [t]⟩ : BasicBlock).getTerminator = if t.isTerminator then some t else none := by
  simp [BasicBlock.getTerminator]

theorem endsInOneTerminator_snoc (id : Nat) (nm : String) (xs : List Instruction)
    (t : Instruction) (ht : t.isTerminator = true)
    (hxs : xs.countP (fun I => I.isTerminator) = 0) :
    (⟨id, nm, xs ++ [t]⟩ : BasicBlock).endsInOneTerminator = true := by
  unfold BasicBlock.endsInOneTerminator
  rw [getTerminator_snoc]
  simp [ht, hxs, List.countP_append, List.countP_cons]

/-- A block ending in exactly one terminator is some instructions without terminators
followed by the terminator. -/
theorem endsInOneTerminator_split (BB : BasicBlock) (h : BB.endsInOneTerminator = true) :
    ∃ init t, BB.insts = init ++ [t] ∧ t.isTerminator = true ∧
      init.countP (fun I => I.isTerminator) = 0 ∧ BB.getTerminator = some t := by
  unfold BasicBlock.endsInOneTerminator at h
  simp only [Bool.and_eq_true, decide_eq_true_eq] at h
  obtain ⟨h1, h2⟩ := h
  have hne : BB.insts ≠ [] := by
    intro h0
    simp [BasicBlock.getTerminator, h0] at h1
  obtain ⟨init, t, hit⟩ : ∃ init t, BB.insts = init ++ [t] :=
    ⟨BB.insts.dropLast, BB.insts.getLast hne, (List.dropLast_append_getLast hne).symm⟩
  have hterm : BB.getTerminator = if t.isTerminator then some t else none := by
    simp [BasicBlock.getTerminator, hit]
  have ht : t.isTerminator = true := by
    by_contra hn
    rw [hterm] at h1
    simp [hn] at h1
  refine ⟨init, t, hit, ht, ?_, by rw [hterm, if_pos ht]⟩
  rw [hit] at h2
  simp only [List.countP_append, List.countP_cons, List.countP_nil, ht, if_true] at h2
  omega

theorem countP_take_zero {α : Type} (p : α → Bool) (l : List α) (k : Nat)
    (h : l.countP p = 0) : (l.take k).countP p = 0 := by
  have h1 : l.countP p = (l.take k).countP p + (l.drop k).countP p := by
    conv => lhs; rw [← List.take_append_drop k l]
    rw [List.countP_append]
  omega

theorem countP_drop_zero {α : Type} (p : α → Bool) (l : List α) (k : Nat)
    (h : l.countP p = 0) : (l.drop k).countP p = 0 := by
  have h1 : l.countP p = (l.take k).countP p + (l.drop k).countP p := by
    conv => lhs; rw [← List.take_append_drop k l]
    rw [List.countP_append]
  omega

/-- Shape of the two parts when the pass splits a block that ends in one terminator. -/
theorem splitBlock_shape (BB : BasicBlock) (nb br ph : Nat) (first second : BasicBlock)
    (hwf : BB.endsInOneTerminator = true)
    (h : splitBlock BB nb br ph = .split first second) :
    ∃ init t k, BB.insts = init ++ [t] ∧ t.isTerminator = true ∧
      init.countP (fun I => I.isTerminator) = 0 ∧ BB.getTerminator = some t ∧
      2 ≤ BB.insts.length / 3 ∧ BB.insts.length / 3 ≤ k ∧ k ≤ init.length ∧
      splitPosition BB.insts (BB.insts.length / 3) = some k ∧
      first = ⟨BB.id, BB.name, init.take k ++ [branchTo br nb]⟩ ∧
      second = ⟨nb, BB.name ++ "_split", bogusPhi ph BB.id :: (init.drop k ++ [t])⟩ := by
  obtain ⟨init, t, hit, ht, hinit, hterm⟩ := endsInOneTerminator_split BB hwf
  unfold splitBlock at h
  simp only at h
  split at h
  · simp at h
  split at h
  · simp at h
  rename_i h2 h3
  cases hk : splitPosition BB.insts (BB.insts.length / 3) with
  | none => simp [hk] at h
  | some k =>
    simp only [hk, hterm] at h
    obtain ⟨hk1, hk2⟩ := splitPosition_bounds _ _ _ hk
    have hlen : BB.insts.length = init.length + 1 := by rw [hit]; simp
    have hk3 : k ≤ init.length := by omega
    have htake : BB.insts.take k = init.take k := by
      rw [hit, List.take_append_of_le_length hk3]
    have hdrop : BB.insts.drop k = init.drop k ++ [t] := by
      rw [hit, List.drop_append_of_le_length hk3]
    have hfirst : (⟨BB.id, BB.name, BB.insts.take k ++ [branchTo br nb]⟩ :
        BasicBlock).getTerminator.isSome = true := by
      rw [getTerminator_snoc]
      simp [branchTo, Instruction.isTerminator]
    simp only [hfirst, if_true, SplitOutcome.split.injEq] at h
    obtain ⟨h1, h2'⟩ := h
    refine ⟨init, t, k, hit, ht, hinit, hterm, by omega, hk1, hk3, rfl, ?_, ?_⟩
    · rw [← h1, htake]
    · rw [← h2', hdrop]
      simp [addBogusPhiNodes]

/-! ### Redirection of PHI nodes leaves identities and terminators alone -/

theorem redirect_isTerminator (I : Instruction) (o n : Nat) :
    (I.replaceIncomingBlockWith o n).isTerminator = I.isTerminator := rfl

theorem redirectPhis_id (succs : List Nat) (o n : Nat) (S : BasicBlock) :
    (redirectPhis succs o n S).id = S.id := by
  unfold redirectPhis
  split <;> rfl

theorem redirectPhis_name (succs : List Nat) (o n : Nat) (S : BasicBlock) :
    (redirectPhis succs o n S).name = S.name := by
  unfold redirectPhis
  split <;> rfl

theorem redirectPhis_countP (succs : List Nat) (o n : Nat) (S : BasicBlock) :
    (redirectPhis succs o n S).insts.countP (fun I => I.isTerminator)
      = S.insts.countP (fun I => I.isTerminator) := by
  unfold redirectPhis
  split
  · simp only [List.countP_append, List.countP_map]
    have : ((fun I : Instruction => I.isTerminator) ∘
        fun I : Instruction => I.replaceIncomingBlockWith o n)
        = fun I : Instruction => I.isTerminator := by
      funext I
      rfl
    rw [this, ← List.countP_append, List.takeWhile_append_dropWhile]
  · rfl

theorem phi_not_terminator (I : Instruction) (h : I.isPHI = true) : I.isTerminator = false := by
  unfold Instruction.isPHI at h
  unfold Instruction.isTerminator
  split at h <;> simp_all

theorem redirectPhis_getTerminator (succs : List Nat) (o n : Nat) (S : BasicBlock) :
    (redirectPhis succs o n S).getTerminator = S.getTerminator := by
  unfold redirectPhis
  split
  · cases hd : S.insts.dropWhile (fun I => I.isPHI) with
    | nil =>
      have hall : S.insts.takeWhile (fun I => I.isPHI) = S.insts := by
        have := List.takeWhile_append_dropWhile (fun I : Instruction => I.isPHI) S.insts
        rw [hd, List.append_nil] at this
        exact this
      have hphi : ∀ I ∈ S.insts, I.isPHI = true := by
        intro I hI
        rw [← hall] at hI
        exact List.mem_takeWhile_imp hI
      simp only [BasicBlock.getTerminator, hall, List.append_nil, List.getLast?_map]
      cases hl : S.insts.getLast? with
      | none => rfl
      | some x =>
        have hx : x ∈ S.insts := List.mem_of_getLast?_eq_some hl
        have := phi_not_terminator x (hphi x hx)
        simp [this, redirect_isTerminator]
    | cons d ds =>
      have hS : S.insts = S.insts.takeWhile (fun I => I.isPHI) ++ d :: ds := by
        rw [← hd, List.takeWhile_append_dropWhile]
      simp only [BasicBlock.getTerminator]
      rw [List.getLast?_append_of_ne_nil _ (by simp)]
      conv => rhs; rw [hS, List.getLast?_append_of_ne_nil _ (by simp)]
  · rfl

theorem redirectPhis_endsInOneTerminator (succs : List Nat) (o n : Nat) (S : BasicBlock) :
    (redirectPhis succs o n S).endsInOneTerminator = S.endsInOneTerminator := by
  unfold BasicBlock.endsInOneTerminator
  rw [redirectPhis_getTerminator, redirectPhis_countP]

theorem redirectPhis_shape (succs : List Nat) (o n : Nat) (S : BasicBlock) :
    (redirectPhis succs o n S).insts.map (fun I => (I.id, I.opcode, I.name))
      = S.insts.map (fun I => (I.id, I.opcode, I.name)) := by
  unfold redirectPhis
  split
  · simp only [List.map_append, List.map_map]
    have : ((fun I : Instruction => (I.id, I.opcode, I.name)) ∘
        fun I : Instruction => I.replaceIncomingBlockWith o n)
        = fun I : Instruction => (I.id, I.opcode, I.name) := by
      funext I
      rfl
    rw [this, ← List.map_append, List.takeWhile_append_dropWhile]
  · rfl

theorem replaceBlock_at (pre post new : List BasicBlock) (BB : BasicBlock) (bb : Nat)
    (hpre : ∀ X ∈ pre, X.id ≠ bb) (hBB : BB.id = bb) :
    replaceBlock (pre ++ BB :: post) bb new = pre ++ new ++ post := by
  induction pre with
  | nil => simp [replaceBlock, hBB]
  | cons X xs ih =>
    have hX : X.id ≠ bb := hpre X (by simp)
    have ih' := ih (fun Y hY => hpre Y (by simp [hY]))
    show replaceBlock (X :: (xs ++ BB :: post)) bb new = X :: xs ++ new ++ post
    rw [replaceBlock, if_neg hX, ih']
    simp

theorem freshBlockId_gt_aux : ∀ (l : List BasicBlock) (a : Nat),
    a ≤ l.foldl (fun a BB => max a (BB.id + 1)) a ∧
    ∀ X ∈ l, X.id < l.foldl (fun a BB => max a (BB.id + 1)) a
  | [], a => by simp
  | Y :: rest, a => by
    obtain ⟨h1, h2⟩ := freshBlockId_gt_aux rest (max a (Y.id + 1))
    simp only [List.foldl_cons, List.mem_cons]
    refine ⟨by omega, ?_⟩
    intro X hX
    rcases hX with hX | hX
    · subst hX
      omega
    · exact h2 X hX

theorem freshBlockId_gt (F : Function) : ∀ X ∈ F.blocks, X.id < F.freshBlockId :=
  (freshBlockId_gt_aux F.blocks 0).2

/-- Claim C10.  Block split preserves the terminator invariant: when `splitBasicBlock`
splits a block that ends in exactly one terminator, the function afterwards holds in its
place two blocks, the first with the identity and name of the original and the second a
new block named with the suffix `_split`; the first ends in exactly one terminator, the
new unconditional branch to the second; the second ends in exactly one terminator, the
original one; the second starts with the new PHI node `bogus_phi`; together they hold the
original instructions in their order; and every other block keeps its identity and its
terminator, so each branch that entered the original block enters the first part. -/
theorem split_keeps_terminators (F F' : Function) (bb : Nat) (BB : BasicBlock)
    (hfind : F.findBlock bb = some BB) (hwf : BB.endsInOneTerminator = true)
    (hsplit : BasicBlockSplit.splitBasicBlock F bb = some (F', true)) :
    ∃ pre post pre' post' first second,
      F.blocks = pre ++ BB :: post ∧
      F'.blocks = pre' ++ first :: second :: post' ∧
      pre'.map (fun X => (X.id, X.getTerminator)) = pre.map (fun X => (X.id, X.getTerminator)) ∧
      post'.map (fun X => (X.id, X.getTerminator))
        = post.map (fun X => (X.id, X.getTerminator)) ∧
      first.id = BB.id ∧ first.name = BB.name ∧
      second.name = BB.name ++ "_split" ∧ (∀ X ∈ F.blocks, X.id ≠ second.id) ∧
      first.endsInOneTerminator = true ∧
      first.getTerminator = some (branchTo F.freshId second.id) ∧
      second.endsInOneTerminator = true ∧
      second.getTerminator = BB.getTerminator ∧
      ∃ phi rest k, second.insts = phi :: rest ∧
        phi.isPHI = true ∧ phi.name = "bogus_phi" ∧ phi.id = F.freshId + 1 ∧
        splitPosition BB.insts (BB.insts.length / 3) = some k ∧
        (first.insts ++ rest).map (fun I => (I.id, I.opcode, I.name))
          = (BB.insts.take k ++ branchTo F.freshId second.id :: BB.insts.drop k).map
              (fun I => (I.id, I.opcode, I.name)) := by
  have hdec := List.find?_eq_some.1 hfind
  obtain ⟨hid, pre, post, hblocks, hpre⟩ := hdec
  have hBBid : BB.id = bb := by simpa using hid
  have hpre' : ∀ X ∈ pre, X.id ≠ bb := by
    intro X hX
    simpa using hpre X hX
  unfold BasicBlockSplit.splitBasicBlock at hsplit
  rw [hfind] at hsplit
  simp only at hsplit
  cases hout : splitBlock BB F.freshBlockId F.freshId (F.freshId + 1) with
  | unsplit => simp [hout] at hsplit
  | aborted => simp [hout] at hsplit
  | split first0 second0 =>
    obtain ⟨init, t, k, hit, ht, hinit, hterm, _, _, hk, hpos, hf0, hs0⟩ :=
      splitBlock_shape BB _ _ _ first0 second0 hwf hout
    simp only [hout, hterm, Option.some.injEq, Prod.mk.injEq, and_true] at hsplit
    have hF' : F'.blocks = (pre ++ [first0, second0] ++ post).map
        (redirectPhis t.successors BB.id second0.id) := by
      rw [← hsplit]
      simp only [replaceSuccessorsPhiUsesWith]
      rw [hblocks, replaceBlock_at pre post _ BB bb hpre' hBBid]
    have hsid : second0.id = F.freshBlockId := by rw [hs0]
    have htake : BB.insts.take k = init.take k := by
      rw [hit, List.take_append_of_le_length hk]
    have hdrop : BB.insts.drop k = init.drop k ++ [t] := by
      rw [hit, List.drop_append_of_le_length hk]
    refine ⟨pre, post, pre.map (redirectPhis t.successors BB.id second0.id),
      post.map (redirectPhis t.successors BB.id second0.id),
      redirectPhis t.successors BB.id second0.id first0,
      redirectPhis t.successors BB.id second0.id second0, hblocks, ?_, ?_, ?_, ?_, ?_, ?_, ?_,
      ?_, ?_, ?_, ?_, ?_⟩
    · rw [hF']
      simp
    · simp [List.map_map, Function.comp_def, redirectPhis_id, redirectPhis_getTerminator]
    · simp [List.map_map, Function.comp_def, redirectPhis_id, redirectPhis_getTerminator]
    · rw [redirectPhis_id, hf0]
    · rw [redirectPhis_name, hf0]
    · rw [redirectPhis_name, hs0]
    · intro X hX
      rw [redirectPhis_id, hsid]
      exact Nat.ne_of_lt (freshBlockId_gt F X hX)
    · rw [redirectPhis_endsInOneTerminator, hf0]
      exact endsInOneTerminator_snoc _ _ _ _ rfl (countP_take_zero _ _ _ hinit)
    · rw [redirectPhis_getTerminator, redirectPhis_id, hf0, getTerminator_snoc, hsid]
      rfl
    · rw [redirectPhis_endsInOneTerminator, hs0]
      have := endsInOneTerminator_snoc F.freshBlockId (BB.name ++ "_split")
        (bogusPhi (F.freshId + 1) BB.id :: init.drop k) t ht
        (by
          simp only [List.countP_cons, countP_drop_zero _ _ _ hinit]
          rfl)
      simpa using this
    · rw [redirectPhis_getTerminator, hs0, hterm]
      have := getTerminator_snoc F.freshBlockId (BB.name ++ "_split")
        (bogusPhi (F.freshId + 1) BB.id :: init.drop k) t
      rw [if_pos ht] at this
      simpa using this
    · have hshape2 := redirectPhis_shape t.successors BB.id second0.id second0
      have hshape1 := redirectPhis_shape t.successors BB.id second0.id first0
      cases hs : (redirectPhis t.successors BB.id second0.id second0).insts with
      | nil =>
        rw [hs, hs0] at hshape2
        simp at hshape2
      | cons phi rest =>
        rw [hs, hs0] at hshape2
        simp only [List.map_cons, List.cons.injEq, Prod.mk.injEq] at hshape2
        obtain ⟨⟨h1, h2, h3⟩, hrest⟩ := hshape2
        refine ⟨phi, rest, k, rfl, ?_, h3, h1, hpos, ?_⟩
        · unfold Instruction.isPHI
          rw [h2]
          rfl
        · rw [List.map_append, hshape1, hrest, hf0, redirectPhis_id, hsid, htake, hdrop]
          simp

/-- Claim C10, at the block `loop` of `loopFunction`. -/
theorem split_keeps_terminators_witness :
    (loopFunction.findBlock 1 = some loopBlock ∧ loopBlock.endsInOneTerminator = true ∧
      BasicBlockSplit.splitBasicBlock loopFunction 1 = some (loopFunctionSplit, true) ∧
      BasicBlockSplit.run loopFunction = some (loopFunctionSplit, true)) ∧
    ∃ pre post pre' post' first second,
      loopFunction.blocks = pre ++ loopBlock :: post ∧
      loopFunctionSplit.blocks = pre' ++ first :: second :: post' ∧
      first.id = 1 ∧ second.name = "loop_split" ∧
      first.endsInOneTerminator = true ∧ second.endsInOneTerminator = true := by
  refine ⟨⟨by decide, by decide, by decide, by decide⟩, ?_⟩
  obtain ⟨pre, post, pre', post', first, second, h1, h2, _, _, h5, _, h7, _, h9, _, h11, _⟩ :=
    split_keeps_terminators loopFunction loopFunctionSplit 1 loopBlock (by decide) (by decide)
      (by decide)
  exact ⟨pre, post, pre', post', first, second, h1, h2, h5, h7, h9, h11⟩

/-! ## Flattening stub -/

/-- Claim C11 as stated fails: `loopFunction` is defined, has 8 instructions, which is more
than 3, is not named `main` and its name does not start with `__obf_`, yet the pass leaves
it as it is and reports it unchanged, because it has only 3 basic blocks. -/
theorem flattening_stub_counterexample :
    loopFunction.isDeclaration = false ∧ loopFunction.instructionCount = 8 ∧
    loopFunction.name ≠ "main" ∧ "__obf_".data.isPrefixOf loopFunction.name.data = false ∧
    loopFunction.blocks.length = 3 ∧
    ControlFlowFlattening.run loopFunction = some (loopFunction, false) := by
  decide

/-- Claim C11, amended: the size test counts basic blocks. For a defined function with more
than 3 basic blocks that is not named `main` and whose name does not start with `__obf_`
(its entry block holding an instruction), the pass inserts one cell `cff_state` and a store
of zero to it before the first instruction of the entry block, leaves everything else as it
is and reports the function as changed; for every other function it returns the function
itself and reports unchanged. -/
theorem flattening_stub (F : Function) :
    (F.isDeclaration = false → 3 < F.blocks.length → F.name ≠ "main" →
      "__obf_".data.isPrefixOf F.name.data = false →
      ∀ entry rest, F.blocks = entry :: rest → entry.insts ≠ [] →
        ControlFlowFlattening.run F =
          some ({ F with blocks :=
                    { entry with insts :=
                        [⟨F.freshId, .Alloca, .ptr, "cff_state", []⟩,
                         ⟨F.freshId + 1, .Store, .void, "", [.constInt 32 0, .inst F.freshId]⟩]
                          ++ entry.insts } :: rest }, true)) ∧
    ((F.isDeclaration = true ∨ F.blocks.length ≤ 3 ∨ F.name = "main" ∨
        "__obf_".data.isPrefixOf F.name.data = true) →
      ControlFlowFlattening.run F = some (F, false)) := by
  constructor
  · intro hdef hlen hmain hobf entry rest hblocks hne
    have hguard : (F.isDeclaration || decide (F.blocks.length ≤ 3)) = false := by
      rw [hdef]
      simp only [Bool.false_or, decide_eq_false_iff_not]
      omega
    have hname : (F.name == "main" || "__obf_".data.isPrefixOf F.name.data) = false := by
      rw [hobf]
      simp only [Bool.or_false, beq_eq_false_iff_ne, ne_eq]
      exact hmain
    have hempty : entry.insts.isEmpty = false := by
      cases h : entry.insts with
      | nil => exact absurd h hne
      | cons a l => rfl
    unfold ControlFlowFlattening.run
    rw [hguard, hname]
    simp only [Bool.false_eq_true, if_false]
    unfold minimalFlatten
    rw [hblocks]
    simp only [hempty, Bool.false_eq_true, if_false, IRBuilder.insert, List.nil_append,
      List.cons_append, List.singleton_append]
  · intro h
    unfold ControlFlowFlattening.run
    rcases h with h | h | h | h
    · rw [h]; simp
    · have : decide (F.blocks.length ≤ 3) = true := decide_eq_true h
      rw [this]; simp
    · rw [h]; simp
    · rw [h]; simp

/-- Claim C11, amended, on `pickFunction` (4 blocks: changed) and on `loopFunction`
(3 blocks: unchanged). -/
theorem flattening_stub_witness :
    ControlFlowFlattening.run pickFunction = some (pickFunctionFlattened, true) ∧
    ControlFlowFlattening.run loopFunction = some (loopFunction, false) :=
  ⟨((flattening_stub pickFunction).1 (by decide) (by decide) (by decide) (by decide)
      _ _ rfl (by decide)).trans (by decide),
   (flattening_stub loopFunction).2 (Or.inr (Or.inl (by decide)))⟩

/-! ## Count of the Bogus Instruction Injector -/

theorem findIdx_lt_of_hasNonTerminator (BB : BasicBlock) :
    BB.insts.findIdx (fun I => !I.isTerminator) < BB.insts.length ↔
      BB.hasNonTerminator = true := by
  rw [List.findIdx_lt_length, BasicBlock.hasNonTerminator, List.any_eq_true]

theorem bogusBlock_skip (BB : BasicBlock) (s : BogusState) (h : BB.hasNonTerminator = false) :
    bogusBlock BB s = (BB, s) := by
  unfold bogusBlock
  by_cases h1 : BB.insts.isEmpty = true
  · rw [if_pos h1]
  · rw [if_neg h1]
    have h2 : ¬ BB.insts.findIdx (fun I => !I.isTerminator) < BB.insts.length := by
      rw [findIdx_lt_of_hasNonTerminator, h]
      decide
    simp only [if_neg h2]

theorem bogusBlock_insert (BB : BasicBlock) (s : BogusState) (h : BB.hasNonTerminator = true) :
    (bogusBlock BB s).1.insts =
      BB.insts.take (BB.insts.findIdx (fun I => !I.isTerminator)) ++
        (insertBogusMemory (insertBogusArithmetic ⟨[], s.nextId⟩ s.RNG).2.1
          (insertBogusArithmetic ⟨[], s.nextId⟩ s.RNG).2.2).2.1.inserted ++
        BB.insts.drop (BB.insts.findIdx (fun I => !I.isTerminator)) ∧
    (bogusBlock BB s).2.bogusCount = (s.bogusCount + 2) % 2 ^ 32 := by
  have h2 : BB.insts.findIdx (fun I => !I.isTerminator) < BB.insts.length :=
    (findIdx_lt_of_hasNonTerminator BB).2 h
  have h1 : ¬ BB.insts.isEmpty = true := by
    intro he
    rw [List.isEmpty_iff] at he
    rw [he] at h2
    exact absurd h2 (by simp)
  unfold bogusBlock
  rw [if_neg h1]
  simp only [if_pos h2, (insertBogusArithmetic_inserted s.nextId s.RNG).2,
    (insertBogusArithmetic_inserted s.nextId s.RNG).1,
    (insertBogusMemory_inserted s.nextId _).2, if_true, true_and]
  omega

theorem bogusBlock_count (BB : BasicBlock) (s : BogusState) :
    (bogusBlock BB s).2.bogusCount % 2 ^ 32 =
      (s.bogusCount + 2 * (if BB.hasNonTerminator then 1 else 0)) % 2 ^ 32 := by
  cases h : BB.hasNonTerminator with
  | false => rw [bogusBlock_skip BB s h]; simp
  | true => rw [(bogusBlock_insert BB s h).2]; simp

theorem bogusBlocks_count (blocks : List BasicBlock) :
    ∀ s : BogusState, (bogusBlocks blocks s).2.bogusCount % 2 ^ 32 =
      (s.bogusCount + 2 * blocks.countP (fun BB => BB.hasNonTerminator)) % 2 ^ 32 := by
  induction blocks with
  | nil => intro s; simp [bogusBlocks]
  | cons BB rest ih =>
    intro s
    simp only [bogusBlocks]
    rw [ih, List.countP_cons]
    have h := bogusBlock_count BB s
    omega

theorem bogusFunctions_count (fs : List Function) :
    ∀ (g : Mt19937) (count : Nat), (bogusFunctions fs g count).2.2 % 2 ^ 32 =
      (count + 2 * countedBlocks fs) % 2 ^ 32 := by
  induction fs with
  | nil => intro g count; simp [bogusFunctions, countedBlocks]
  | cons F rest ih =>
    intro g count
    unfold bogusFunctions
    cases hd : F.isDeclaration with
    | true =>
      simp only [if_true, countedBlocks, hd]
      rw [ih]
      simp
    | false =>
      simp only [Bool.false_eq_true, if_false, countedBlocks, hd]
      rw [ih]
      have h := bogusBlocks_count F.blocks ⟨g, F.freshId, count⟩
      simp only at h
      omega

theorem bogusBlock_count_lt (BB : BasicBlock) (s : BogusState) (h : s.bogusCount < 2 ^ 32) :
    (bogusBlock BB s).2.bogusCount < 2 ^ 32 := by
  cases hb : BB.hasNonTerminator with
  | false => rw [bogusBlock_skip BB s hb]; exact h
  | true => rw [(bogusBlock_insert BB s hb).2]; exact Nat.mod_lt _ (by decide)

theorem bogusBlocks_count_lt (blocks : List BasicBlock) :
    ∀ s : BogusState, s.bogusCount < 2 ^ 32 → (bogusBlocks blocks s).2.bogusCount < 2 ^ 32 := by
  induction blocks with
  | nil => intro s h; exact h
  | cons BB rest ih =>
    intro s h
    simp only [bogusBlocks]
    exact ih _ (bogusBlock_count_lt BB s h)

theorem bogusFunctions_count_lt (fs : List Function) :
    ∀ (g : Mt19937) (count : Nat), count < 2 ^ 32 → (bogusFunctions fs g count).2.2 < 2 ^ 32 := by
  induction fs with
  | nil => intro g count h; exact h
  | cons F rest ih =>
    intro g count h
    unfold bogusFunctions
    cases hd : F.isDeclaration with
    | true =>
      simp only [if_true]
      exact ih _ _ h
    | false =>
      simp only [Bool.false_eq_true, if_false]
      exact ih _ _ (bogusBlocks_count_lt F.blocks ⟨g, F.freshId, count⟩ h)

theorem bogusBlock_length (BB : BasicBlock) (s : BogusState) :
    (bogusBlock BB s).1.insts.length =
      BB.insts.length + 4 * (if BB.hasNonTerminator then 1 else 0) := by
  cases h : BB.hasNonTerminator with
  | false => rw [bogusBlock_skip BB s h]; simp
  | true =>
    have hk : BB.insts.findIdx (fun I => !I.isTerminator) < BB.insts.length :=
      (findIdx_lt_of_hasNonTerminator BB).2 h
    rw [(bogusBlock_insert BB s h).1, (insertBogusArithmetic_inserted s.nextId s.RNG).1,
      (insertBogusMemory_inserted s.nextId _).1]
    simp only [List.length_append, List.length_take, List.length_drop, List.length_cons,
      List.length_nil, if_true]
    omega

theorem bogusBlocks_length (blocks : List BasicBlock) :
    ∀ s : BogusState, ((bogusBlocks blocks s).1.map (fun BB => BB.insts.length)).sum =
      (blocks.map (fun BB => BB.insts.length)).sum
        + 4 * blocks.countP (fun BB => BB.hasNonTerminator) := by
  induction blocks with
  | nil => intro s; simp [bogusBlocks]
  | cons BB rest ih =>
    intro s
    simp only [bogusBlocks, List.map_cons, List.sum_cons]
    rw [ih, List.countP_cons, bogusBlock_length]
    cases BB.hasNonTerminator <;> simp <;> omega

theorem bogusFunctions_length (fs : List Function) :
    ∀ (g : Mt19937) (count : Nat),
      ((bogusFunctions fs g count).1.map (fun F => F.instructionCount)).sum =
        (fs.map (fun F => F.instructionCount)).sum + 4 * countedBlocks fs ∧
      (bogusFunctions fs g count).1.length = fs.length := by
  induction fs with
  | nil => intro g count; simp [bogusFunctions, countedBlocks]
  | cons F rest ih =>
    intro g count
    unfold bogusFunctions
    cases hd : F.isDeclaration with
    | true =>
      simp only [if_true, countedBlocks, hd, List.map_cons, List.sum_cons, List.length_cons]
      have h := ih g count
      omega
    | false =>
      simp only [Bool.false_eq_true, if_false, countedBlocks, hd, List.map_cons, List.sum_cons,
        List.length_cons]
      have h := ih (bogusBlocks F.blocks ⟨g, F.freshId, count⟩).2.RNG
        (bogusBlocks F.blocks ⟨g, F.freshId, count⟩).2.bogusCount
      have hb := bogusBlocks_length F.blocks ⟨g, F.freshId, count⟩
      simp only [Function.instructionCount] at h hb ⊢
      omega

/-- Claim C13, what the code does.  The reported `bogus_instr_count` is twice the number of
basic blocks of the defined functions that hold an instruction that is not a terminator
(for a module where this number fits the 32-bit counter), but only one of the two counted
sequences is in the module afterwards.  The arithmetic sequence draws its three values and
inserts nothing, since the builder folds every operation on two constants, and it still
returns `true`; the memory sequence inserts its four instructions.  So the module after the
run holds four more instructions for every counted block, and each such block is its old
instructions with the scratch cell, the store, the load and the addition of 42 put before
the first one that is not a terminator.  Blocks without such an instruction, declarations
and the globals are as before. -/
theorem bogus_instr_count (P : BogusInstructionsPass) (M : Module)
    (hsize : 2 * countedBlocks M.functions < 2 ^ 32) :
    (P.run M).2 = 2 * countedBlocks M.functions ∧
    (P.run M).1.globals = M.globals ∧
    (P.run M).1.functions.length = M.functions.length ∧
    (P.run M).1.instructionCount = M.instructionCount + 4 * countedBlocks M.functions ∧
    (∀ (nextId : Nat) (g : Mt19937),
      insertBogusArithmetic ⟨[], nextId⟩ g = (true, ⟨[], nextId⟩, g.next.2.next.2.next.2)) ∧
    (∀ (BB : BasicBlock) (s : BogusState), BB.hasNonTerminator = false →
      bogusBlock BB s = (BB, s)) ∧
    (∀ (BB : BasicBlock) (s : BogusState), BB.hasNonTerminator = true →
      ∃ k, BB.insts.findIdx (fun I => !I.isTerminator) = k ∧ k < BB.insts.length ∧
        (∀ I ∈ BB.insts.take k, I.isTerminator = true) ∧
        (∃ I, BB.insts[k]? = some I ∧ I.isTerminator = false) ∧
        (bogusBlock BB s).1.insts = BB.insts.take k ++
          [⟨s.nextId, .Alloca, .ptr, "bogus_alloca", []⟩,
           ⟨s.nextId + 1, .Store, .void, "",
             [bogusConstant s.RNG.next.2.next.2.next.2.next.1, .inst s.nextId]⟩,
           ⟨s.nextId + 2, .Load, .int 32, "bogus_load", [.inst s.nextId]⟩,
           ⟨s.nextId + 3, .Add, .int 32, "bogus_calc",
             [.inst (s.nextId + 2), .constInt 32 42]⟩] ++ BB.insts.drop k ∧
        (bogusBlock BB s).2.bogusCount = (s.bogusCount + 2) % 2 ^ 32) := by
  have harith : ∀ (nextId : Nat) (g : Mt19937),
      insertBogusArithmetic ⟨[], nextId⟩ g = (true, ⟨[], nextId⟩, g.next.2.next.2.next.2) := by
    intro nextId g
    simp [insertBogusArithmetic, bogusConstant, IRBuilder.createBinOp, foldBinOp]
  refine ⟨?_, rfl, ?_, ?_, harith, bogusBlock_skip, ?_⟩
  · have h1 := bogusFunctions_count M.functions P.RNG 0
    have h2 := bogusFunctions_count_lt M.functions P.RNG 0 (by decide)
    simp only [BogusInstructionsPass.run]
    omega
  · exact (bogusFunctions_length M.functions P.RNG 0).2
  · exact (bogusFunctions_length M.functions P.RNG 0).1
  · intro BB s h
    have hk : BB.insts.findIdx (fun I => !I.isTerminator) < BB.insts.length :=
      (findIdx_lt_of_hasNonTerminator BB).2 h
    refine ⟨_, rfl, hk, ?_, ?_, ?_, (bogusBlock_insert BB s h).2⟩
    · intro I hI
      obtain ⟨j, hj, rfl⟩ := List.getElem_of_mem hI
      simp only [List.length_take] at hj
      have hlt : j < BB.insts.findIdx (fun I => !I.isTerminator) := by omega
      have := List.not_of_lt_findIdx hlt
      simpa using this
    · refine ⟨BB.insts[BB.insts.findIdx (fun I => !I.isTerminator)], ?_, ?_⟩
      · exact List.getElem?_eq_getElem hk
      · have := @List.findIdx_getElem _ (fun I : Instruction => !I.isTerminator) BB.insts hk
        simpa using this
    · rw [(bogusBlock_insert BB s h).1, harith, (insertBogusMemory_inserted s.nextId _).1]

set_option maxRecDepth 100000 in
/-- Claim C13 on `greetModule`: one counted block, reported count 2, and the module after
the run holds the four instructions of the memory sequence before the load of `greet` and
no instruction of the arithmetic sequence: six instructions, where two inserted sequences
would make ten. -/
theorem bogus_instr_count_witness :
    2 * countedBlocks greetModule.functions < 2 ^ 32 ∧
    countedBlocks greetModule.functions = 1 ∧
    greetModule.instructionCount = 2 ∧
    ((BogusInstructionsPass.new 0).run greetModule).2 = 2 ∧
    ((BogusInstructionsPass.new 0).run greetModule).1.instructionCount = 6 ∧
    ((BogusInstructionsPass.new 0).run greetModule).1.functions.map
        (fun F => F.blocks.map (fun BB => BB.insts.map (fun I => (I.opcode, I.name))))
      = [[], [[(.Alloca, "bogus_alloca"), (.Store, ""), (.Load, "bogus_load"),
               (.Add, "bogus_calc"), (.Load, "v"), (.Ret, "")]]] :=
  ⟨by decide, by decide, by decide,
   (bogus_instr_count (BogusInstructionsPass.new 0) greetModule (by decide)).1.trans
     (by decide),
   (bogus_instr_count (BogusInstructionsPass.new 0) greetModule (by decide)).2.2.2.1.trans
     (by decide),
   by decide⟩
/-! ## Dynamic Operand Masker -/

theorem siteKey_lt (r site : Nat) (hr : r ≤ 255) : siteKey r site < 2 ^ 32 := by
  have h1 : site &&& 0xFFFF < 2 ^ 32 :=
    lt_of_le_of_lt Nat.and_le_right (by decide)
  exact Nat.xor_lt_two_pow (lt_of_le_of_lt hr (by decide)) h1

theorem finalKey_fold (B : IRBuilder) (r site : Nat) (hr : r ≤ 255) :
    B.createBinOp .Xor (.constInt 32 r) (.constInt 32 (site &&& 0xFFFF)) "" =
      (.constInt 32 (siteKey r site), B) := by
  have h1 : site &&& 0xFFFF < 2 ^ 32 :=
    lt_of_le_of_lt Nat.and_le_right (by decide)
  have h2 : r < 2 ^ 32 := lt_of_le_of_lt hr (by decide)
  simp only [IRBuilder.createBinOp, foldBinOp, siteKey, Nat.mod_eq_of_lt h1,
    Nat.mod_eq_of_lt h2]

theorem xor_masks_cancel (x ks kl : Nat) : x ^^^ ks ^^^ kl = x ↔ ks = kl := by
  rw [Nat.xor_assoc]
  constructor
  · intro h
    have h0 : x ^^^ (ks ^^^ kl) = x ^^^ 0 := by rw [h, Nat.xor_zero]
    exact Nat.xor_eq_zero.1 (Nat.xor_right_injective h0)
  · intro h
    rw [h, Nat.xor_self, Nat.xor_zero]

theorem obfuscateStore_steps (m : Machine) (store : Instruction) (v : Value)
    (g x r site n : Nat) (hso : store.operands = [v, .global g])
    (hv : m.eval v = some (.int x))
    (hty : ∀ bits c, v = .constInt bits c → bits = 32)
    (hcell : 0 < (m.mem g).length) (hr : r ≤ 255) :
    ∃ m1, m.steps (obfuscateStore store r site ⟨[], n⟩).2.inserted = some m1 ∧
      m1.mem g = (m.mem g).set 0 (x ^^^ siteKey r site) := by
  have hk := siteKey_lt r site hr
  have hcell' : (0 : Int) < ((m.mem g).length : Int) := by exact_mod_cast hcell
  cases v with
  | constInt bits c =>
    have hb := hty bits c rfl
    subst hb
    simp only [Machine.eval, Option.some.injEq, RtVal.int.injEq] at hv
    have hlt : (c % 2 ^ 32) ^^^ (siteKey r site % 2 ^ 32) < 2 ^ 32 :=
      Nat.xor_lt_two_pow (Nat.mod_lt _ (by decide)) (Nat.mod_lt _ (by decide))
    simp only [obfuscateStore, finalKey_fold _ r site hr]
    simp only [Instruction.getOperand, hso,
      List.getD_cons_zero, List.getD_cons_succ, IRBuilder.createBinOp, foldBinOp,
      IRBuilder.insert, List.nil_append, Machine.steps, Machine.step, Machine.eval,
      le_refl, hcell', and_self, if_true]
    refine ⟨_, rfl, ?_⟩
    simp only [Int.toNat_zero, if_true, Nat.mod_eq_of_lt hk, hv]
    rw [Nat.mod_eq_of_lt hk, hv] at hlt
    rw [Nat.mod_eq_of_lt hlt]
  | inst j =>
    simp only [Machine.eval] at hv
    simp only [obfuscateStore, finalKey_fold _ r site hr]
    simp only [Instruction.getOperand, hso,
      List.getD_cons_zero, List.getD_cons_succ, IRBuilder.createBinOp,
      IRBuilder.insert, List.nil_append, List.cons_append, Machine.steps, Machine.step,
      Machine.eval, hv, Machine.setReg, if_true, le_refl, hcell', and_self]
    refine ⟨_, rfl, ?_⟩
    simp only [Int.toNat_zero, if_true, Nat.mod_eq_of_lt hk]
  | global i => simp [Machine.eval] at hv
  | block i => simp [Machine.eval] at hv
  | argument i => simp [Machine.eval] at hv
  | other i => simp [Machine.eval] at hv

theorem obfuscateLoad_steps (m : Machine) (load : Instruction)
    (g y r site n : Nat) (hlo : load.operands = [.global g])
    (hcell : (m.mem g)[0]? = some y) (hr : r ≤ 255) :
    ∃ m2, m.steps (obfuscateLoad load r site ⟨[], n⟩).2.1.inserted = some m2 ∧
      m2.eval (obfuscateLoad load r site ⟨[], n⟩).2.2 = some (.int (y ^^^ siteKey r site)) := by
  have hk := siteKey_lt r site hr
  have hlen : 0 < (m.mem g).length := by
    rcases List.getElem?_eq_some_iff.1 hcell with ⟨h, _⟩
    exact h
  have hcell' : (0 : Int) < ((m.mem g).length : Int) := by exact_mod_cast hlen
  have hget : (m.mem g).getD 0 0 = y := by
    rw [List.getD_eq_getElem?_getD, hcell]
    rfl
  simp only [obfuscateLoad, finalKey_fold _ r site hr]
  simp only [Instruction.getOperand, hlo,
    List.getD_cons_zero, IRBuilder.createBinOp, IRBuilder.insert, List.nil_append,
    List.cons_append, Machine.steps, Machine.step, Machine.eval, Machine.setReg, if_true,
    le_refl, hcell', and_self, Int.toNat_zero, hget, Nat.mod_eq_of_lt hk]
  refine ⟨_, rfl, ?_⟩
  simp

theorem siteKey_mismatch (r1 s1 s2 : Nat) :
    ∃ r2, 1 ≤ r2 ∧ r2 ≤ 255 ∧ siteKey r1 s1 ≠ siteKey r2 s2 := by
  by_cases h : siteKey r1 s1 = siteKey 1 s2
  · refine ⟨2, by decide, by decide, ?_⟩
    rw [h]
    intro h2
    have h3 : (1 : Nat) ^^^ (s2 &&& 0xFFFF) = 2 ^^^ (s2 &&& 0xFFFF) := h2
    have h4 := Nat.xor_left_injective h3
    exact absurd h4 (by decide)
  · exact ⟨1, by decide, by decide, h⟩

/-- Claim C12: a store of the value `x` to the global `g`, masked at the site `ss` with the
draw `rs`, followed by a load of `g`, masked at the site `sl` with the draw `rl` (draws in
1..255, key = draw XOR (site AND 0xFFFF)): the instructions put in place of the two run to
the end, the value that replaces the load in its users is `x XOR key_s XOR key_l`, which is
`x` exactly when the two keys are equal; and whatever the two sites and the draw of the
store are, there is a draw of the load for which the keys differ. -/
theorem masked_store_load_key_mismatch (m : Machine) (store load : Instruction) (v : Value)
    (g x rs ss rl sl ns nl : Nat)
    (hso : store.operands = [v, .global g]) (hlo : load.operands = [.global g])
    (hv : m.eval v = some (.int x)) (hty : ∀ bits c, v = .constInt bits c → bits = 32)
    (hcell : 0 < (m.mem g).length)
    (hrs : 1 ≤ rs ∧ rs ≤ 255) (hrl : 1 ≤ rl ∧ rl ≤ 255) :
    (∃ m1 m2,
      m.steps (obfuscateStore store rs ss ⟨[], ns⟩).2.inserted = some m1 ∧
      m1.steps (obfuscateLoad load rl sl ⟨[], nl⟩).2.1.inserted = some m2 ∧
      m2.eval (obfuscateLoad load rl sl ⟨[], nl⟩).2.2 =
        some (.int (x ^^^ siteKey rs ss ^^^ siteKey rl sl)) ∧
      ∀ (user : Instruction) (i : Nat), user.operands[i]? = some (.inst load.id) →
        ((user.replaceUsesOfWith (.inst load.id)
            (obfuscateLoad load rl sl ⟨[], nl⟩).2.2).operands[i]?).bind m2.eval =
          some (.int (x ^^^ siteKey rs ss ^^^ siteKey rl sl))) ∧
    (x ^^^ siteKey rs ss ^^^ siteKey rl sl = x ↔ siteKey rs ss = siteKey rl sl) ∧
    (∀ r1 s1 s2 : Nat, ∃ r2, 1 ≤ r2 ∧ r2 ≤ 255 ∧ siteKey r1 s1 ≠ siteKey r2 s2) := by
  refine ⟨?_, xor_masks_cancel x _ _, siteKey_mismatch⟩
  obtain ⟨m1, h1, hmem⟩ := obfuscateStore_steps m store v g x rs ss ns hso hv hty hcell hrs.2
  have hc : (m1.mem g)[0]? = some (x ^^^ siteKey rs ss) := by
    rw [hmem, List.getElem?_set_self hcell]
  obtain ⟨m2, h2, he⟩ := obfuscateLoad_steps m1 load g _ rl sl nl hlo hc hrl.2
  refine ⟨m1, m2, h1, h2, he, ?_⟩
  intro user i hi
  simp only [Instruction.replaceUsesOfWith, List.getElem?_map, hi, Option.map_some',
    if_true, Option.some_bind]
  exact he

/-- Claim C12 on a store of 5 to a global followed by its load, with the draws 1 and 2 at
two sites with the same low address bits: the users of the load read 6. -/
theorem masked_store_load_key_mismatch_witness :
    (5 ^^^ siteKey 1 0x5000 ^^^ siteKey 2 0x15000 = 6 ∧ siteKey 1 0x5000 ≠ siteKey 2 0x15000) ∧
    ∃ m1 m2 : Machine,
      (⟨fun _ => none, fun _ => none, fun _ => [0]⟩ : Machine).steps
        (obfuscateStore ⟨0, .Store, .void, "", [.constInt 32 5, .global 0]⟩ 1 0x5000
          ⟨[], 2⟩).2.inserted = some m1 ∧
      m1.steps (obfuscateLoad ⟨1, .Load, .int 32, "x", [.global 0]⟩ 2 0x15000
          ⟨[], 3⟩).2.1.inserted = some m2 ∧
      m2.eval (obfuscateLoad ⟨1, .Load, .int 32, "x", [.global 0]⟩ 2 0x15000 ⟨[], 3⟩).2.2 =
        some (.int 6) := by
  refine ⟨by decide, ?_⟩
  obtain ⟨m1, m2, h1, h2, h3, _⟩ :=
    (masked_store_load_key_mismatch ⟨fun _ => none, fun _ => none, fun _ => [0]⟩
      ⟨0, .Store, .void, "", [.constInt 32 5, .global 0]⟩
      ⟨1, .Load, .int 32, "x", [.global 0]⟩ (.constInt 32 5) 0 5 1 0x5000 2 0x15000 2 3
      rfl rfl rfl (by intro bits c h; injection h with hb _; exact hb.symm) (by decide)
      (by decide) (by decide)).1
  exact ⟨m1, m2, h1, h2, h3⟩
/-! ## Blocks up to the incoming blocks of PHI nodes -/

theorem blank_opcode (I : Instruction) : I.blankIncoming.opcode = I.opcode := by
  unfold Instruction.blankIncoming
  split <;> rfl

theorem blank_id (I : Instruction) : I.blankIncoming.id = I.id := by
  unfold Instruction.blankIncoming
  split <;> rfl

theorem blank_isTerminator (I : Instruction) :
    I.blankIncoming.isTerminator = I.isTerminator := by
  unfold Instruction.isTerminator
  rw [blank_opcode]

theorem blank_isPHI (I : Instruction) : I.blankIncoming.isPHI = I.isPHI := by
  unfold Instruction.isPHI
  rw [blank_opcode]

theorem blank_isEHPad (I : Instruction) : I.blankIncoming.isEHPad = I.isEHPad := by
  unfold Instruction.isEHPad
  rw [blank_opcode]

theorem blank_of_not_phi (I : Instruction) (h : I.isPHI = false) : I.blankIncoming = I := by
  unfold Instruction.blankIncoming
  rw [h]
  rfl

theorem blank_of_terminator (I : Instruction) (h : I.isTerminator = true) :
    I.blankIncoming = I := by
  apply blank_of_not_phi
  cases hp : I.isPHI with
  | false => rfl
  | true =>
    have := phi_not_terminator I hp
    rw [h] at this
    exact absurd this (by decide)

theorem blank_redirect (I : Instruction) (o n : Nat) (h : I.isPHI = true) :
    (I.replaceIncomingBlockWith o n).blankIncoming = I.blankIncoming := by
  have h2 : (I.replaceIncomingBlockWith o n).isPHI = true := h
  unfold Instruction.blankIncoming
  rw [h, h2]
  simp only [if_true, Instruction.replaceIncomingBlockWith, List.map_map]
  congr 1
  apply List.map_congr_left
  intro v _
  simp only [Function.comp]
  by_cases hv : v = .block o
  · rw [if_pos hv, hv]
  · rw [if_neg hv]

theorem blank_getTerminator (BB : BasicBlock) :
    BB.blankIncoming.getTerminator = BB.getTerminator := by
  simp only [BasicBlock.getTerminator, BasicBlock.blankIncoming, List.getLast?_map]
  cases h : BB.insts.getLast? with
  | none => rfl
  | some x =>
    simp only [Option.map_some', blank_isTerminator]
    by_cases ht : x.isTerminator = true
    · rw [if_pos ht, if_pos ht, blank_of_terminator x ht]
    · rw [if_neg ht, if_neg ht]

theorem redirectPhis_blank (succs : List Nat) (o n : Nat) (S : BasicBlock) :
    (redirectPhis succs o n S).blankIncoming = S.blankIncoming := by
  unfold redirectPhis
  split
  · simp only [BasicBlock.blankIncoming, List.map_append, List.map_map]
    have h1 : (S.insts.takeWhile (fun I => I.isPHI)).map
        ((fun I : Instruction => I.blankIncoming) ∘
          fun I : Instruction => I.replaceIncomingBlockWith o n)
        = (S.insts.takeWhile (fun I => I.isPHI)).map (fun I : Instruction => I.blankIncoming) := by
      apply List.map_congr_left
      intro I hI
      exact blank_redirect I o n (List.mem_takeWhile_imp hI)
    rw [h1, ← List.map_append, List.takeWhile_append_dropWhile]
  · rfl

theorem map_redirectPhis_blank (succs : List Nat) (o n : Nat) (l : List BasicBlock) :
    (replaceSuccessorsPhiUsesWith l succs o n).map (fun B => B.blankIncoming) =
      l.map (fun B => B.blankIncoming) := by
  simp only [replaceSuccessorsPhiUsesWith, List.map_map]
  apply List.map_congr_left
  intro B _
  exact redirectPhis_blank succs o n B

theorem map_redirect_blank (succs : List Nat) (o n : Nat) (l : List BasicBlock) :
    (l.map (redirectPhis succs o n)).map (fun B => B.blankIncoming) =
      l.map (fun B => B.blankIncoming) :=
  map_redirectPhis_blank succs o n l

theorem blank_eq_id {B B' : BasicBlock} (h : B.blankIncoming = B'.blankIncoming) :
    B.id = B'.id := by
  have := congrArg BasicBlock.id h
  exact this

theorem blank_eq_name {B B' : BasicBlock} (h : B.blankIncoming = B'.blankIncoming) :
    B.name = B'.name := by
  have := congrArg BasicBlock.name h
  exact this

theorem blank_eq_insts {B B' : BasicBlock} (h : B.blankIncoming = B'.blankIncoming) :
    B.insts.map (fun I => I.blankIncoming) = B'.insts.map (fun I => I.blankIncoming) :=
  congrArg BasicBlock.insts h

theorem blank_eq_length {B B' : BasicBlock} (h : B.blankIncoming = B'.blankIncoming) :
    B.insts.length = B'.insts.length := by
  have := congrArg List.length (blank_eq_insts h)
  simpa using this

theorem blank_eq_getTerminator {B B' : BasicBlock} (h : B.blankIncoming = B'.blankIncoming) :
    B.getTerminator = B'.getTerminator := by
  rw [← blank_getTerminator B, h, blank_getTerminator]

theorem splitPosition_blank : ∀ (l : List Instruction) (sp : Nat),
    splitPosition (l.map (fun I => I.blankIncoming)) sp = splitPosition l sp
  | [], _ => rfl
  | I :: rest, 0 => by
    simp only [List.map_cons, splitPosition, blank_isPHI, blank_isEHPad,
      splitPosition_blank rest 0]
  | I :: rest, sp + 1 => by
    simp only [List.map_cons, splitPosition, splitPosition_blank rest sp]

theorem blank_eq_splitPosition {B B' : BasicBlock} (h : B.blankIncoming = B'.blankIncoming)
    (sp : Nat) : splitPosition B.insts sp = splitPosition B'.insts sp := by
  rw [← splitPosition_blank B.insts, blank_eq_insts h, splitPosition_blank]

/-! ## Opaque Predicate Inserter -/

theorem redirectPhis_length (succs : List Nat) (o n : Nat) (S : BasicBlock) :
    (redirectPhis succs o n S).insts.length = S.insts.length :=
  blank_eq_length (redirectPhis_blank succs o n S)

theorem reach_trans {succ : Nat → List Nat} {a b c : Nat} (h1 : Reach succ a b)
    (h2 : Reach succ b c) : Reach succ a c := by
  induction h1 with
  | refl a => exact h2
  | step a b c' hab _ ih => exact Reach.step a b c hab (ih h2)

theorem getTerminator_isTerminator (BB : BasicBlock) (t : Instruction)
    (h : BB.getTerminator = some t) : t.isTerminator = true := by
  unfold BasicBlock.getTerminator at h
  cases hl : BB.insts.getLast? with
  | none => simp [hl] at h
  | some x =>
    simp only [hl] at h
    by_cases hx : x.isTerminator = true
    · simp only [hx, if_true, Option.some.injEq] at h
      rw [← h]
      exact hx
    · simp [hx] at h

theorem splitBlock_unsplit (BB : BasicBlock) (nb br ph : Nat) (h : BB.insts.length ≤ 5) :
    splitBlock BB nb br ph = .unsplit := by
  unfold splitBlock
  have h1 : BB.insts.length / 3 < 2 := by omega
  simp only [if_pos h1]

theorem splitBlock_split (BB : BasicBlock) (nb br ph k : Nat) (t : Instruction)
    (h6 : 6 ≤ BB.insts.length) (ht : BB.getTerminator = some t)
    (hk : splitPosition BB.insts (BB.insts.length / 3) = some k) :
    splitBlock BB nb br ph =
      .split ⟨BB.id, BB.name, BB.insts.take k ++ [branchTo br nb]⟩
        ⟨nb, BB.name ++ "_split", bogusPhi ph BB.id :: BB.insts.drop k⟩ := by
  obtain ⟨_, hk2⟩ := splitPosition_bounds _ _ _ hk
  unfold splitBlock
  have h1 : ¬ BB.insts.length / 3 < 2 := by omega
  have h2 : ¬ BB.insts.length / 3 ≥ BB.insts.length := by omega
  have hfirst : (⟨BB.id, BB.name, BB.insts.take k ++ [branchTo br nb]⟩ :
      BasicBlock).getTerminator.isSome = true := by
    rw [getTerminator_snoc]
    simp [branchTo, Instruction.isTerminator]
  have hmoved : (BB.insts.drop k).isEmpty = false := by
    cases hd : BB.insts.drop k with
    | nil =>
      have := congrArg List.length hd
      simp only [List.length_drop, List.length_nil] at this
      omega
    | cons a l => rfl
  simp only [if_neg h1, if_neg h2, hk, ht, hfirst, if_true, addBogusPhiNodes, hmoved,
    Bool.false_eq_true, if_false]

theorem splitBlock_aborted (BB : BasicBlock) (nb br ph : Nat) (h6 : 6 ≤ BB.insts.length)
    (h : BB.getTerminator = none ∨ splitPosition BB.insts (BB.insts.length / 3) = none) :
    splitBlock BB nb br ph = .aborted := by
  unfold splitBlock
  have h1 : ¬ BB.insts.length / 3 < 2 := by omega
  have h2 : ¬ BB.insts.length / 3 ≥ BB.insts.length := by omega
  simp only [if_neg h1, if_neg h2]
  rcases h with h | h
  · rw [h]
    cases splitPosition BB.insts (BB.insts.length / 3) <;> rfl
  · rw [h]

/-- The host's position exists when the block ends in an instruction that is neither a PHI
node nor an exception-handling pad. -/
theorem splitPosition_isSome : ∀ (insts : List Instruction) (sp : Nat) (t : Instruction),
    insts.getLast? = some t → (t.isPHI || t.isEHPad) = false → sp < insts.length →
    ∃ k, splitPosition insts sp = some k
  | [], _, _, _, _, h => by simp at h
  | I :: rest, 0, t, hl, ht, _ => by
    simp only [splitPosition]
    by_cases hI : (I.isPHI || I.isEHPad) = true
    · rw [if_pos hI]
      cases rest with
      | nil =>
        simp only [List.getLast?_singleton, Option.some.injEq] at hl
        subst hl
        rw [ht] at hI
        exact absurd hI (by decide)
      | cons J rest' =>
        have hl' : (J :: rest').getLast? = some t := by
          rw [List.getLast?_cons_cons] at hl
          exact hl
        obtain ⟨k, hk⟩ := splitPosition_isSome (J :: rest') 0 t hl' ht (by simp)
        exact ⟨k + 1, by rw [hk]; rfl⟩
    · rw [if_neg hI]
      exact ⟨0, rfl⟩
  | I :: rest, sp + 1, t, hl, ht, hsp => by
    simp only [splitPosition]
    have hlen : sp < rest.length := by simpa using hsp
    cases rest with
    | nil => simp at hlen
    | cons J rest' =>
      have hl' : (J :: rest').getLast? = some t := by
        rw [List.getLast?_cons_cons] at hl
        exact hl
      obtain ⟨k, hk⟩ := splitPosition_isSome (J :: rest') sp t hl' ht hlen
      exact ⟨k + 1, by rw [hk]; rfl⟩

/-- The host's position is the first one at or after the requested one whose instruction is
neither a PHI node nor an exception-handling pad. -/
theorem splitPosition_first : ∀ (insts : List Instruction) (sp k : Nat),
    splitPosition insts sp = some k →
    (∀ j, sp ≤ j → j < k → ∃ I, insts[j]? = some I ∧ (I.isPHI || I.isEHPad) = true) ∧
    ∃ I, insts[k]? = some I ∧ (I.isPHI || I.isEHPad) = false
  | [], _, _, h => by simp [splitPosition] at h
  | I :: rest, 0, k, h => by
    simp only [splitPosition] at h
    by_cases hI : (I.isPHI || I.isEHPad) = true
    · rw [if_pos hI] at h
      simp only [Option.map_eq_some'] at h
      obtain ⟨j, hj, rfl⟩ := h
      obtain ⟨h1, h2⟩ := splitPosition_first rest 0 j hj
      refine ⟨?_, ?_⟩
      · intro i _ hi
        cases i with
        | zero => exact ⟨I, List.getElem?_cons_zero, hI⟩
        | succ i' =>
          simp only [List.getElem?_cons_succ]
          exact h1 i' (Nat.zero_le _) (by omega)
      · simpa using h2
    · rw [if_neg hI] at h
      simp only [Option.some.injEq] at h
      subst h
      refine ⟨fun j _ hj => absurd hj (by omega), I, List.getElem?_cons_zero, ?_⟩
      simpa using hI
  | I :: rest, sp + 1, k, h => by
    simp only [splitPosition, Option.map_eq_some'] at h
    obtain ⟨j, hj, rfl⟩ := h
    obtain ⟨h1, h2⟩ := splitPosition_first rest sp j hj
    refine ⟨?_, ?_⟩
    · intro i hi1 hi2
      cases i with
      | zero => omega
      | succ i' =>
        simp only [List.getElem?_cons_succ]
        exact h1 i' (by omega) (by omega)
    · simpa using h2

theorem getTerminator_last (BB : BasicBlock) (t : Instruction) (h : BB.getTerminator = some t) :
    BB.insts.getLast? = some t := by
  unfold BasicBlock.getTerminator at h
  cases hl : BB.insts.getLast? with
  | none => simp [hl] at h
  | some x =>
    simp only [hl] at h
    by_cases hx : x.isTerminator = true
    · simp only [hx, if_true, Option.some.injEq] at h
      rw [h]
    · simp [hx] at h

/-- A block of at least 6 instructions that ends in a terminator other than an
exception-handling pad is split by the routine. -/
theorem splitBlock_of_wf (BB : BasicBlock) (nb br ph : Nat) (t : Instruction)
    (h6 : 6 ≤ BB.insts.length) (ht : BB.getTerminator = some t) (hEH : t.isEHPad = false) :
    ∃ k, splitPosition BB.insts (BB.insts.length / 3) = some k ∧
      splitBlock BB nb br ph =
        .split ⟨BB.id, BB.name, BB.insts.take k ++ [branchTo br nb]⟩
          ⟨nb, BB.name ++ "_split", bogusPhi ph BB.id :: BB.insts.drop k⟩ := by
  have hphi : t.isPHI = false := by
    cases hp : t.isPHI with
    | false => rfl
    | true =>
      have h1 := phi_not_terminator t hp
      have h2 := getTerminator_isTerminator BB t ht
      rw [h1] at h2
      exact absurd h2 (by decide)
  obtain ⟨k, hk⟩ := splitPosition_isSome BB.insts (BB.insts.length / 3) t
    (getTerminator_last BB t ht) (by rw [hphi, hEH]; rfl) (by omega)
  exact ⟨k, hk, splitBlock_split BB nb br ph k t h6 ht hk⟩

theorem splitBlock_congr {B B' : BasicBlock} (h : B.blankIncoming = B'.blankIncoming)
    (nb br ph : Nat) :
    (splitBlock B nb br ph = .unsplit ∧ splitBlock B' nb br ph = .unsplit) ∨
    (splitBlock B nb br ph = .aborted ∧ splitBlock B' nb br ph = .aborted) ∨
    ∃ f s f' s', splitBlock B nb br ph = .split f s ∧ splitBlock B' nb br ph = .split f' s' ∧
      f.blankIncoming = f'.blankIncoming ∧ s.blankIncoming = s'.blankIncoming := by
  have hlen := blank_eq_length h
  have hterm := blank_eq_getTerminator h
  have hpos := blank_eq_splitPosition h (B.insts.length / 3)
  by_cases h5 : B.insts.length ≤ 5
  · exact Or.inl ⟨splitBlock_unsplit B nb br ph h5,
      splitBlock_unsplit B' nb br ph (by rw [← hlen]; exact h5)⟩
  · have h6 : 6 ≤ B.insts.length := by omega
    have h6' : 6 ≤ B'.insts.length := by rw [← hlen]; exact h6
    right
    cases ht : B.getTerminator with
    | none =>
      exact Or.inl ⟨splitBlock_aborted B nb br ph h6 (Or.inl ht),
        splitBlock_aborted B' nb br ph h6' (Or.inl (by rw [← hterm]; exact ht))⟩
    | some t =>
      cases hk : splitPosition B.insts (B.insts.length / 3) with
      | none =>
        exact Or.inl ⟨splitBlock_aborted B nb br ph h6 (Or.inr hk),
          splitBlock_aborted B' nb br ph h6' (Or.inr (by rw [← hlen, ← hpos]; exact hk))⟩
      | some k =>
        right
        refine ⟨_, _, _, _, splitBlock_split B nb br ph k t h6 ht hk,
          splitBlock_split B' nb br ph k t h6' (by rw [← hterm]; exact ht)
            (by rw [← hlen, ← hpos]; exact hk), ?_, ?_⟩
        · simp only [BasicBlock.blankIncoming, List.map_append, List.map_take,
            blank_eq_insts h, blank_eq_id h, blank_eq_name h]
        · simp only [BasicBlock.blankIncoming, List.map_cons, List.map_drop,
            blank_eq_insts h, blank_eq_id h, blank_eq_name h]

theorem splitEach_blank : ∀ (l l' : List BasicBlock) (nb ni : Nat),
    l.map (fun B => B.blankIncoming) = l'.map (fun B => B.blankIncoming) →
    (splitEach l nb ni).map (fun B => B.blankIncoming) =
      (splitEach l' nb ni).map (fun B => B.blankIncoming)
  | [], [], _, _, _ => rfl
  | [], _ :: _, _, _, h => by simp at h
  | _ :: _, [], _, _, h => by simp at h
  | BB :: rest, BB' :: rest', nb, ni, h => by
    simp only [List.map_cons, List.cons.injEq] at h
    obtain ⟨hB, hrest⟩ := h
    have hlen := blank_eq_length hB
    unfold splitEach
    rw [← hlen]
    by_cases h4 : BB.insts.length > 4
    · rw [if_pos h4, if_pos h4]
      rcases splitBlock_congr hB nb ni (ni + 1) with ⟨h1, h2⟩ | ⟨h1, h2⟩ | ⟨f, s, f', s', h1, h2, hf, hs⟩
      · rw [h1, h2]
        simp only [List.map_cons]
        rw [hB, splitEach_blank rest rest' nb ni hrest]
      · rw [h1, h2]
        simp only [List.map_cons]
        rw [hB, splitEach_blank rest rest' nb ni hrest]
      · rw [h1, h2]
        simp only [List.map_cons]
        rw [hf, hs, splitEach_blank rest rest' (nb + 1) (ni + 2) hrest]
    · rw [if_neg h4, if_neg h4]
      simp only [List.map_cons]
      rw [hB, splitEach_blank rest rest' nb ni hrest]

/-! ### Fresh identities after a split -/

theorem foldl_max_ge {α : Type} (g : α → Nat) : ∀ (l : List α) (a : Nat),
    a ≤ l.foldl (fun b x => max b (g x)) a ∧ ∀ x ∈ l, g x ≤ l.foldl (fun b x => max b (g x)) a
  | [], a => by simp
  | y :: rest, a => by
    obtain ⟨h1, h2⟩ := foldl_max_ge g rest (max a (g y))
    simp only [List.foldl_cons, List.mem_cons]
    refine ⟨by omega, ?_⟩
    intro x hx
    rcases hx with hx | hx
    · subst hx
      omega
    · exact h2 x hx

theorem foldl_max_le {α : Type} (g : α → Nat) (M : Nat) : ∀ (l : List α) (a : Nat),
    a ≤ M → (∀ x ∈ l, g x ≤ M) → l.foldl (fun b x => max b (g x)) a ≤ M
  | [], a, ha, _ => by simpa using ha
  | y :: rest, a, ha, hall => by
    simp only [List.foldl_cons]
    apply foldl_max_le g M rest
    · have := hall y (List.mem_cons_self _ _)
      omega
    · exact fun x hx => hall x (List.mem_cons_of_mem _ hx)

theorem freshId_fold_ge : ∀ (blocks : List BasicBlock) (a : Nat),
    a ≤ blocks.foldl (fun a BB => BB.insts.foldl (fun b I => max b (I.id + 1)) a) a ∧
    ∀ BB ∈ blocks, ∀ I ∈ BB.insts,
      I.id + 1 ≤ blocks.foldl (fun a BB => BB.insts.foldl (fun b I => max b (I.id + 1)) a) a
  | [], a => by simp
  | Y :: rest, a => by
    obtain ⟨h1, h2⟩ := freshId_fold_ge rest (Y.insts.foldl (fun b I => max b (I.id + 1)) a)
    obtain ⟨h3, h4⟩ := foldl_max_ge (fun I : Instruction => I.id + 1) Y.insts a
    simp only [List.foldl_cons, List.mem_cons]
    refine ⟨le_trans h3 h1, ?_⟩
    intro BB hBB I hI
    rcases hBB with hBB | hBB
    · subst hBB
      exact le_trans (h4 I hI) h1
    · exact h2 BB hBB I hI

theorem freshId_fold_le (M : Nat) : ∀ (blocks : List BasicBlock) (a : Nat),
    a ≤ M → (∀ BB ∈ blocks, ∀ I ∈ BB.insts, I.id + 1 ≤ M) →
    blocks.foldl (fun a BB => BB.insts.foldl (fun b I => max b (I.id + 1)) a) a ≤ M
  | [], a, ha, _ => by simpa using ha
  | Y :: rest, a, ha, hall => by
    simp only [List.foldl_cons]
    apply freshId_fold_le M rest
    · exact foldl_max_le (fun I : Instruction => I.id + 1) M Y.insts a ha
        (hall Y (List.mem_cons_self _ _))
    · exact fun BB hBB => hall BB (List.mem_cons_of_mem _ hBB)

theorem freshId_gt (F : Function) : ∀ BB ∈ F.blocks, ∀ I ∈ BB.insts, I.id < F.freshId :=
  fun BB hBB I hI => (freshId_fold_ge F.blocks 0).2 BB hBB I hI

theorem freshId_eq (F : Function) (M : Nat)
    (hall : ∀ BB ∈ F.blocks, ∀ I ∈ BB.insts, I.id + 1 ≤ M)
    (hatt : ∃ BB ∈ F.blocks, ∃ I ∈ BB.insts, I.id + 1 = M) : F.freshId = M := by
  apply le_antisymm
  · exact freshId_fold_le M F.blocks 0 (Nat.zero_le _) hall
  · obtain ⟨BB, hBB, I, hI, hM⟩ := hatt
    rw [← hM]
    exact (freshId_fold_ge F.blocks 0).2 BB hBB I hI

theorem freshBlockId_eq (F : Function) (M : Nat)
    (hall : ∀ BB ∈ F.blocks, BB.id + 1 ≤ M)
    (hatt : ∃ BB ∈ F.blocks, BB.id + 1 = M) : F.freshBlockId = M := by
  apply le_antisymm
  · exact foldl_max_le (fun BB : BasicBlock => BB.id + 1) M F.blocks 0 (Nat.zero_le _) hall
  · obtain ⟨BB, hBB, hM⟩ := hatt
    rw [← hM]
    exact (foldl_max_ge (fun BB : BasicBlock => BB.id + 1) F.blocks 0).2 BB hBB

theorem redirectPhis_ids (succs : List Nat) (o n : Nat) (S : BasicBlock) :
    (redirectPhis succs o n S).insts.map (fun I => I.id) = S.insts.map (fun I => I.id) := by
  have := congrArg (List.map (fun p : Nat × Opcode × String => p.1))
    (redirectPhis_shape succs o n S)
  simpa [List.map_map, Function.comp_def] using this

theorem redirectPhis_mem_id (succs : List Nat) (o n : Nat) (S : BasicBlock) (i : Nat) :
    (∃ I ∈ (redirectPhis succs o n S).insts, I.id = i) ↔ ∃ I ∈ S.insts, I.id = i := by
  have h := redirectPhis_ids succs o n S
  constructor
  · intro ⟨I, hI, hi⟩
    have : i ∈ (redirectPhis succs o n S).insts.map (fun I => I.id) :=
      List.mem_map.2 ⟨I, hI, hi⟩
    rw [h] at this
    exact List.mem_map.1 this
  · intro ⟨I, hI, hi⟩
    have : i ∈ S.insts.map (fun I => I.id) := List.mem_map.2 ⟨I, hI, hi⟩
    rw [← h] at this
    exact List.mem_map.1 this

theorem findBlock_at (F : Function) (done rest : List BasicBlock) (BB : BasicBlock)
    (hF : F.blocks = done ++ BB :: rest)
    (hnd : (F.blocks.map (fun B => B.id)).Nodup) :
    F.findBlock BB.id = some BB ∧ ∀ X ∈ done, X.id ≠ BB.id := by
  have hdone : ∀ X ∈ done, X.id ≠ BB.id := by
    intro X hX hid
    rw [hF, List.map_append, List.map_cons] at hnd
    have h1 := (List.nodup_middle.1 hnd)
    rw [List.nodup_cons] at h1
    apply h1.1
    rw [List.mem_append]
    left
    rw [← hid]
    exact List.mem_map.2 ⟨X, hX, rfl⟩
  refine ⟨?_, hdone⟩
  unfold Function.findBlock
  rw [hF, List.find?_append]
  have hnone : done.find? (fun B => B.id == BB.id) = none := by
    rw [List.find?_eq_none]
    intro X hX
    simpa using hdone X hX
  rw [hnone]
  simp

/-- One split inside a function: the result of the routine, the blocks afterwards and the
next fresh identities. -/
theorem splitBasicBlock_step (F : Function) (done rest : List BasicBlock) (BB : BasicBlock)
    (t : Instruction) (k : Nat) (first second : BasicBlock)
    (hfirst : first = ⟨BB.id, BB.name, BB.insts.take k ++ [branchTo F.freshId F.freshBlockId]⟩)
    (hsecond : second = ⟨F.freshBlockId, BB.name ++ "_split",
      bogusPhi (F.freshId + 1) BB.id :: BB.insts.drop k⟩)
    (hF : F.blocks = done ++ BB :: rest)
    (hnd : (F.blocks.map (fun B => B.id)).Nodup)
    (h6 : 6 ≤ BB.insts.length) (ht : BB.getTerminator = some t)
    (hk : splitPosition BB.insts (BB.insts.length / 3) = some k) :
    ∃ F1, BasicBlockSplit.splitBasicBlock F BB.id = some (F1, true) ∧
      F1.blocks =
        (done ++ [first, second]).map (redirectPhis t.successors BB.id F.freshBlockId) ++
        rest.map (redirectPhis t.successors BB.id F.freshBlockId) ∧
      F1.name = F.name ∧ F1.linkage = F.linkage ∧
      F1.freshBlockId = F.freshBlockId + 1 ∧ F1.freshId = F.freshId + 2 ∧
      (F1.blocks.map (fun B => B.id)).Nodup := by
  obtain ⟨hfind, hdone⟩ := findBlock_at F done rest BB hF hnd
  have hsplit : splitBlock BB F.freshBlockId F.freshId (F.freshId + 1) = .split first second := by
    rw [hfirst, hsecond]
    exact splitBlock_split BB F.freshBlockId F.freshId (F.freshId + 1) k t h6 ht hk
  have hrep := replaceBlock_at done rest [first, second] BB BB.id hdone rfl
  have hfid : first.id = BB.id := by rw [hfirst]
  have hsid : second.id = F.freshBlockId := by rw [hsecond]
  have hblocks : replaceSuccessorsPhiUsesWith (replaceBlock F.blocks BB.id [first, second])
      t.successors BB.id F.freshBlockId =
      (done ++ [first, second]).map (redirectPhis t.successors BB.id F.freshBlockId) ++
        rest.map (redirectPhis t.successors BB.id F.freshBlockId) := by
    rw [hF, hrep]
    simp only [replaceSuccessorsPhiUsesWith, List.map_append]
  have hmemF : ∀ X, X ∈ done ∨ X ∈ rest → X ∈ F.blocks := by
    intro X hX
    rw [hF]
    rcases hX with h | h
    · exact List.mem_append_left _ h
    · exact List.mem_append_right _ (List.mem_cons_of_mem _ h)
  have hBBF : BB ∈ F.blocks := by
    rw [hF]
    exact List.mem_append_right _ (List.mem_cons_self _ _)
  refine ⟨⟨F.name, F.linkage, replaceSuccessorsPhiUsesWith
      (replaceBlock F.blocks BB.id [first, second]) t.successors BB.id F.freshBlockId⟩,
    ?_, hblocks, rfl, rfl, ?_, ?_, ?_⟩
  · unfold BasicBlockSplit.splitBasicBlock
    rw [hfind]
    simp only [hsplit, ht, hsid]
  · apply freshBlockId_eq
    · intro X hX
      simp only [hblocks, List.mem_append, List.mem_map, List.mem_cons, List.mem_singleton,
        List.not_mem_nil, or_false] at hX
      rcases hX with ⟨Y, hY, rfl⟩ | ⟨Y, hY, rfl⟩
      · rw [redirectPhis_id]
        rcases hY with hY | hY | hY
        · have := freshBlockId_gt F Y (hmemF Y (Or.inl hY))
          omega
        · subst hY
          have := freshBlockId_gt F BB hBBF
          rw [hfid]
          omega
        · subst hY
          rw [hsid]
      · rw [redirectPhis_id]
        have := freshBlockId_gt F Y (hmemF Y (Or.inr hY))
        omega
    · refine ⟨redirectPhis t.successors BB.id F.freshBlockId second, ?_, ?_⟩
      · simp only [hblocks, List.mem_append, List.mem_map]
        left
        exact ⟨second, by simp, rfl⟩
      · rw [redirectPhis_id, hsid]
  · apply freshId_eq
    · intro X hX I hI
      simp only [hblocks, List.mem_append, List.mem_map, List.mem_cons, List.mem_singleton,
        List.not_mem_nil, or_false] at hX
      have hold : ∀ Y, Y ∈ F.blocks → (∃ J ∈ Y.insts, J.id = I.id) → I.id + 1 ≤ F.freshId + 2 := by
        intro Y hY ⟨J, hJ, hJI⟩
        have := freshId_gt F Y hY J hJ
        omega
      rcases hX with ⟨Y, hY, rfl⟩ | ⟨Y, hY, rfl⟩
      · have hmem := (redirectPhis_mem_id t.successors BB.id F.freshBlockId Y I.id).1 ⟨I, hI, rfl⟩
        rcases hY with hY | hY | hY
        · exact hold Y (hmemF Y (Or.inl hY)) hmem
        · subst hY
          obtain ⟨J, hJ, hJI⟩ := hmem
          rw [hfirst] at hJ
          simp only [List.mem_append, List.mem_singleton] at hJ
          rcases hJ with hJ | hJ
          · exact hold BB hBBF ⟨J, List.mem_of_mem_take hJ, hJI⟩
          · subst hJ
            simp only [branchTo] at hJI
            omega
        · subst hY
          obtain ⟨J, hJ, hJI⟩ := hmem
          rw [hsecond] at hJ
          simp only [List.mem_cons] at hJ
          rcases hJ with hJ | hJ
          · subst hJ
            simp only [bogusPhi] at hJI
            omega
          · exact hold BB hBBF ⟨J, List.mem_of_mem_drop hJ, hJI⟩
      · have hmem := (redirectPhis_mem_id t.successors BB.id F.freshBlockId Y I.id).1 ⟨I, hI, rfl⟩
        exact hold Y (hmemF Y (Or.inr hY)) hmem
    · have hphi := (redirectPhis_mem_id t.successors BB.id F.freshBlockId second
        (F.freshId + 1)).2 ⟨bogusPhi (F.freshId + 1) BB.id, by rw [hsecond]; simp, rfl⟩
      obtain ⟨I, hI, hid⟩ := hphi
      refine ⟨redirectPhis t.successors BB.id F.freshBlockId second, ?_, I, hI, by omega⟩
      simp only [hblocks, List.mem_append, List.mem_map]
      left
      exact ⟨second, by simp, rfl⟩
  · have hids : (replaceSuccessorsPhiUsesWith (replaceBlock F.blocks BB.id [first, second])
        t.successors BB.id F.freshBlockId).map (fun B => B.id) =
        done.map (fun B => B.id) ++ BB.id :: F.freshBlockId :: rest.map (fun B => B.id) := by
      rw [hblocks]
      simp [List.map_map, Function.comp_def, redirectPhis_id, hfid, hsid]
    show (List.map (fun B => B.id) (replaceSuccessorsPhiUsesWith
      (replaceBlock F.blocks BB.id [first, second]) t.successors BB.id F.freshBlockId)).Nodup
    rw [hids]
    have hfresh : F.freshBlockId ∉ F.blocks.map (fun B => B.id) := by
      intro hmem
      obtain ⟨X, hX, hXid⟩ := List.mem_map.1 hmem
      have := freshBlockId_gt F X hX
      omega
    rw [hF, List.map_append, List.map_cons] at hnd hfresh
    rw [List.nodup_middle] at hnd ⊢
    rw [List.nodup_cons] at hnd ⊢
    refine ⟨?_, ?_⟩
    · intro hmem
      rw [List.mem_append, List.mem_cons] at hmem
      apply hnd.1
      rw [List.mem_append]
      rcases hmem with h | h | h
      · exact Or.inl h
      · exfalso
        apply hfresh
        rw [List.mem_append, List.mem_cons]
        exact Or.inr (Or.inl h.symm)
      · exact Or.inr h
    · rw [List.nodup_middle, List.nodup_cons]
      refine ⟨?_, hnd.2⟩
      intro hmem
      apply hfresh
      rw [List.mem_append] at hmem
      rw [List.mem_append, List.mem_cons]
      rcases hmem with h | h
      · exact Or.inl h
      · exact Or.inr (Or.inr h)

theorem filter_ids_redirect (succs : List Nat) (o n : Nat) : ∀ (l : List BasicBlock),
    ((l.map (redirectPhis succs o n)).filter (fun BB => BB.insts.length > 4)).map (fun BB => BB.id)
      = (l.filter (fun BB => BB.insts.length > 4)).map (fun BB => BB.id)
  | [] => rfl
  | B :: rest => by
    simp only [List.map_cons, List.filter_cons, redirectPhis_length]
    by_cases h : B.insts.length > 4
    · simp only [h, decide_True, if_true, List.map_cons, redirectPhis_id,
        filter_ids_redirect succs o n rest]
    · simp only [h, decide_False, Bool.false_eq_true, if_false,
        filter_ids_redirect succs o n rest]

theorem any_redirect (succs : List Nat) (o n : Nat) (l : List BasicBlock) :
    (l.map (redirectPhis succs o n)).any (fun BB => decide (6 ≤ BB.insts.length))
      = l.any (fun BB => decide (6 ≤ BB.insts.length)) := by
  rw [List.any_map]
  congr 1
  funext B
  simp only [Function.comp, redirectPhis_length]

/-- The loop over the collected blocks gives, up to the redirected PHI operands, the blocks
of `splitEach`, and reports a change exactly when a block of at least 6 instructions was
among them. -/
theorem splitAll_spec : ∀ (n : Nat) (rest done : List BasicBlock) (F : Function)
    (changed : Bool), rest.length = n → F.blocks = done ++ rest →
    (F.blocks.map (fun B => B.id)).Nodup →
    (∀ BB ∈ rest, 6 ≤ BB.insts.length → ∃ t, BB.getTerminator = some t ∧ t.isEHPad = false) →
    ∃ F', BasicBlockSplit.splitAll
        ((rest.filter (fun BB => BB.insts.length > 4)).map (fun BB => BB.id)) F changed
        = some (F', changed || rest.any (fun BB => decide (6 ≤ BB.insts.length))) ∧
      F'.blocks.map (fun B => B.blankIncoming) =
        done.map (fun B => B.blankIncoming) ++
          (splitEach rest F.freshBlockId F.freshId).map (fun B => B.blankIncoming) ∧
      F'.name = F.name ∧ F'.linkage = F.linkage := by
  intro n
  induction n with
  | zero =>
    intro rest done F changed hlen hF _ _
    have : rest = [] := List.length_eq_zero.1 hlen
    subst this
    refine ⟨F, by simp [BasicBlockSplit.splitAll], ?_, rfl, rfl⟩
    rw [hF]
    simp [splitEach]
  | succ n ih =>
    intro rest done F changed hlen hF hnd hwf
    cases rest with
    | nil => simp at hlen
    | cons BB rest' =>
      have hrest : rest'.length = n := by simpa using hlen
      have hwf' : ∀ B ∈ rest', 6 ≤ B.insts.length →
          ∃ t, B.getTerminator = some t ∧ t.isEHPad = false :=
        fun B hB => hwf B (List.mem_cons_of_mem _ hB)
      have hF' : F.blocks = (done ++ [BB]) ++ rest' := by
        rw [hF]
        simp
      have hkeep : ∀ c : Bool, BB.insts.length ≤ 5 →
          ∃ F', BasicBlockSplit.splitAll
              ((rest'.filter (fun BB => BB.insts.length > 4)).map (fun BB => BB.id)) F c
              = some (F', c || (BB :: rest').any (fun BB => decide (6 ≤ BB.insts.length))) ∧
            F'.blocks.map (fun B => B.blankIncoming) =
              done.map (fun B => B.blankIncoming) ++
                (splitEach (BB :: rest') F.freshBlockId F.freshId).map
                  (fun B => B.blankIncoming) ∧
            F'.name = F.name ∧ F'.linkage = F.linkage := by
        intro c h5
        obtain ⟨F', h1, h2, h3, h4⟩ := ih rest' (done ++ [BB]) F c hrest hF' hnd hwf'
        refine ⟨F', ?_, ?_, h3, h4⟩
        · rw [h1]
          have : decide (6 ≤ BB.insts.length) = false := by
            simp only [decide_eq_false_iff_not]
            omega
          simp only [List.any_cons, this, Bool.false_or]
        · rw [h2]
          have hun := splitBlock_unsplit BB F.freshBlockId F.freshId (F.freshId + 1) h5
          simp only [splitEach, hun, ite_self, List.map_append, List.map_cons, List.map_nil,
            List.append_assoc, List.cons_append, List.nil_append]
      by_cases h4 : BB.insts.length > 4
      · rw [List.filter_cons_of_pos (by simpa using h4), List.map_cons]
        by_cases h6 : 6 ≤ BB.insts.length
        · obtain ⟨t, ht, hEH⟩ := hwf BB (List.mem_cons_self _ _) h6
          obtain ⟨k, hk, hsplit⟩ := splitBlock_of_wf BB F.freshBlockId F.freshId
            (F.freshId + 1) t h6 ht hEH
          obtain ⟨F1, hstep, hb1, hn1, hl1, hfb1, hfi1, hnd1⟩ :=
            splitBasicBlock_step F done rest' BB t k _ _ rfl rfl hF hnd h6 ht hk
          have hwf1 : ∀ B ∈ rest'.map (redirectPhis t.successors BB.id F.freshBlockId),
              6 ≤ B.insts.length → ∃ t, B.getTerminator = some t ∧ t.isEHPad = false := by
            intro B hB hB6
            obtain ⟨Y, hY, rfl⟩ := List.mem_map.1 hB
            rw [redirectPhis_length] at hB6
            rw [redirectPhis_getTerminator]
            exact hwf' Y hY hB6
          obtain ⟨F', h1, h2, h3, h4'⟩ := ih
            (rest'.map (redirectPhis t.successors BB.id F.freshBlockId))
            ((done ++ [(⟨BB.id, BB.name,
                BB.insts.take k ++ [branchTo F.freshId F.freshBlockId]⟩ : BasicBlock),
              (⟨F.freshBlockId, BB.name ++ "_split",
                bogusPhi (F.freshId + 1) BB.id :: BB.insts.drop k⟩ : BasicBlock)]).map
              (redirectPhis t.successors BB.id F.freshBlockId))
            F1 (changed || true) (by simpa using hrest) hb1 hnd1 hwf1
          refine ⟨F', ?_, ?_, h3.trans hn1, h4'.trans hl1⟩
          · simp only [BasicBlockSplit.splitAll, hstep]
            rw [filter_ids_redirect] at h1
            rw [h1]
            simp [h6]
          · rw [h2, hfb1, hfi1]
            rw [splitEach_blank _ rest' _ _ (map_redirect_blank t.successors BB.id
              F.freshBlockId rest')]
            simp only [splitEach, if_pos h4, hsplit, List.map_append, List.map_cons,
              List.map_nil, List.map_map, Function.comp_def, redirectPhis_blank,
              List.append_assoc, List.cons_append, List.nil_append]
        · have h5 : BB.insts.length ≤ 5 := by omega
          obtain ⟨hfind, _⟩ := findBlock_at F done rest' BB hF hnd
          have hun := splitBlock_unsplit BB F.freshBlockId F.freshId (F.freshId + 1) h5
          have hstep : BasicBlockSplit.splitBasicBlock F BB.id = some (F, false) := by
            unfold BasicBlockSplit.splitBasicBlock
            rw [hfind]
            simp only [hun]
          simp only [BasicBlockSplit.splitAll, hstep, Bool.or_false]
          exact hkeep changed h5
      · rw [List.filter_cons_of_neg (by simpa using h4)]
        exact hkeep changed (by omega)

theorem endsInPlainTerminator_iff (BB : BasicBlock) (h : BB.endsInPlainTerminator = true) :
    ∃ t, BB.getTerminator = some t ∧ t.isEHPad = false := by
  unfold BasicBlock.endsInPlainTerminator at h
  cases ht : BB.getTerminator with
  | none => simp [ht] at h
  | some t =>
    refine ⟨t, rfl, ?_⟩
    simpa [ht] using h

theorem splitEach_length : ∀ (blocks : List BasicBlock) (nb ni : Nat),
    (∀ BB ∈ blocks, 6 ≤ BB.insts.length → BB.endsInPlainTerminator = true) →
    (splitEach blocks nb ni).length =
      blocks.length + blocks.countP (fun BB => decide (6 ≤ BB.insts.length))
  | [], _, _, _ => rfl
  | BB :: rest, nb, ni, hwf => by
    have hrest : ∀ B ∈ rest, 6 ≤ B.insts.length → B.endsInPlainTerminator = true :=
      fun B hB => hwf B (List.mem_cons_of_mem _ hB)
    by_cases h6 : 6 ≤ BB.insts.length
    · obtain ⟨t, ht, hEH⟩ := endsInPlainTerminator_iff BB (hwf BB (List.mem_cons_self _ _) h6)
      obtain ⟨k, _, hsplit⟩ := splitBlock_of_wf BB nb ni (ni + 1) t h6 ht hEH
      have h4 : BB.insts.length > 4 := by omega
      simp only [splitEach, if_pos h4, hsplit, List.length_cons, List.countP_cons, h6,
        decide_True, if_true, splitEach_length rest (nb + 1) (ni + 2) hrest]
      omega
    · have hun := splitBlock_unsplit BB nb ni (ni + 1) (by omega)
      simp only [splitEach, hun, ite_self, List.length_cons, List.countP_cons, h6,
        decide_False, Bool.false_eq_true, if_false, splitEach_length rest nb ni hrest]
      omega

/-- Claim C15 as stated fails: the block `join` of `joinFunction` has 6 instructions, so the
split index of the claim is 2, but after the pass the first part keeps the first 3 original
instructions (the three PHI nodes) and the block `join_split` receives 3 original
instructions, not 4: the host moves the split position past PHI nodes. -/
theorem block_split_rule_counterexample :
    joinFunction.isDeclaration = false ∧ joinFunction.blocks.length = 4 ∧
    joinBlock ∈ joinFunction.blocks ∧ joinBlock.insts.length = 6 ∧
    joinBlock.insts.length / 3 = 2 ∧
    BasicBlockSplit.run joinFunction = some (joinFunctionSplit, true) ∧
    joinFunctionSplit.blocks.map (fun B => (B.name, B.insts.map (fun I => I.id))) =
      [("entry", [0]), ("left", [1]), ("right", [2]), ("join", [3, 4, 5, 9]),
       ("join_split", [10, 6, 7, 8])] ∧
    (joinBlock.insts.take 2).map (fun I => I.id) = [3, 4] ∧
    (joinBlock.insts.drop 2).map (fun I => I.id) = [5, 6, 7, 8] := by
  decide

/-- Claim C15, amended: the split happens at the first position at or after floor(n/3)
whose instruction is neither a PHI node nor an exception-handling pad. For a defined
function with at least 2 blocks (blocks with distinct identities, every block of at least
6 instructions ending in a terminator that is not an exception-handling pad): the pass
returns a function whose blocks are, up to the PHI operands the host redirects, those of
`splitEach`, which replaces in function order each block that the routine splits by its
two parts; their number is the number of blocks plus the number of blocks with at least 6
instructions; and the pass reports a change exactly when there is such a block. For a
block of `n` instructions the routine leaves it unsplit when `n ≤ 5` (then floor(n/3) < 2),
and for `n ≥ 6` it splits at the position `k` described above: the first part keeps the
first `k` instructions and ends in a new branch to the second, which is named with the
suffix `_split` and holds the new PHI node followed by the remaining `n - k`. -/
theorem block_split_rule (F : Function) (hdef : F.isDeclaration = false)
    (hsize : 2 ≤ F.blocks.length) (hids : (F.blocks.map (fun B => B.id)).Nodup)
    (hwf : ∀ BB ∈ F.blocks, 6 ≤ BB.insts.length → BB.endsInPlainTerminator = true) :
    (∃ F' changed, BasicBlockSplit.run F = some (F', changed) ∧
      F'.name = F.name ∧ F'.linkage = F.linkage ∧
      F'.blocks.map (fun B => B.blankIncoming) =
        (splitEach F.blocks F.freshBlockId F.freshId).map (fun B => B.blankIncoming) ∧
      F'.blocks.length =
        F.blocks.length + F.blocks.countP (fun BB => decide (6 ≤ BB.insts.length)) ∧
      (changed = true ↔ ∃ BB ∈ F.blocks, 6 ≤ BB.insts.length)) ∧
    (∀ BB ∈ F.blocks, ∀ nb ni : Nat,
      (BB.insts.length ≤ 5 →
        BB.insts.length / 3 < 2 ∧ splitBlock BB nb ni (ni + 1) = .unsplit) ∧
      (6 ≤ BB.insts.length →
        ∃ k, BB.insts.length / 3 ≤ k ∧ k < BB.insts.length ∧
          (∀ j, BB.insts.length / 3 ≤ j → j < k →
            ∃ I, BB.insts[j]? = some I ∧ (I.isPHI || I.isEHPad) = true) ∧
          (∃ I, BB.insts[k]? = some I ∧ (I.isPHI || I.isEHPad) = false) ∧
          splitBlock BB nb ni (ni + 1) =
            .split ⟨BB.id, BB.name, BB.insts.take k ++ [branchTo ni nb]⟩
              ⟨nb, BB.name ++ "_split", bogusPhi (ni + 1) BB.id :: BB.insts.drop k⟩ ∧
          (BB.insts.take k).length = k ∧ (BB.insts.drop k).length = BB.insts.length - k)) := by
  have hwf' : ∀ BB ∈ F.blocks, 6 ≤ BB.insts.length →
      ∃ t, BB.getTerminator = some t ∧ t.isEHPad = false :=
    fun BB hBB h6 => endsInPlainTerminator_iff BB (hwf BB hBB h6)
  constructor
  · have hguard : (F.isDeclaration || decide (F.blocks.length < 2)) = false := by
      rw [hdef]
      simp only [Bool.false_or, decide_eq_false_iff_not]
      omega
    obtain ⟨F', h1, h2, h3, h4⟩ :=
      splitAll_spec F.blocks.length F.blocks [] F false rfl (by simp) hids hwf'
    refine ⟨F', false || F.blocks.any (fun BB => decide (6 ≤ BB.insts.length)),
      ?_, h3, h4, ?_, ?_, ?_⟩
    · unfold BasicBlockSplit.run
      rw [hguard]
      simp only [Bool.false_eq_true, if_false]
      exact h1
    · simpa using h2
    · have := congrArg List.length h2
      simp only [List.length_map, List.map_nil, List.nil_append] at this
      rw [this, splitEach_length F.blocks _ _ hwf]
    · simp
  · intro BB hBB nb ni
    constructor
    · intro h5
      exact ⟨by omega, splitBlock_unsplit BB nb ni (ni + 1) h5⟩
    · intro h6
      obtain ⟨t, ht, hEH⟩ := hwf' BB hBB h6
      obtain ⟨k, hk, hsplit⟩ := splitBlock_of_wf BB nb ni (ni + 1) t h6 ht hEH
      obtain ⟨hk1, hk2⟩ := splitPosition_bounds _ _ _ hk
      obtain ⟨hk3, hk4⟩ := splitPosition_first _ _ _ hk
      refine ⟨k, hk1, hk2, hk3, hk4, hsplit, ?_, ?_⟩
      · rw [List.length_take]
        omega
      · rw [List.length_drop]

/-- Claim C15, amended, on `joinFunction`: its block `join` is split at position 3, after
the PHI nodes, and the pass reports a change. -/
theorem block_split_rule_witness :
    (∃ F' changed, BasicBlockSplit.run joinFunction = some (F', changed) ∧
      F'.blocks.length = 4 + 1 ∧ (changed = true ↔ ∃ BB ∈ joinFunction.blocks, 6 ≤ BB.insts.length)) ∧
    splitBlock joinBlock 4 9 10 =
      .split ⟨3, "join", joinBlock.insts.take 3 ++ [branchTo 9 4]⟩
        ⟨4, "join_split", bogusPhi 10 3 :: joinBlock.insts.drop 3⟩ := by
  obtain ⟨⟨F', changed, h1, _, _, _, h5, h6⟩, _⟩ :=
    block_split_rule joinFunction (by decide) (by decide) (by decide) (by decide)
  exact ⟨⟨F', changed, h1, h5.trans (by decide), h6⟩, by decide⟩

end Obfusca
